import Mathlib

/-!
# The programs of the sandbox repository

Shallow embedding of its programs:

* `Policy`: the pair `hash_` / `compare_` every `HashMap` carries
  (`HashFunction<T>` and `CompareFunction<T>`), with the `std::string`
  specialisations `HashFunction` (rotate and xor) and `CompareFunction` (`==`).
* `Hashmap2.BucketMap`: the chained key-value map of `hashmap/hashmap2.cc`.
* `Hashmap.BucketMap`, `Hashmap.OpenAddressMap`: the two key-only
  containers of `hashmap/hashmap.cc`.
* `Sets.Set`: the `Set` of `sets/sets.cc` with `Union` and `intersection`.
* `Knapsack.knapsack`: the function of `knapsack/knapsack.cc` with
  integers of no width, and `Knapsack32.knapsack`: the same function with
  its 32-bit `int`s.
* `Backtracking.call`: the `Backtracker` of `backtracking/backtracking.cc`
  with its subclasses `NumericPermutations` and `NumericSubsets`.
* `PriorityHeaps.PriorityHeap`: the heap of
  `priority-heaps/priority-heap.cc`.
* `Trees.BinaryTree`: the tree of `trees/binary-tree.cc`.

A `std::string` is a list of bytes, a linked chain of `Node`s is a list of
nodes (head first), `std::vector<Node *>` is a list of chains and
`std::vector<std::unique_ptr<T>>` is a list of optional items.  A C++
reference into the table is the position of the node it points at.
Numbers are natural numbers or integers without a width, except where the
width matters: the 64 bits of `uint64_t` in the string hash, and the 32
bits of `int` in `Knapsack32` and in the sums and differences of the
subclasses of the backtracker.  A value the code leaves uninitialised (the
`value` of a node that `operator[]` makes, the array the backtracker
starts with) is a parameter that nothing is assumed about.  A loop whose
end is not plain from its shape takes fuel, and `none` means the fuel ran
out.
-/

namespace Sandbox

/-! ## Policies -/

/-- A `std::string`: a sequence of bytes. -/
abbrev Str := List (Fin 256)

/-- The body of the loop of `HashFunction<std::string>::operator()`:
`hash = (hash << 8) | ((hash & 0xff00000000000000) >> 56); hash ^= c;`
on `uint64_t` (the left shift drops the bits above bit 63). -/
def hashStep (hash : Nat) (c : Fin 256) : Nat :=
  (((hash <<< 8) % 2 ^ 64) ||| ((hash &&& 0xff00000000000000) >>> 56)) ^^^ c.val

/-- `HashFunction<std::string>::operator()`. -/
def HashFunction (s : Str) : Nat :=
  s.foldl hashStep 0

/-- `CompareFunction<std::string>::operator()`: `a == b`. -/
def CompareFunction (a b : Str) : Bool :=
  a == b

/-- The rotation of the spec, `rotate_left_64(d, r)`: the 64-bit word `d`
with its bits moved `r` places up and the bits pushed out at the top
brought back in at the bottom. -/
def rotateLeft64 (d r : Nat) : Nat :=
  ((BitVec.ofNat 64 d).rotateLeft r).toNat

/-- The digest as the spec words it: start from 0 and, for each byte,
rotate the digest left by 8 bits and xor the byte in. -/
def specHash (s : Str) : Nat :=
  s.foldl (fun d byte => rotateLeft64 d 8 ^^^ byte.val) 0

/-- The protected members `hash_` and `compare_` of `HashMap`. -/
structure Policy (KEY : Type) where
  hash_ : KEY → Nat
  compare_ : KEY → KEY → Bool

/-- The policies of a map whose key type is `std::string`. -/
def stringPolicy : Policy Str :=
  ⟨HashFunction, CompareFunction⟩

/-- The bytes of an ASCII text, to write keys down. -/
def ascii (s : String) : Str :=
  s.toList.map (fun c => Fin.ofNat c.toNat)

/-! ## Machine integers -/

/-- The `int` of 32 bits in two's complement that an integer narrows to:
the conversion of a `std::size_t` to `int`, and the result of arithmetic
that is done in `std::size_t` and stored in an `int`.  Arithmetic on two
`int`s has no defined result when it leaves the range; the embedding
wraps it the same way, and the theorems that lean on such arithmetic
assume the bounds under which it stays in the range. -/
def toInt32 (x : Int) : Int :=
  (x + 2 ^ 31) % 2 ^ 32 - 2 ^ 31

/-- The `std::size_t` of 64 bits that an `int` converts to, as in the
comparison of an `int` with a `std::size_t`. -/
def toSize (x : Int) : Nat :=
  (x % 2 ^ 64).toNat

/-! ## `hashmap2.cc`: the chained key-value map -/

namespace Hashmap2

/-- `BucketMap::Node` without its `next` pointer, which is the rest of the
list the node stands in. -/
structure Node (KEY VALUE : Type) where
  key : KEY
  value : VALUE
deriving DecidableEq

/-- `BucketMap<KEY, VALUE>`: the vector `buckets_` of chains. -/
structure BucketMap (KEY VALUE : Type) where
  buckets_ : List (List (Node KEY VALUE))
deriving DecidableEq

/-- A `VALUE &` handed out by `get` or `operator[]`: the node it points
into (bucket and position in the chain), or the static `NONE`. -/
inductive Ref where
  | node (index pos : Nat)
  | NONE
deriving DecidableEq

variable {KEY VALUE : Type}

/-- `BucketMap(size)`: `size` null bucket heads. -/
def BucketMap.empty (size : Nat) : BucketMap KEY VALUE :=
  ⟨List.replicate size []⟩

/-- `buckets_.size()`. -/
def BucketMap.size (m : BucketMap KEY VALUE) : Nat :=
  m.buckets_.length

/-- The chain `buckets_[index]`. -/
def BucketMap.bucket (m : BucketMap KEY VALUE) (index : Nat) : List (Node KEY VALUE) :=
  m.buckets_.getD index []

/-- The value a reference denotes; the static `NONE` is defined as
`NONE{}`, which is value-initialised: zeros and empty strings, `default`
here. -/
def BucketMap.read [Inhabited VALUE] (m : BucketMap KEY VALUE) : Ref → VALUE
  | Ref.node index pos =>
    match (m.bucket index)[pos]? with
    | some n => n.value
    | none => default
  | Ref.NONE => default

/-- The loop of `get`: `for (; nullptr != node; node = node->next)`,
returning the position of the first node whose key compares equal;
`pos` is the number of nodes already passed. -/
def getLoop (P : Policy KEY) (key : KEY) : Nat → List (Node KEY VALUE) → Option Nat
  | _, [] => none
  | pos, node :: next =>
    if P.compare_ node.key key then some pos else getLoop P key (pos + 1) next

/-- `BucketMap::get`. -/
def BucketMap.get (P : Policy KEY) (m : BucketMap KEY VALUE) (key : KEY) : Ref :=
  let hash := P.hash_ key
  let index := hash % m.size
  match getLoop P key 0 (m.bucket index) with
  | some pos => Ref.node index pos
  | none => Ref.NONE

/-- The `else` branch of `insert`, from `node` on, where `next` is the
chain behind `node`: `while (nullptr != node->next)` compares `node`,
overwrites on a match and returns, else steps on; when `node->next` is
null the loop ends and the new node is linked behind `node`. -/
def insertLoop (P : Policy KEY) (key : KEY) (value : VALUE) :
    Node KEY VALUE → List (Node KEY VALUE) → List (Node KEY VALUE)
  | node, [] => [node, ⟨key, value⟩]
  | node, nxt :: rest =>
    if P.compare_ node.key key then ⟨node.key, value⟩ :: nxt :: rest
    else node :: insertLoop P key value nxt rest

/-- `BucketMap::insert`. -/
def BucketMap.insert (P : Policy KEY) (m : BucketMap KEY VALUE) (key : KEY) (value : VALUE) :
    BucketMap KEY VALUE :=
  let hash := P.hash_ key
  let index := hash % m.size
  match m.bucket index with
  | [] => ⟨m.buckets_.set index [⟨key, value⟩]⟩
  | entry :: rest =>
    if P.compare_ entry.key key then ⟨m.buckets_.set index (⟨entry.key, value⟩ :: rest)⟩
    else ⟨m.buckets_.set index (insertLoop P key value entry rest)⟩

/-- The loop of `operator[]`: `while (nullptr != node)` returns at the
first node whose key compares equal, and behind the last node links
`new Node(key)`.  The constructor `Node(K &&)` names only `key` in its
initialiser list, so `value` is default-initialised: a class type runs its
default constructor, a scalar (an `int`, the `age` and `telephone` of
`Record`) is left as it was in the allocated memory.  `fresh` is that
value; nothing is known about it.  The result is the chain after the loop
and the position of the node referred to. -/
def subscriptLoop (P : Policy KEY) (key : KEY) (fresh : VALUE) :
    Nat → List (Node KEY VALUE) → List (Node KEY VALUE) × Nat
  | pos, [] => ([⟨key, fresh⟩], pos)
  | pos, node :: next =>
    if P.compare_ node.key key then (node :: next, pos)
    else
      let r := subscriptLoop P key fresh (pos + 1) next
      (node :: r.1, r.2)

/-- `BucketMap::operator[]`: the table after the call and the reference
returned.  `fresh` is the value `new Node(key)` leaves in a node it makes
(see `subscriptLoop`); a call that finds a node for `key` makes none. -/
def BucketMap.subscript (P : Policy KEY) (m : BucketMap KEY VALUE) (key : KEY) (fresh : VALUE) :
    BucketMap KEY VALUE × Ref :=
  let hash := P.hash_ key
  let index := hash % m.size
  match m.bucket index with
  | [] => (⟨m.buckets_.set index [⟨key, fresh⟩]⟩, Ref.node index 0)
  | entry :: rest =>
    if P.compare_ entry.key key then (m, Ref.node index 0)
    else
      let r := subscriptLoop P key fresh 0 (entry :: rest)
      (⟨m.buckets_.set index r.1⟩, Ref.node index r.2)

/-- A call made on the map by a client; a call of `operator[]` comes with
the value its `new Node(key)` would leave in a new node. -/
inductive Op (KEY VALUE : Type) where
  | insert (key : KEY) (value : VALUE)
  | subscript (key : KEY) (fresh : VALUE)

/-- The key a call passes. -/
def Op.key : Op KEY VALUE → KEY
  | Op.insert key _ => key
  | Op.subscript key _ => key

/-- The table after one call. -/
def BucketMap.step (P : Policy KEY) (m : BucketMap KEY VALUE) :
    Op KEY VALUE → BucketMap KEY VALUE
  | Op.insert key value => m.insert P key value
  | Op.subscript key fresh => (m.subscript P key fresh).1

/-- The table after a sequence of calls. -/
def BucketMap.run (P : Policy KEY) (m : BucketMap KEY VALUE)
    (ops : List (Op KEY VALUE)) : BucketMap KEY VALUE :=
  ops.foldl (BucketMap.step P) m

/-- The tables reachable from the empty table of `size` buckets. -/
def Reachable (P : Policy KEY) (size : Nat) (m : BucketMap KEY VALUE) : Prop :=
  ∃ ops : List (Op KEY VALUE), m = (BucketMap.empty size).run P ops

/-- All nodes of the table, bucket after bucket. -/
def BucketMap.nodes (m : BucketMap KEY VALUE) : List (Node KEY VALUE) :=
  m.buckets_.flatten

/-- The number of nodes of the table whose key is `key`. -/
def BucketMap.nodesWithKey [DecidableEq KEY] (m : BucketMap KEY VALUE) (key : KEY) : Nat :=
  (m.nodes.filter (fun n => decide (n.key = key))).length

/-- The table of seven buckets after `insert("a", 1)` and
`insert("h", 2)`; both keys have home bucket 6. -/
def chainAH : BucketMap Str Nat :=
  (BucketMap.empty 7).run stringPolicy [Op.insert (ascii "a") 1, Op.insert (ascii "h") 2]

/-- An assignment made through a reference that `operator[]` handed out,
as in `contacts["Ana Carolina"].age = 32`: the value of the node referred
to becomes `f` of what it was.  The static `NONE` is `const` and cannot be
assigned to. -/
def BucketMap.store (m : BucketMap KEY VALUE) : Ref → (VALUE → VALUE) → BucketMap KEY VALUE
  | Ref.node index pos, f =>
    match (m.bucket index)[pos]? with
    | some n => ⟨m.buckets_.set index ((m.bucket index).set pos ⟨n.key, f n.value⟩)⟩
    | none => m
  | Ref.NONE, _ => m

/-- The statement `map[key] = f(map[key])`: `operator[]` and then the
assignment through the reference it returned; `fresh` is what the call of
`operator[]` would leave in a new node. -/
def BucketMap.assign (P : Policy KEY) (m : BucketMap KEY VALUE) (key : KEY) (fresh : VALUE)
    (f : VALUE → VALUE) : BucketMap KEY VALUE :=
  let r := m.subscript P key fresh
  r.1.store r.2 f

/-- One such statement: the key, the value a new node would start with,
and what the assignment makes of the value of the node. -/
structure Assignment (KEY VALUE : Type) where
  key : KEY
  fresh : VALUE
  f : VALUE → VALUE

/-- A sequence of such statements, in order. -/
def BucketMap.assignAll (P : Policy KEY) (m : BucketMap KEY VALUE)
    (l : List (Assignment KEY VALUE)) : BucketMap KEY VALUE :=
  l.foldl (fun m a => m.assign P a.key a.fresh a.f) m

/-- The value the assignments of `l` leave for `key`, `none` when none of
them is to `key`: the first assignment to `key` works on the value its new
node starts with, each later one on what the one before left. -/
def assigned [DecidableEq KEY] (key : KEY) (l : List (Assignment KEY VALUE)) : Option VALUE :=
  l.foldl (fun v a => if a.key = key then some (a.f (v.getD a.fresh)) else v) none

/-- The value of the first node of a chain whose key matches `key`. -/
def chainValue (P : Policy KEY) (key : KEY) (chain : List (Node KEY VALUE)) : Option VALUE :=
  (chain.find? (fun n => P.compare_ n.key key)).map (fun n => n.value)

/-- The `Record` of `main`. -/
structure Record where
  age : Nat
  telephone : Nat
  address : Str
  name : Str
deriving DecidableEq

/-- The value-initialised `Record`, which is what `NONE` is. -/
instance : Inhabited Record := ⟨⟨0, 0, [], []⟩⟩

/-- The twelve assignments of `main`, in order (the first address is
written without its accent).  The default-initialised `Record` of a new
node has empty strings and whatever `age` and `telephone` the memory held:
`junk i` and `junk (i + 1)` at the `i`-th statement. -/
def contactsAssignments (junk : Nat → Nat) : List (Assignment Str Record) :=
  [⟨ascii "Daniel Augusto", ⟨junk 0, junk 1, [], []⟩,
      fun r => { r with name := ascii "Daniel Augusto" }⟩,
   ⟨ascii "Daniel Augusto", ⟨junk 1, junk 2, [], []⟩, fun r => { r with age := 28 }⟩,
   ⟨ascii "Daniel Augusto", ⟨junk 2, junk 3, [], []⟩,
      fun r => { r with telephone := 55119683872122 }⟩,
   ⟨ascii "Daniel Augusto", ⟨junk 3, junk 4, [], []⟩,
      fun r => { r with address := ascii "Sao Paulo" }⟩,
   ⟨ascii "Ana Carolina", ⟨junk 4, junk 5, [], []⟩,
      fun r => { r with name := ascii "Ana Carolina" }⟩,
   ⟨ascii "Ana Carolina", ⟨junk 5, junk 6, [], []⟩, fun r => { r with age := 32 }⟩,
   ⟨ascii "Ana Carolina", ⟨junk 6, junk 7, [], []⟩,
      fun r => { r with telephone := 55359955333132 }⟩,
   ⟨ascii "Ana Carolina", ⟨junk 7, junk 8, [], []⟩,
      fun r => { r with address := ascii "Belo Horizonte" }⟩,
   ⟨ascii "Artur Nogueira", ⟨junk 8, junk 9, [], []⟩,
      fun r => { r with name := ascii "Artur Nogueira" }⟩,
   ⟨ascii "Artur Nogueira", ⟨junk 9, junk 10, [], []⟩, fun r => { r with age := 44 }⟩,
   ⟨ascii "Artur Nogueira", ⟨junk 10, junk 11, [], []⟩,
      fun r => { r with telephone := 5523944987462 }⟩,
   ⟨ascii "Artur Nogueira", ⟨junk 11, junk 12, [], []⟩,
      fun r => { r with address := ascii "Salvador" }⟩]

/-- The pairs `(key, value)` inserted in order. -/
def BucketMap.insertAll (P : Policy KEY) (m : BucketMap KEY VALUE) (l : List (KEY × VALUE)) :
    BucketMap KEY VALUE :=
  l.foldl (fun m a => m.insert P a.1 a.2) m

end Hashmap2

/-! ## `hashmap.cc`: the two key-only containers -/

namespace Hashmap

variable {TYPE : Type}

/-- `BucketMap<TYPE>`: the vector `buckets_` of chains; a node holds only
its `value`. -/
structure BucketMap (TYPE : Type) where
  buckets_ : List (List TYPE)
deriving DecidableEq

/-- `BucketMap(size)`: `size` null bucket heads. -/
def BucketMap.empty (size : Nat) : BucketMap TYPE :=
  ⟨List.replicate size []⟩

/-- `buckets_.size()`. -/
def BucketMap.size (m : BucketMap TYPE) : Nat :=
  m.buckets_.length

/-- The chain `buckets_[index]`. -/
def BucketMap.bucket (m : BucketMap TYPE) (index : Nat) : List TYPE :=
  m.buckets_.getD index []

/-- The loop of `BucketMap::get` and the `return Base::NONE` behind it;
`NONE` is the default-constructed `TYPE`. -/
def BucketMap.getLoop [Inhabited TYPE] (P : Policy TYPE) (item : TYPE) : List TYPE → TYPE
  | [] => default
  | value :: next =>
    if P.compare_ value item then value else BucketMap.getLoop P item next

/-- `BucketMap::get`. -/
def BucketMap.get [Inhabited TYPE] (P : Policy TYPE) (m : BucketMap TYPE) (item : TYPE) : TYPE :=
  let hash := P.hash_ item
  let index := hash % m.size
  BucketMap.getLoop P item (m.bucket index)

/-- The `else` branch of `BucketMap::insert` from `node` on:
`while (nullptr != node->next) node = node->next;` and then
`node->next = new Node(item)`. -/
def BucketMap.insertLoop (item : TYPE) : TYPE → List TYPE → List TYPE
  | node, [] => [node, item]
  | node, nxt :: rest => node :: BucketMap.insertLoop item nxt rest

/-- `BucketMap::insert`. -/
def BucketMap.insert (P : Policy TYPE) (m : BucketMap TYPE) (item : TYPE) : BucketMap TYPE :=
  let hash := P.hash_ item
  let index := hash % m.size
  match m.bucket index with
  | [] => ⟨m.buckets_.set index [item]⟩
  | entry :: rest => ⟨m.buckets_.set index (BucketMap.insertLoop item entry rest)⟩

/-- The table after inserting the items in order. -/
def BucketMap.insertAll (P : Policy TYPE) (m : BucketMap TYPE) (items : List TYPE) :
    BucketMap TYPE :=
  items.foldl (BucketMap.insert P) m

/-- `OpenAddressMap<TYPE>`: the vector `data_`; a null `unique_ptr` is
`none`. -/
structure OpenAddressMap (TYPE : Type) where
  data_ : List (Option TYPE)
deriving DecidableEq

/-- How a call of `insert` ended. -/
inductive Result where
  | returned
  | threw (what : String)
deriving DecidableEq

/-- `OpenAddressMap(size)`: `size` null pointers. -/
def OpenAddressMap.empty (size : Nat) : OpenAddressMap TYPE :=
  ⟨List.replicate size none⟩

/-- `data_.size()`. -/
def OpenAddressMap.size (m : OpenAddressMap TYPE) : Nat :=
  m.data_.length

/-- The slot `data_[index]`. -/
def OpenAddressMap.slot (m : OpenAddressMap TYPE) (index : Nat) : Option TYPE :=
  m.data_.getD index none

/-- The `for` loop of `OpenAddressMap::get` with the `return Base::NONE`
behind it, entered with the loop variable at `index`.  Each test of the
loop condition takes one unit of `fuel`; `none` means the fuel ran out. -/
def OpenAddressMap.getLoop [Inhabited TYPE] (P : Policy TYPE) (m : OpenAddressMap TYPE)
    (item : TYPE) (position : Nat) : Nat → Nat → Option TYPE
  | 0, _ => none
  | fuel + 1, index =>
    if position = index then some default
    else
      match m.slot index with
      | some x =>
        if P.compare_ x item then some x
        else OpenAddressMap.getLoop P m item position fuel ((1 + index) % m.size)
      | none => OpenAddressMap.getLoop P m item position fuel ((1 + index) % m.size)

/-- `OpenAddressMap::get`, the loop run with `size` units of fuel; `none`
means the fuel ran out. -/
def OpenAddressMap.get [Inhabited TYPE] (P : Policy TYPE) (m : OpenAddressMap TYPE)
    (item : TYPE) : Option TYPE :=
  let hash := P.hash_ item
  let position := hash % m.size
  match m.slot position with
  | some x =>
    if P.compare_ x item then some x
    else OpenAddressMap.getLoop P m item position m.size ((1 + position) % m.size)
  | none => OpenAddressMap.getLoop P m item position m.size ((1 + position) % m.size)

/-- The `for` loop of `OpenAddressMap::insert`, entered with the loop
variable at `index`; the result is `index` when the loop is left (by the
loop condition or by `break`).  Each test of the loop condition takes one
unit of `fuel`; `none` means the fuel ran out. -/
def OpenAddressMap.insertLoop (m : OpenAddressMap TYPE) (position : Nat) : Nat → Nat → Option Nat
  | 0, _ => none
  | fuel + 1, index =>
    if position = index then some index
    else
      match m.slot index with
      | none => some index
      | some _ => OpenAddressMap.insertLoop m position fuel ((1 + index) % m.size)

/-- `OpenAddressMap::insert`, the loop run with `size` units of fuel: the
table after the call and how the call ended; `none` means the fuel ran
out. -/
def OpenAddressMap.insert (P : Policy TYPE) (m : OpenAddressMap TYPE) (item : TYPE) :
    Option (OpenAddressMap TYPE × Result) :=
  let hash := P.hash_ item
  let position := hash % m.size
  match m.slot position with
  | some _ =>
    match OpenAddressMap.insertLoop m position m.size ((1 + position) % m.size) with
    | none => none
    | some index =>
      if position = index then some (m, Result.threw "map is full")
      else some (⟨m.data_.set index (some item)⟩, Result.returned)
  | none => some (⟨m.data_.set position (some item)⟩, Result.returned)

/-- Inserting the items in order, as the first half of `test` does: the
first `insert` that throws ends the run. -/
def OpenAddressMap.insertAll (P : Policy TYPE) : OpenAddressMap TYPE → List TYPE →
    Option (OpenAddressMap TYPE × Result)
  | m, [] => some (m, Result.returned)
  | m, item :: items =>
    match m.insert P item with
    | none => none
    | some (m1, Result.returned) => OpenAddressMap.insertAll P m1 items
    | some (m1, Result.threw what) => some (m1, Result.threw what)

/-- The tables reachable from the empty table of `size` slots by calls of
`insert`, whether they return or throw. -/
inductive Reachable (P : Policy TYPE) (size : Nat) : OpenAddressMap TYPE → Prop where
  | empty : Reachable P size (OpenAddressMap.empty size)
  | insert (m m1 : OpenAddressMap TYPE) (item : TYPE) (r : Result) :
      Reachable P size m → m.insert P item = some (m1, r) → Reachable P size m1

/-- The number of occupied slots. -/
def OpenAddressMap.occupied (m : OpenAddressMap TYPE) : Nat :=
  (m.data_.filter Option.isSome).length

/-- The number of slots holding an item equal to `item`. -/
def OpenAddressMap.holding (P : Policy TYPE) (m : OpenAddressMap TYPE) (item : TYPE) : Nat :=
  (m.data_.filter (fun s => match s with
    | some x => P.compare_ x item
    | none => false)).length

/-- A table of three slots with "a" at its home slot 1 and "d", whose home
is slot 1 too, in slot 2. -/
def threeSlotsAD : OpenAddressMap Str :=
  ⟨[none, some (ascii "a"), some (ascii "d")]⟩

/-- The walk of the specified `locate`, with `steps` slots of the cycle
still to visit: it returns the first slot equal to `item`, and `NONE` as
soon as it meets an empty slot or has completed the cycle. -/
def OpenAddressMap.locateWalk [Inhabited TYPE] (P : Policy TYPE) (m : OpenAddressMap TYPE)
    (item : TYPE) : Nat → Nat → TYPE
  | 0, _ => default
  | steps + 1, index =>
    match m.slot index with
    | none => default
    | some x =>
      if P.compare_ x item then x
      else OpenAddressMap.locateWalk P m item steps ((1 + index) % m.size)

/-- The specified `locate`: the walk from `hash(item) mod capacity` over
one cycle of `capacity` slots. -/
def OpenAddressMap.locate [Inhabited TYPE] (P : Policy TYPE) (m : OpenAddressMap TYPE)
    (item : TYPE) : TYPE :=
  OpenAddressMap.locateWalk P m item m.size (P.hash_ item % m.size)

/-- The nine strings `test` inserts, in order. -/
def testItems : List Str :=
  [ascii "When you, when you forget your name.",
   ascii "When old faces all look the same.",
   ascii "Meet me in the morning when you wake up.",
   ascii "Meet me in the morning then you wake up.",
   ascii "If only I don't bend and break,",
   ascii "I'll meet you on the other side,",
   ascii "I'll meet you in the light.",
   ascii "If only I don't suffocate,",
   ascii "I will meet you in the morning when you wake."]

/-- The open-addressing table of `main`, of 23 slots, after the nine
inserts of `test`. -/
def testOpenTable : OpenAddressMap Str :=
  match OpenAddressMap.insertAll stringPolicy (OpenAddressMap.empty 23) testItems with
  | some (m, _) => m
  | none => OpenAddressMap.empty 23

/-- The capacity-4 scenario: five keys whose home index is 0. -/
def sameHomeKeys : List Str :=
  [ascii "d", ascii "h", ascii "l", ascii "p", ascii "t"]

/-- A table of one slot, which holds "a". -/
def oneSlotA : OpenAddressMap Str :=
  ⟨[some (ascii "a")]⟩

/-- A table of three slots with "a" at its home slot 1. -/
def threeSlotsA : OpenAddressMap Str :=
  ⟨[none, some (ascii "a"), none]⟩

end Hashmap

/-! ## `sets/sets.cc` -/

namespace Sets

/-- `Set<std::size_t>`: the flag `is_sorted_` and the vector `vector_`. -/
structure Set where
  is_sorted_ : Bool
  vector_ : List Nat
deriving DecidableEq

/-- A default-constructed `Set`. -/
def Set.empty : Set :=
  ⟨true, []⟩

/-- `std::sort` on a vector of numbers: the sorted rearrangement. -/
def sort (v : List Nat) : List Nat :=
  v.insertionSort (fun a b => a ≤ b)

/-- `Set::push`. -/
def Set.push (s : Set) (x : Nat) : Set :=
  let vector := s.vector_ ++ [x]
  let size := vector.length
  if 1 < size ∧ s.is_sorted_ = true then
    ⟨decide (vector.getD (size - 2) 0 ≤ vector.getD (size - 1) 0), vector⟩
  else ⟨s.is_sorted_, vector⟩

/-- The `for` loop of `Set::Union` over the two sorted vectors, entered
with the indices `i`, `j` and the result so far.  Each test of the loop
condition takes one unit of `fuel`; `none` means the fuel ran out. -/
def unionLoop (v o : List Nat) : Nat → Nat → Nat → List Nat → Option (List Nat)
  | 0, _, _, _ => none
  | fuel + 1, i, j, result =>
    if v.length > i ∧ o.length > j then
      if v.getD i 0 < o.getD j 0 then unionLoop v o fuel (i + 1) j result
      else if v.getD i 0 > o.getD j 0 then unionLoop v o fuel i (j + 1) result
      else unionLoop v o fuel (i + 1) (j + 1) (result ++ [v.getD i 0])
    else some result

/-- `Set::Union`: the receiver after the call (the call sorts it in
place) and the set returned; `none` means the fuel ran out. -/
def Set.Union (s other : Set) : Option (Set × Set) :=
  let self : Set := if s.is_sorted_ then s else ⟨true, sort s.vector_⟩
  let o := if other.is_sorted_ then other.vector_ else sort other.vector_
  match unionLoop self.vector_ o (self.vector_.length + o.length + 1) 0 0 [] with
  | some result => some (self, ⟨true, result⟩)
  | none => none

/-- The `while` loop of `Set::intersection`: the indices and the result
when the loop is left.  Each test of the loop condition takes one unit of
`fuel`; `none` means the fuel ran out. -/
def intersectionLoop (v o : List Nat) : Nat → Nat → Nat → List Nat →
    Option (Nat × Nat × List Nat)
  | 0, _, _, _ => none
  | fuel + 1, i, j, result =>
    if v.length > i ∧ o.length > j then
      if v.getD i 0 < o.getD j 0 then
        intersectionLoop v o fuel (i + 1) j (result ++ [v.getD i 0])
      else if v.getD i 0 > o.getD j 0 then
        intersectionLoop v o fuel i (j + 1) (result ++ [o.getD j 0])
      else intersectionLoop v o fuel (i + 1) (j + 1) result
    else some (i, j, result)

/-- `Set::intersection`: the receiver after the call and the set
returned; the two `for` loops behind the `while` push the rest of either
vector.  `none` means the fuel ran out. -/
def Set.intersection (s other : Set) : Option (Set × Set) :=
  let self : Set := if s.is_sorted_ then s else ⟨true, sort s.vector_⟩
  let o := if other.is_sorted_ then other.vector_ else sort other.vector_
  match intersectionLoop self.vector_ o (self.vector_.length + o.length + 1) 0 0 [] with
  | some (i, j, result) => some (self, ⟨true, result ++ self.vector_.drop i ++ o.drop j⟩)
  | none => none

/-- The `set_a` of `main`: 1, 2, 3, 5, 4 pushed in this order. -/
def set_a : Set :=
  ((((Set.empty.push 1).push 2).push 3).push 5).push 4

/-- The `set_b` of `main`: 2, 4, 6 pushed in this order. -/
def set_b : Set :=
  ((Set.empty.push 2).push 4).push 6

end Sets

/-! ## `knapsack/knapsack.cc` -/

namespace Knapsack

/-- `struct Item`. -/
structure Item where
  cost : Nat
  value : Nat
deriving DecidableEq

/-- `typedef std::vector<Item> Items`. -/
abbrev Items := List Item

/-- The element `input[i]`. -/
def item (input : Items) (i : Nat) : Item :=
  input.getD i ⟨0, 0⟩

/-- The local `map` of `knapsack`, read as the vector `map[cost][round]`
of pairs (index, total value); a key the map lacks reads as the empty
vector.  All keys are costs from 0 to `max_cost` and rounds from 1 on. -/
abbrev Map := Nat → Nat → List (Nat × Nat)

/-- The statement `map[cost][round].push_back(entry)`. -/
def push_back (map : Map) (cost round : Nat) (entry : Nat × Nat) : Map :=
  fun c r => if c = cost ∧ r = round then map c r ++ [entry] else map c r

/-- The local `greatest` of `knapsack`. -/
structure Greatest where
  value : Nat
  round : Nat
  cost : Nat
deriving DecidableEq

/-- The locals that the two enumeration loops write. -/
structure State where
  map : Map
  greatest : Greatest

/-- The statements both loops run for a sub-collection within
`max_cost`: `map[total_cost][round].push_back({index, total_value})` and
the update of `greatest` when the value is strictly greater. -/
def State.record (s : State) (total_cost round index total_value : Nat) : State :=
  let map := push_back s.map total_cost round (index, total_value)
  if s.greatest.value < total_value then ⟨map, ⟨total_value, round, total_cost⟩⟩
  else ⟨map, s.greatest⟩

/-- The body of the first loop, for one `i`. -/
def firstStep (input : Items) (max_cost : Nat) (s : State) (i : Nat) : State :=
  let total_cost := (item input i).cost
  if max_cost ≥ total_cost then s.record total_cost 1 i (item input i).value else s

/-- The first loop: the sub-collections of one element. -/
def firstIteration (input : Items) (max_cost : Nat) : State :=
  (List.range input.length).foldl (firstStep input max_cost) ⟨fun _ _ => [], ⟨0, 0, 0⟩⟩

/-- The body of the innermost loop of a round, for one `j`: the
sub-collection behind `entry`, of cost `total_cost`, with `input[j]`
added. -/
def extend (input : Items) (max_cost round total_cost : Nat) (entry : Nat × Nat) (s : State)
    (j : Nat) : State :=
  let new_total_cost := total_cost + (item input j).cost
  if max_cost ≥ new_total_cost then
    let new_total_value := entry.2 + (item input j).value
    s.record new_total_cost (round + 1) j new_total_value
  else s

/-- The loop over `j` from `last_index + 1` to the end of the input. -/
def extendEntry (input : Items) (max_cost round total_cost : Nat) (s : State)
    (entry : Nat × Nat) : State :=
  (List.range' (entry.1 + 1) (input.length - (entry.1 + 1))).foldl
    (extend input max_cost round total_cost entry) s

/-- The loop over the vector `map[total_cost][round]`.  The vector is
read when the loop starts: the loop pushes into vectors of `round + 1`
only, so the vector it walks does not change under it. -/
def extendCost (input : Items) (max_cost round : Nat) (s : State) (total_cost : Nat) : State :=
  (s.map total_cost round).foldl (extendEntry input max_cost round total_cost) s

/-- One round: the loop over the keys of `map` in increasing order.  The
keys are costs up to `max_cost`, and a cost that is no key contributes no
vector, so the loop runs over all costs from 0 to `max_cost`. -/
def pass (input : Items) (max_cost : Nat) (s : State) (round : Nat) : State :=
  (List.range (max_cost + 1)).foldl (extendCost input max_cost round) s

/-- The loop over the rounds 1 to `input.size() - 1`. -/
def rounds (input : Items) (max_cost : Nat) (s : State) : State :=
  (List.range' 1 (input.length - 1)).foldl (pass input max_cost) s

/-- The test `indexes.empty() || items[i].first < indexes.back()`. -/
def eligible (indexes : List Nat) (entry : Nat × Nat) : Bool :=
  match indexes.getLast? with
  | none => true
  | some back => decide (entry.1 < back)

/-- The inner loop of the reconstruction, from the last element of
`items` to the first: the locals `index` (`none` for -1) and `value` when
the loop ends. -/
def pick (indexes : List Nat) (items : List (Nat × Nat)) : Option Nat × Nat :=
  items.reverse.foldl
    (fun acc entry =>
      if eligible indexes entry = true then
        if acc.2 ≤ entry.2 then (some entry.1, entry.2) else acc
      else acc)
    (none, 0)

/-- The reconstruction loop, entered with `greatest.round`,
`greatest.cost` and `indexes`; a failed assertion ends it with an
error. -/
def reconstruct (input : Items) (map : Map) : Nat → Nat → List Nat → Except String (List Nat)
  | 0, _, indexes => Except.ok indexes
  | round + 1, cost, indexes =>
    let items := map cost (round + 1)
    if items.isEmpty then Except.error "assert(!items.empty())"
    else
      match (pick indexes items).1 with
      | none => Except.error "assert(0 <= index)"
      | some index =>
        reconstruct input map round (cost - (item input index).cost) (indexes ++ [index])

/-- The function `knapsack` on an input that `std::sort` has ordered. -/
def knapsackSorted (input : Items) (max_cost : Nat) : Except String Items :=
  let s := rounds input max_cost (firstIteration input max_cost)
  match reconstruct input s.map s.greatest.round s.greatest.cost [] with
  | Except.ok indexes => Except.ok (indexes.map (item input))
  | Except.error what => Except.error what

/-- The function `knapsack`.  `std::sort` orders by `cost` and leaves the
order of items of equal cost open, so the sort is a parameter; `byCost`
is one such sort. -/
def knapsack (sort : Items → Items) (input : Items) (max_cost : Nat) : Except String Items :=
  knapsackSorted (sort input) max_cost

/-- A sort by `cost`. -/
def byCost (input : Items) : Items :=
  input.insertionSort (fun a b => a.cost ≤ b.cost)

/-- The sum of the costs. -/
def totalCost (items : Items) : Nat :=
  (items.map Item.cost).sum

/-- The sum of the values. -/
def totalValue (items : Items) : Nat :=
  (items.map Item.value).sum

/-- What an entry of `map[c][r]` stands for: a sub-collection of `r`
items of the sorted input whose last item is `input[entry.1]`, of total
cost `c <= max_cost` and total value `entry.2`; `S` is the sub-collection
without its last item, with the items in input order. -/
def Valid (input : Items) (max_cost c r : Nat) (entry : Nat × Nat) : Prop :=
  ∃ S : Items, S.Sublist (input.take entry.1) ∧ entry.1 < input.length ∧ S.length + 1 = r ∧
    totalCost S + (item input entry.1).cost = c ∧
    totalValue S + (item input entry.1).value = entry.2 ∧ c ≤ max_cost

/-- Every entry of the map stands for a sub-collection. -/
def Sound (input : Items) (max_cost : Nat) (s : State) : Prop :=
  ∀ c r entry, entry ∈ s.map c r → Valid input max_cost c r entry

/-- Every sub-collection of at most `R` items within `max_cost` has its
entry in the map. -/
def Complete (input : Items) (max_cost R : Nat) (s : State) : Prop :=
  ∀ (j : Nat) (S : Items), j < input.length → S.Sublist (input.take j) → S.length + 1 ≤ R →
    totalCost S + (item input j).cost ≤ max_cost →
    (j, totalValue S + (item input j).value)
      ∈ s.map (totalCost S + (item input j).cost) (S.length + 1)

/-- The local `greatest` bounds the value of every entry and, once a
round is set, names an entry of the map. -/
def GreatestOK (s : State) : Prop :=
  (∀ c r entry, entry ∈ s.map c r → entry.2 ≤ s.greatest.value) ∧
  (s.greatest.round = 0 → s.greatest.value = 0) ∧
  (0 < s.greatest.round →
    ∃ j, (j, s.greatest.value) ∈ s.map s.greatest.cost s.greatest.round)

/-- The map of `t` holds every entry of the map of `s`. -/
def State.le (s t : State) : Prop :=
  ∀ c r entry, entry ∈ s.map c r → entry ∈ t.map c r

/-- The items of `main`. -/
def mainItems : Items :=
  [⟨1, 1⟩, ⟨2, 100⟩, ⟨3, 9⟩, ⟨4, 16⟩, ⟨5, 25⟩]

end Knapsack

/-! ## `knapsack/knapsack.cc` with the widths of its integers

`Knapsack` above reads the `int`s of `knapsack` as numbers without a width,
which is what they are while no total reaches `2 ^ 31`
(`Knapsack32.knapsack_widths` below).  Here every `int` is the 32-bit `int`
it is: `Item::cost` and `Item::value` are `std::size_t`, and each of them
narrows when it is stored in an `int`.  Positions in the input and rounds
stay natural numbers (they count items of a vector). -/

namespace Knapsack32

open Knapsack

/-- The local `map` of `knapsack`,
`std::map<int, std::map<int, std::vector<std::pair<int, int>>>>`: the
keys of the outer map in increasing order, and the vector
`map[cost][round]` of pairs (index, total value), empty where the map has
none. -/
structure Map where
  keys : List Int
  vector : Int → Nat → List (Nat × Int)

/-- The keys of the outer map once it has the key `cost`: in increasing
order, each once. -/
def insertKey (cost : Int) : List Int → List Int
  | [] => [cost]
  | key :: keys =>
    if cost < key then cost :: key :: keys
    else if cost = key then key :: keys
    else key :: insertKey cost keys

/-- The statement `map[cost][round].push_back(entry)`. -/
def push_back (map : Map) (cost : Int) (round : Nat) (entry : Nat × Int) : Map :=
  ⟨insertKey cost map.keys,
    fun c r => if c = cost ∧ r = round then map.vector c r ++ [entry] else map.vector c r⟩

/-- The local `greatest` of `knapsack`. -/
structure Greatest where
  value : Int
  round : Nat
  cost : Int
deriving DecidableEq

/-- The locals that the two enumeration loops write. -/
structure State where
  map : Map
  greatest : Greatest

/-- The body of the first loop, for one `i`.  `total_cost` and the value
pushed are `int`s made from a `std::size_t`; the test
`greatest.value < input[i].value` compares an `int` with a `std::size_t`,
for which the `int` is converted. -/
def firstStep (input : Items) (max_cost : Int) (s : State) (i : Nat) : State :=
  let total_cost := toInt32 (item input i).cost
  if max_cost ≥ total_cost then
    let map := push_back s.map total_cost 1 (i, toInt32 (item input i).value)
    if toSize s.greatest.value < (item input i).value then
      ⟨map, ⟨toInt32 (item input i).value, 1, total_cost⟩⟩
    else ⟨map, s.greatest⟩
  else s

/-- The first loop: the sub-collections of one element. -/
def firstIteration (input : Items) (max_cost : Int) : State :=
  (List.range input.length).foldl (firstStep input max_cost) ⟨⟨[], fun _ _ => []⟩, ⟨0, 0, 0⟩⟩

/-- The body of the innermost loop of a round, for one `j`.  Both sums
add a `std::size_t` to an `int` and are stored in an `int`; the test
`greatest.value < new_total_value` compares two `int`s. -/
def extend (input : Items) (max_cost : Int) (round : Nat) (total_cost : Int) (entry : Nat × Int)
    (s : State) (j : Nat) : State :=
  let new_total_cost := toInt32 (total_cost + (item input j).cost)
  if max_cost ≥ new_total_cost then
    let new_total_value := toInt32 (entry.2 + (item input j).value)
    let map := push_back s.map new_total_cost (round + 1) (j, new_total_value)
    if s.greatest.value < new_total_value then
      ⟨map, ⟨new_total_value, round + 1, new_total_cost⟩⟩
    else ⟨map, s.greatest⟩
  else s

/-- The loop over `j` from `last_index + 1` to the end of the input. -/
def extendEntry (input : Items) (max_cost : Int) (round : Nat) (total_cost : Int) (s : State)
    (entry : Nat × Int) : State :=
  (List.range' (entry.1 + 1) (input.length - (entry.1 + 1))).foldl
    (extend input max_cost round total_cost entry) s

/-- The body of `for (auto & item : map)` for the key `total_cost`: the
loop over the vector `map[total_cost][round]`, which is empty when `find`
finds no such round.  The vector is read when the loop starts: the loop
pushes into vectors of `round + 1` only. -/
def extendCost (input : Items) (max_cost : Int) (round : Nat) (s : State) (total_cost : Int) :
    State :=
  (s.map.vector total_cost round).foldl (extendEntry input max_cost round total_cost) s

/-- The key the iterator of `for (auto & item : map)` stands at next:
the first key when the loop starts, then the least key greater than the
one just done, in the map as it is by then. -/
def nextKey (map : Map) : Option Int → Option Int
  | none => map.keys.head?
  | some last => map.keys.find? (fun key => decide (last < key))

/-- The loop `for (auto & item : map)` of one round, `last` being the key
just done.  Each key takes one unit of fuel; `none` means the fuel ran
out. -/
def passLoop (input : Items) (max_cost : Int) (round : Nat) :
    Nat → State → Option Int → Option State
  | 0, _, _ => none
  | fuel + 1, s, last =>
    match nextKey s.map last with
    | none => some s
    | some total_cost =>
      passLoop input max_cost round fuel (extendCost input max_cost round s total_cost)
        (some total_cost)

/-- One round.  The keys are `int`s and the iterator only moves up, so a
round is over after at most `2 ^ 32` keys. -/
def pass (input : Items) (max_cost : Int) (s : State) (round : Nat) : Option State :=
  passLoop input max_cost round (2 ^ 32 + 1) s none

/-- The loop over the rounds 1 to `input.size() - 1`. -/
def rounds (input : Items) (max_cost : Int) (s : State) : Option State :=
  (List.range' 1 (input.length - 1)).foldl
    (fun acc round => acc.bind (fun s => pass input max_cost s round)) (some s)

/-- The test `indexes.empty() || items[i].first < indexes.back()`. -/
def eligible (indexes : List Nat) (entry : Nat × Int) : Bool :=
  match indexes.getLast? with
  | none => true
  | some back => decide (entry.1 < back)

/-- The inner loop of the reconstruction, from the last element of
`items` to the first: the locals `index` (`none` for -1) and `value` when
the loop ends. -/
def pick (indexes : List Nat) (items : List (Nat × Int)) : Option Nat × Int :=
  items.reverse.foldl
    (fun acc entry =>
      if eligible indexes entry = true then
        if acc.2 ≤ entry.2 then (some entry.1, entry.2) else acc
      else acc)
    (none, 0)

/-- The reconstruction loop, entered with `greatest.round`,
`greatest.cost` and `indexes`; a failed assertion ends it with an error.
`greatest.cost -= input[index].cost` subtracts a `std::size_t` and stores
an `int`. -/
def reconstruct (input : Items) (map : Map) : Nat → Int → List Nat → Except String (List Nat)
  | 0, _, indexes => Except.ok indexes
  | round + 1, cost, indexes =>
    let items := map.vector cost (round + 1)
    if items.isEmpty then Except.error "assert(!items.empty())"
    else
      match (pick indexes items).1 with
      | none => Except.error "assert(0 <= index)"
      | some index =>
        reconstruct input map round (toInt32 (cost - (item input index).cost))
          (indexes ++ [index])

/-- The function `knapsack` on an input that `std::sort` has ordered;
`none` when a round ran out of fuel. -/
def knapsackSorted (input : Items) (max_cost : Int) : Option (Except String Items) :=
  (rounds input max_cost (firstIteration input max_cost)).map
    (fun s =>
      match reconstruct input s.map s.greatest.round s.greatest.cost [] with
      | Except.ok indexes => Except.ok (indexes.map (item input))
      | Except.error what => Except.error what)

/-- The function `knapsack`, the sort being a parameter as in
`Knapsack.knapsack`. -/
def knapsack (sort : Items → Items) (input : Items) (max_cost : Int) :
    Option (Except String Items) :=
  knapsackSorted (sort input) max_cost

/-- An entry of the map without widths as the `pair<int, int>` it is. -/
def narrow (entry : Nat × Nat) : Nat × Int :=
  (entry.1, (entry.2 : Int))

/-- The state `t` of the function with widths holds what the state `s` of
the function without widths holds: the same vectors under the same keys,
nothing under a negative key, and the same `greatest`. -/
def Same (s : Knapsack.State) (t : State) : Prop :=
  (∀ c r : Nat, t.map.vector (c : Int) r = (s.map c r).map narrow) ∧
  (∀ (c : Int) (r : Nat), c < 0 → t.map.vector c r = []) ∧
  t.greatest = ⟨(s.greatest.value : Int), s.greatest.round, (s.greatest.cost : Int)⟩

/-- The keys of the outer map are in increasing order and are the costs
under which a vector holds an entry. -/
def KeysOK (map : Map) : Prop :=
  map.keys.Pairwise (fun a b => a < b) ∧ ∀ c : Int, c ∈ map.keys ↔ ∃ r, map.vector c r ≠ []

/-- The iterator of `for (auto & item : map)` stands behind `last` when
the keys from `c0` on are still to come. -/
def Behind (last : Option Int) (c0 : Nat) : Prop :=
  (last = none ∧ c0 = 0) ∨ last = some ((c0 : Int) - 1)

/-- The two functions are at the same point of their work: the state
without widths has its invariants, and the state with widths holds the
same. -/
def Linked (input : Items) (max_cost : Nat) (s : Knapsack.State) (t : State) : Prop :=
  (Sound input max_cost s ∧ GreatestOK s) ∧ Same s t ∧ KeysOK t.map

end Knapsack32

/-! ## `backtracking/backtracking.cc` -/

namespace Backtracking

/-- The three pure virtual functions of `Backtracker<int, K>`.
`generate_candidates` gives the first `number_of_candidates` elements of
`candidates`; `process` gives the numbers it prints. -/
structure Hooks where
  generate_candidates : List Int → Nat → List Int
  process : List Int → Nat → List Int
  terminates : List Int → Nat → Bool

/-- What a run works on: the array `input`, the member `finished_`, and
the lines `process` has printed so far. -/
structure State where
  input : List Int
  finished_ : Bool
  printed : List (List Int)
deriving DecidableEq

/-- `Backtracker::operator()(input, index)`.  The `if (finished_) return`
that ends an iteration of the loop over the candidates is tested when the
next iteration would start.  Each call takes one unit of `fuel`; `none`
means the fuel ran out. -/
def call (h : Hooks) (K : Nat) : Nat → State → Nat → Option State
  | 0, _, _ => none
  | fuel + 1, s, index =>
    let s1 : State :=
      if h.terminates s.input index = true then
        { s with printed := s.printed ++ [h.process s.input index] }
      else s
    if s1.finished_ = true then some s1
    else if K ≥ index then
      (h.generate_candidates s1.input index).foldl
        (fun acc candidate =>
          match acc with
          | none => none
          | some s2 =>
            if s2.finished_ = true then some s2
            else call h K fuel { s2 with input := s2.input.set index candidate } (1 + index))
        (some s1)
    else some s1

/-- `Backtracker::operator()()`: the array `input` starts with whatever
the stack holds, here `input`; `K + 1` units of fuel. -/
def run (h : Hooks) (K : Nat) (input : List Int) : Option State :=
  call h K (K + 1) ⟨input, false, []⟩ 0

/-- `NumericPermutations<K, START>`.  `K` and `START` are `int` template
arguments.  `input[i] - START` subtracts two `int`s and is the index of
an element of `possible_candidates`; in the runs the theorems are about
it lies between 0 and `K - 1`.  `START + i` adds a `std::size_t` to an
`int` and the sum is stored in the `int` array `candidates`. -/
def NumericPermutations (K : Nat) (START : Int) : Hooks where
  generate_candidates := fun input input_size =>
    if K = input_size then []
    else
      let possible_candidates :=
        (List.range input_size).foldl
          (fun possible i => possible.set (toInt32 (input.getD i 0 - START)).toNat 1)
          (List.replicate K (0 : Int))
      (List.range K).foldl
        (fun candidates i =>
          if 1 > possible_candidates.getD i 0 then candidates ++ [toInt32 (START + (i : Int))]
          else candidates)
        []
  process := fun input _ => input
  terminates := fun _ index => decide (K = index)

/-- `NumericSubsets<K, START>`, for `K >= 2`.  `START + i` adds two
`int`s. -/
def NumericSubsets (K : Nat) (START : Int) : Hooks where
  generate_candidates := fun _ input_size => if K > input_size then [1, 0] else []
  process := fun input _ =>
    (List.range K).foldl
      (fun line i => if 0 < input.getD i 0 then line ++ [toInt32 (START + (i : Int))] else line)
      []
  terminates := fun _ index => decide (K = index)

/-- The integers `START`, ..., `START + K - 1`. -/
def values (K : Nat) (START : Int) : List Int :=
  (List.range K).map (fun (i : Nat) => START + (i : Int))

/-- The arrangements of `avail`, a list of `n` numbers, each taking its
first element from `avail` in order and then arranging the rest. -/
def arrangements : Nat → List Int → List (List Int)
  | 0, _ => [[]]
  | n + 1, avail =>
    avail.flatMap (fun c => (arrangements n (avail.filter (fun x => x ≠ c))).map (fun p => c :: p))

/-- The arrays of `n` entries 1 or 0, those that start with 1 first. -/
def choices : Nat → List (List Int)
  | 0 => [[]]
  | n + 1 => (choices n).map (fun b => 1 :: b) ++ (choices n).map (fun b => 0 :: b)

/-- The line `NumericSubsets::process` prints for the entries `bits`
that stand at the positions `START`, `START + 1`, ...: the positions of
the positive entries. -/
def line (START : Int) : List Int → List Int
  | [] => []
  | b :: bits => (if 0 < b then [START] else []) ++ line (START + 1) bits

end Backtracking

/-! ## `priority-heaps/priority-heap.cc` -/

namespace PriorityHeaps

/-- `PriorityHeap<int>`: the vector `container_`. -/
structure PriorityHeap where
  container_ : List Int
deriving DecidableEq

/-- `std::swap(container_[a], container_[b])`. -/
def swap (container : List Int) (a b : Nat) : List Int :=
  (container.set a (container.getD b 0)).set b (container.getD a 0)

/-- The `while` loop of `push`, entered with `i`.  Each test of the loop
condition takes one unit of `fuel`; `none` means the fuel ran out. -/
def pushLoop : Nat → List Int → Nat → Option (List Int)
  | 0, _, _ => none
  | fuel + 1, container, i =>
    if 0 < i then
      let half := i / 2
      if container.getD half 0 > container.getD i 0 then
        pushLoop fuel (swap container half i) half
      else some container
    else some container

/-- `PriorityHeap::push`, the loop run with `size + 1` units of fuel. -/
def PriorityHeap.push (h : PriorityHeap) (x : Int) : Option PriorityHeap :=
  let container := h.container_ ++ [x]
  let i := container.length - 1
  match pushLoop (container.length + 1) container i with
  | some c => some ⟨c⟩
  | none => none

/-- The `while` loop of `pop`, entered with `parent` and `i`: the
container and `parent` when the loop is left.  Each test of the loop
condition takes one unit of `fuel`; `none` means the fuel ran out. -/
def popLoop : Nat → List Int → Nat → Nat → Option (List Int × Nat)
  | 0, _, _, _ => none
  | fuel + 1, container, parent, i =>
    if container.length ≥ i then
      let i1 := if container.length > i ∧ container.getD (i - 1) 0 > container.getD i 0
        then 1 + i else i
      popLoop fuel (swap container (parent - 1) (i1 - 1)) i1 (i1 * 2)
    else some (container, parent)

/-- `PriorityHeap::pop` on a heap that is not empty, the loop run with
`size + 1` units of fuel: the value returned and the heap after the
call. -/
def PriorityHeap.pop (h : PriorityHeap) : Option (Int × PriorityHeap) :=
  let result := h.container_.getD 0 0
  match popLoop (h.container_.length + 1) h.container_ 1 2 with
  | some (container, parent) =>
    some (result, ⟨(swap container (parent - 1) (container.length - 1)).dropLast⟩)
  | none => none

/-- The pushes of the values of `l` in order. -/
def PriorityHeap.pushAll (h : PriorityHeap) (l : List Int) : Option PriorityHeap :=
  l.foldl (fun acc x => acc.bind (fun h1 => h1.push x)) (some h)

/-- The values returned by `n` pops in a row, and the heap behind them. -/
def PriorityHeap.pops : Nat → PriorityHeap → Option (List Int × PriorityHeap)
  | 0, h => some ([], h)
  | n + 1, h =>
    match h.pop with
    | some (x, h1) =>
      match PriorityHeap.pops n h1 with
      | some (xs, h2) => some (x :: xs, h2)
      | none => none
    | none => none

end PriorityHeaps

/-! ## `trees/binary-tree.cc` -/

namespace Trees

/-- `Node<int>`; a pointer is the address of a node, `none` for
`nullptr`. -/
structure Node where
  left : Option Nat
  parent : Option Nat
  right : Option Nat
  value : Int
  height : Nat
deriving DecidableEq

instance : Inhabited Node := ⟨⟨none, none, none, 0, 0⟩⟩

/-- `BinaryTree<int>`: the nodes it has allocated, by address, and
`root_`. -/
structure BinaryTree where
  nodes : List Node
  root_ : Option Nat
deriving DecidableEq

/-- How a call ended: it returned, it failed an assertion or followed a
null pointer, or the fuel ran out before it returned. -/
inductive Run (α : Type) where
  | done (a : α)
  | failed (what : String)
  | outOfFuel
deriving DecidableEq

/-- A `NODE * &`: the pointer referred to is `root_`, or the `left` or
`right` of the node at an address. -/
inductive Slot where
  | root
  | left (a : Nat)
  | right (a : Nat)
deriving DecidableEq

/-- The node at address `a`. -/
def BinaryTree.node (t : BinaryTree) (a : Nat) : Node :=
  t.nodes.getD a default

/-- The node at address `a` overwritten. -/
def BinaryTree.setNode (t : BinaryTree) (a : Nat) (n : Node) : BinaryTree :=
  { t with nodes := t.nodes.set a n }

/-- The pointer a `NODE * &` refers to. -/
def BinaryTree.read (t : BinaryTree) : Slot → Option Nat
  | Slot.root => t.root_
  | Slot.left a => (t.node a).left
  | Slot.right a => (t.node a).right

/-- An assignment through a `NODE * &`. -/
def BinaryTree.write (t : BinaryTree) : Slot → Option Nat → BinaryTree
  | Slot.root, v => { t with root_ := v }
  | Slot.left a, v => t.setNode a { t.node a with left := v }
  | Slot.right a, v => t.setNode a { t.node a with right := v }

/-- The first rotation of `update_height`, which ends with "balanced to
the right": `tmp = node->right` takes the place of `node`, and `node`
becomes its left child. -/
def balancedToTheRight (t : BinaryTree) (node : Nat) : Run BinaryTree :=
  match (t.node node).right with
  | none => Run.failed "tmp is null"
  | some tmp =>
    let t1 := t.setNode node { t.node node with right := (t.node tmp).left }
    let t2 :=
      match (t1.node node).right with
      | some r =>
        let u := t1.setNode r { t1.node r with parent := some node }
        u.setNode node { u.node node with height := 1 + (u.node r).height }
      | none =>
        t1.setNode node
          { t1.node node with
            height :=
              match (t1.node node).left with
              | some l => 1 + (t1.node l).height
              | none => 0 }
    let t3 := t2.setNode tmp { t2.node tmp with left := some node }
    let t4 := t3.setNode tmp { t3.node tmp with parent := (t3.node node).parent }
    let t5 :=
      match (t4.node node).parent with
      | none => { t4 with root_ := some tmp }
      | some p =>
        if (t4.node p).right = some node then t4.setNode p { t4.node p with right := some tmp }
        else t4.setNode p { t4.node p with left := some tmp }
    Run.done (t5.setNode node { t5.node node with parent := some tmp })

/-- The second rotation of `update_height`, which ends with "balanced to
the left": `tmp = node->left` takes the place of `node`, and `node`
becomes its right child. -/
def balancedToTheLeft (t : BinaryTree) (node : Nat) : Run BinaryTree :=
  match (t.node node).left with
  | none => Run.failed "tmp is null"
  | some tmp =>
    let t1 := t.setNode node { t.node node with left := (t.node tmp).right }
    let t2 :=
      match (t1.node node).left with
      | some l =>
        let u := t1.setNode l { t1.node l with parent := some node }
        u.setNode node { u.node node with height := 1 + (u.node l).height }
      | none =>
        t1.setNode node
          { t1.node node with
            height :=
              match (t1.node node).right with
              | some r => 1 + (t1.node r).height
              | none => 0 }
    let t3 := t2.setNode tmp { t2.node tmp with right := some node }
    let t4 := t3.setNode tmp { t3.node tmp with parent := (t3.node node).parent }
    let t5 :=
      match (t4.node node).parent with
      | none => { t4 with root_ := some tmp }
      | some p =>
        if (t4.node p).right = some node then t4.setNode p { t4.node p with right := some tmp }
        else t4.setNode p { t4.node p with left := some tmp }
    Run.done (t5.setNode node { t5.node node with parent := some tmp })

/-- The test `nullptr == child || child->height + 2 < new_height`. -/
def tooLow (t : BinaryTree) (child : Option Nat) (new_height : Nat) : Bool :=
  match child with
  | none => true
  | some c => decide ((t.node c).height + 2 < new_height)

/-- The part of `update_height` under `if (1 < new_height)`: the tree
after it and the local `balanced`. -/
def rebalance (t : BinaryTree) (node new_height : Nat) : Run (BinaryTree × Bool) :=
  if 1 < new_height then
    if tooLow t (t.node node).left new_height = true then
      match balancedToTheRight t node with
      | Run.done t1 => Run.done (t1, true)
      | Run.failed what => Run.failed what
      | Run.outOfFuel => Run.outOfFuel
    else if tooLow t (t.node node).right new_height = true then
      match balancedToTheLeft t node with
      | Run.done t1 => Run.done (t1, true)
      | Run.failed what => Run.failed what
      | Run.outOfFuel => Run.outOfFuel
    else Run.done (t, false)
  else Run.done (t, false)

/-- `BinaryTree::update_height`; each call takes one unit of `fuel`. -/
def update_height : Nat → BinaryTree → Nat → Nat → Run BinaryTree
  | 0, _, _, _ => Run.outOfFuel
  | fuel + 1, t, node, new_height =>
    if ¬ new_height ≥ (t.node node).height then Run.failed "assert(new_height >= node->height)"
    else if new_height = (t.node node).height then Run.done t
    else
      match rebalance t node new_height with
      | Run.done (t1, balanced) =>
        let t2 :=
          if balanced = false then t1.setNode node { t1.node node with height := new_height }
          else t1
        match (t2.node node).parent with
        | some parent => update_height fuel t2 parent ((t2.node node).height + 1)
        | none => Run.done { t2 with root_ := some node }
      | Run.failed what => Run.failed what
      | Run.outOfFuel => Run.outOfFuel

/-- The private `BinaryTree::insert(current, node, parent)`; each call
takes one unit of `fuel`, and `update_height` starts with what is
left. -/
def insertNode : Nat → BinaryTree → Slot → Nat → Option Nat → Run BinaryTree
  | 0, _, _, _, _ => Run.outOfFuel
  | fuel + 1, t, current, node, parent =>
    match t.read current with
    | some c =>
      if (t.node node).value < (t.node c).value then
        insertNode fuel t (Slot.left c) node (some c)
      else insertNode fuel t (Slot.right c) node (some c)
    | none =>
      let t1 := t.write current (some node)
      let t2 := t1.setNode node { t1.node node with parent := parent }
      match parent with
      | some p => update_height fuel t2 p 1
      | none => Run.done t2

/-- The public `BinaryTree::insert(type)`: a node is allocated at the
next address and inserted from `root_` down. -/
def BinaryTree.insert (fuel : Nat) (t : BinaryTree) (type : Int) : Run BinaryTree :=
  insertNode fuel { t with nodes := t.nodes ++ [⟨none, none, none, type, 0⟩] } Slot.root
    t.nodes.length none

/-- The inserts of the values of `l` in order, each with `fuel`. -/
def BinaryTree.insertAll (fuel : Nat) (t : BinaryTree) (l : List Int) : Run BinaryTree :=
  l.foldl
    (fun acc type =>
      match acc with
      | Run.done t1 => t1.insert fuel type
      | Run.failed what => Run.failed what
      | Run.outOfFuel => Run.outOfFuel)
    (Run.done t)

/-- The values of the sub-tree at `a` from left to right, as
`traverse_in_order` visits them; `depth` bounds the levels walked. -/
def inOrder (t : BinaryTree) : Nat → Option Nat → List Int
  | 0, _ => []
  | _, none => []
  | depth + 1, some a =>
    inOrder t depth (t.node a).left ++ [(t.node a).value] ++ inOrder t depth (t.node a).right

/-- The tree after `insert(0)` and `insert(2)`: 2 is the right child of
the root 0. -/
def treeZeroTwo : BinaryTree :=
  ⟨[⟨none, none, some 1, 0, 1⟩, ⟨none, some 0, none, 2, 0⟩], some 0⟩

/-- The tree `treeZeroTwo` with 1 linked as the left child of 2, when
`update_height` is called for the root with the new height 2. -/
def treeZigZag : BinaryTree :=
  ⟨[⟨none, none, some 1, 0, 1⟩, ⟨some 2, some 0, none, 2, 1⟩, ⟨none, some 1, none, 1, 0⟩],
    some 0⟩

end Trees

end Sandbox

/-! # Theorems -/

namespace Sandbox

/-! ## Walking round the table: arithmetic of `(position + j) % size` -/

theorem walk_lt_two {a n : Nat} (h : a < 2 * n) :
    a % n = if a < n then a else a - n := by
  split
  · rename_i hlt
    exact Nat.mod_eq_of_lt hlt
  · rename_i hge
    have h1 : a = (a - n) + n := by omega
    have h2 : a - n < n := by omega
    rw [h1, Nat.add_mod_right, Nat.mod_eq_of_lt h2]
    omega

theorem walk_ne_start {p s n : Nat} (hp : p < n) (hs1 : 1 ≤ s) (hs : s < n) :
    (p + s) % n ≠ p := by
  rw [walk_lt_two (by omega)]
  split <;> omega

theorem walk_succ (p s n : Nat) : (1 + (p + s) % n) % n = (p + (s + 1)) % n := by
  rw [Nat.add_mod, Nat.mod_mod, ← Nat.add_mod]
  congr 1
  omega

theorem walk_full {p n : Nat} (hp : p < n) : (p + n) % n = p := by
  rw [Nat.add_mod_right, Nat.mod_eq_of_lt hp]

theorem walk_inj {p n j k : Nat} (hp : p < n) (hj : j < n) (hk : k < n)
    (h : (p + j) % n = (p + k) % n) : j = k := by
  rw [walk_lt_two (by omega), walk_lt_two (by omega)] at h
  split at h <;> split at h <;> omega

theorem walk_surj {p n i : Nat} (hp : p < n) (hi : i < n) :
    ∃ j, j < n ∧ (p + j) % n = i := by
  by_cases h : p ≤ i
  · exact ⟨i - p, by omega, by rw [show p + (i - p) = i by omega, Nat.mod_eq_of_lt hi]⟩
  · refine ⟨i + n - p, by omega, ?_⟩
    rw [show p + (i + n - p) = i + n by omega, Nat.add_mod_right, Nat.mod_eq_of_lt hi]

/-! ## `hashmap.cc`, open addressing: what `insert` does -/

namespace Hashmap

variable {TYPE : Type}

theorem OpenAddressMap.size_set (m : OpenAddressMap TYPE) (i : Nat) (v : Option TYPE) :
    (OpenAddressMap.mk (m.data_.set i v)).size = m.size := by
  simp [OpenAddressMap.size]

theorem OpenAddressMap.slot_set (m : OpenAddressMap TYPE) (i j : Nat) (v : Option TYPE)
    (hi : i < m.size) :
    (OpenAddressMap.mk (m.data_.set i v)).slot j = if i = j then v else m.slot j := by
  unfold OpenAddressMap.size at hi
  simp only [OpenAddressMap.slot, List.getD_eq_getElem?_getD, List.getElem?_set]
  by_cases h : i = j
  · subst h
    simp [hi]
  · simp [h]

theorem OpenAddressMap.slot_of_ge (m : OpenAddressMap TYPE) (i : Nat) (hi : m.size ≤ i) :
    m.slot i = none := by
  unfold OpenAddressMap.size at hi
  simp [OpenAddressMap.slot, List.getD_eq_getElem?_getD, List.getElem?_eq_none hi]

/-- The probe loop stops at the first empty slot of the walk. -/
theorem OpenAddressMap.insertLoop_empty (m : OpenAddressMap TYPE) (p d : Nat)
    (hp : p < m.size) (hd : d < m.size)
    (hocc : ∀ j, 1 ≤ j → j < d → (m.slot ((p + j) % m.size)).isSome = true)
    (hemp : m.slot ((p + d) % m.size) = none) :
    ∀ fuel s, 1 ≤ s → s ≤ d → d - s < fuel →
      OpenAddressMap.insertLoop m p fuel ((p + s) % m.size) = some ((p + d) % m.size) := by
  intro fuel
  induction fuel with
  | zero => intro s _ _ h; omega
  | succ fuel ih =>
    intro s hs1 hsd hf
    have hne : p ≠ (p + s) % m.size := fun h => walk_ne_start hp hs1 (by omega) h.symm
    rw [OpenAddressMap.insertLoop, if_neg hne]
    by_cases hsd2 : s = d
    · subst hsd2
      rw [hemp]
    · have ho := hocc s hs1 (by omega)
      cases hslot : m.slot ((p + s) % m.size) with
      | none => rw [hslot] at ho; simp at ho
      | some y =>
        simp only []
        rw [walk_succ]
        exact ih (s + 1) (by omega) (by omega) (by omega)

/-- The probe loop comes back to `position` when every other slot is
occupied. -/
theorem OpenAddressMap.insertLoop_full (m : OpenAddressMap TYPE) (p : Nat) (hp : p < m.size)
    (hocc : ∀ j, 1 ≤ j → j < m.size → (m.slot ((p + j) % m.size)).isSome = true) :
    ∀ fuel s, 1 ≤ s → s ≤ m.size → m.size - s < fuel →
      OpenAddressMap.insertLoop m p fuel ((p + s) % m.size) = some p := by
  intro fuel
  induction fuel with
  | zero => intro s _ _ h; omega
  | succ fuel ih =>
    intro s hs1 hsn hf
    by_cases hsn2 : s = m.size
    · subst hsn2
      rw [walk_full hp, OpenAddressMap.insertLoop, if_pos rfl]
    · have hne : p ≠ (p + s) % m.size := fun h => walk_ne_start hp hs1 (by omega) h.symm
      rw [OpenAddressMap.insertLoop, if_neg hne]
      have ho := hocc s hs1 (by omega)
      cases hslot : m.slot ((p + s) % m.size) with
      | none => rw [hslot] at ho; simp at ho
      | some y =>
        simp only []
        rw [walk_succ]
        exact ih (s + 1) (by omega) (by omega) (by omega)

/-- With the first empty slot of the walk from the home position at
distance `d`, `insert` returns and fills that slot. -/
theorem OpenAddressMap.insert_at (P : Policy TYPE) (m : OpenAddressMap TYPE) (x : TYPE) (d : Nat)
    (hd : d < m.size)
    (hocc : ∀ j, j < d → (m.slot ((P.hash_ x % m.size + j) % m.size)).isSome = true)
    (hemp : m.slot ((P.hash_ x % m.size + d) % m.size) = none) :
    m.insert P x =
      some (⟨m.data_.set ((P.hash_ x % m.size + d) % m.size) (some x)⟩, Result.returned) := by
  have hn : 0 < m.size := by omega
  have hp : P.hash_ x % m.size < m.size := Nat.mod_lt _ hn
  by_cases hd0 : d = 0
  · subst hd0
    rw [Nat.add_zero, Nat.mod_eq_of_lt hp] at hemp
    simp only [OpenAddressMap.insert, hemp, Nat.add_zero, Nat.mod_mod]
  · have h0 := hocc 0 (by omega)
    rw [Nat.add_zero, Nat.mod_eq_of_lt hp] at h0
    have hloop := OpenAddressMap.insertLoop_empty m (P.hash_ x % m.size) d hp hd
      (fun j _ hj => hocc j hj) hemp m.size 1 (by omega) (by omega) (by omega)
    have hne : P.hash_ x % m.size ≠ (P.hash_ x % m.size + d) % m.size :=
      fun h => walk_ne_start hp (by omega) hd h.symm
    cases hslot : m.slot (P.hash_ x % m.size) with
    | none => rw [hslot] at h0; simp at h0
    | some y =>
      have h1 : (1 + P.hash_ x % m.size) % m.size = (P.hash_ x % m.size + 1) % m.size := by
        rw [Nat.add_comm]
      simp only [OpenAddressMap.insert, hslot, h1, hloop, if_neg hne]

/-- With every slot occupied `insert` throws and leaves the table alone. -/
theorem OpenAddressMap.insert_full (P : Policy TYPE) (m : OpenAddressMap TYPE) (x : TYPE)
    (hn : 0 < m.size) (hocc : ∀ i, i < m.size → (m.slot i).isSome = true) :
    m.insert P x = some (m, Result.threw "map is full") := by
  have hp : P.hash_ x % m.size < m.size := Nat.mod_lt _ hn
  have h0 := hocc _ hp
  have hloop := OpenAddressMap.insertLoop_full m (P.hash_ x % m.size) hp
    (fun j _ _ => hocc _ (Nat.mod_lt _ hn)) m.size 1 (by omega) (by omega) (by omega)
  cases hslot : m.slot (P.hash_ x % m.size) with
  | none => rw [hslot] at h0; simp at h0
  | some y =>
    have h1 : (1 + P.hash_ x % m.size) % m.size = (P.hash_ x % m.size + 1) % m.size := by
      rw [Nat.add_comm]
    simp only [OpenAddressMap.insert, hslot, h1, hloop, if_pos]

/-- Either the walk from `p` meets a first empty slot, or the table is
full. -/
theorem OpenAddressMap.first_empty_or_full (m : OpenAddressMap TYPE) (p : Nat) (hp : p < m.size) :
    (∃ d, d < m.size ∧ (∀ j, j < d → (m.slot ((p + j) % m.size)).isSome = true) ∧
        m.slot ((p + d) % m.size) = none) ∨
      (∀ i, i < m.size → (m.slot i).isSome = true) := by
  classical
  by_cases h : ∃ d, d < m.size ∧ m.slot ((p + d) % m.size) = none
  · left
    refine ⟨Nat.find h, (Nat.find_spec h).1, ?_, (Nat.find_spec h).2⟩
    intro j hj
    have hmin := Nat.find_min h hj
    have hjn : j < m.size := Nat.lt_trans hj (Nat.find_spec h).1
    cases hs : m.slot ((p + j) % m.size) with
    | none => exact absurd ⟨hjn, hs⟩ hmin
    | some y => rfl
  · right
    intro i hi
    obtain ⟨j, hj, hji⟩ := walk_surj hp hi
    cases hs : m.slot i with
    | none => exact absurd ⟨j, hj, by rw [hji]; exact hs⟩ h
    | some y => rfl

/-- Filling the table along one walk: with the first `i` slots of the walk
from `h` occupied and the rest of the table empty, keys whose home is `h`
take the next slots of the walk in order. -/
theorem OpenAddressMap.insertAll_same_home (P : Policy TYPE) (capacity h : Nat) (hh : h < capacity) :
    ∀ (ks : List TYPE) (m : OpenAddressMap TYPE) (i : Nat), m.size = capacity →
      i + ks.length ≤ capacity →
      (∀ k, k ∈ ks → P.hash_ k % capacity = h) →
      (∀ j, j < i → (m.slot ((h + j) % capacity)).isSome = true) →
      (∀ j, i ≤ j → j < capacity → m.slot ((h + j) % capacity) = none) →
      ∃ m1, OpenAddressMap.insertAll P m ks = some (m1, Result.returned) ∧ m1.size = capacity ∧
        (∀ j, j < i → m1.slot ((h + j) % capacity) = m.slot ((h + j) % capacity)) ∧
        (∀ j, j < ks.length → m1.slot ((h + (i + j)) % capacity) = ks[j]?) ∧
        (∀ j, i + ks.length ≤ j → j < capacity → m1.slot ((h + j) % capacity) = none) := by
  intro ks
  induction ks with
  | nil =>
    intro m i hsize _ _ _ hemp
    refine ⟨m, rfl, hsize, fun _ _ => rfl, ?_, ?_⟩
    · intro j hj
      simp at hj
    · intro j hj hjc
      exact hemp j (by simpa using hj) hjc
  | cons k ks ih =>
    intro m i hsize hlen hhome hocc hemp
    simp only [List.length_cons] at hlen
    have hk : P.hash_ k % m.size = h := by rw [hsize]; exact hhome k (List.mem_cons_self _ _)
    have hins := OpenAddressMap.insert_at P m k i (by omega)
      (by intro j hj; rw [hk, hsize]; exact hocc j hj)
      (by rw [hk, hsize]; exact hemp i (Nat.le_refl _) (by omega))
    rw [hk, hsize] at hins
    have hslot : ∀ j, j < capacity →
        (OpenAddressMap.mk (m.data_.set ((h + i) % capacity) (some k))).slot ((h + j) % capacity)
          = if i = j then some k else m.slot ((h + j) % capacity) := by
      intro j hj
      rw [OpenAddressMap.slot_set m _ _ _ (by rw [hsize]; exact Nat.mod_lt _ (by omega))]
      by_cases hij : i = j
      · subst hij
        simp
      · have hne : (h + i) % capacity ≠ (h + j) % capacity :=
          fun e => hij (walk_inj hh (by omega) hj e)
        rw [if_neg hne, if_neg hij]
    obtain ⟨m1, hrun, hsize1, hkeep, hnew, hrest⟩ :=
      ih (OpenAddressMap.mk (m.data_.set ((h + i) % capacity) (some k))) (i + 1)
        (by rw [OpenAddressMap.size_set, hsize]) (by omega)
        (fun k1 hk1 => hhome k1 (List.mem_cons_of_mem _ hk1))
        (by
          intro j hj
          rw [hslot j (by omega)]
          by_cases hij : i = j
          · rw [if_pos hij]; rfl
          · rw [if_neg hij]; exact hocc j (by omega))
        (by
          intro j hj hjc
          rw [hslot j hjc, if_neg (by omega)]
          exact hemp j (by omega) hjc)
    refine ⟨m1, ?_, hsize1, ?_, ?_, ?_⟩
    · simp only [OpenAddressMap.insertAll, hins]
      exact hrun
    · intro j hj
      rw [hkeep j (by omega), hslot j (by omega), if_neg (by omega)]
    · intro j hj
      simp only [List.length_cons] at hj
      cases j with
      | zero =>
        rw [Nat.add_zero, hkeep i (by omega), hslot i (by omega), if_pos rfl]
        simp
      | succ j =>
        have := hnew j (by omega)
        rw [show h + (i + (j + 1)) = h + (i + 1 + j) by omega, this]
        simp
    · intro j hj hjc
      simp only [List.length_cons] at hj
      exact hrest j (by omega) hjc

theorem OpenAddressMap.size_empty (size : Nat) :
    (OpenAddressMap.empty size : OpenAddressMap TYPE).size = size := by
  simp [OpenAddressMap.size, OpenAddressMap.empty]

theorem OpenAddressMap.slot_empty (size i : Nat) :
    (OpenAddressMap.empty size : OpenAddressMap TYPE).slot i = none := by
  simp only [OpenAddressMap.slot, OpenAddressMap.empty, List.getD_eq_getElem?_getD]
  by_cases h : i < size
  · simp [List.getElem?_replicate, h]
  · simp [List.getElem?_replicate, h]

/-- C3: for every capacity >= 1 and every list of capacity+1 pairwise
distinct keys with one common home index `h`, inserting them in order into
the empty open-addressing table returns normally for the first `capacity`
keys, the i-th key (i = 0..capacity-1) then sits in slot
`(h + i) % capacity`, and the insert of the last key throws
"map is full". -/
theorem C3_capacity_boundary (P : Policy TYPE) (capacity h : Nat) (keys : List TYPE)
    (hcap : 1 ≤ capacity) (hlen : keys.length = capacity + 1) (_hdistinct : keys.Nodup)
    (hhome : ∀ k, k ∈ keys → P.hash_ k % capacity = h) :
    ∃ (m : OpenAddressMap TYPE) (last : TYPE),
      OpenAddressMap.insertAll P (OpenAddressMap.empty capacity) (keys.take capacity)
        = some (m, Result.returned) ∧
      (∀ i, i < capacity → m.slot ((h + i) % capacity) = keys[i]?) ∧
      keys[capacity]? = some last ∧
      m.insert P last = some (m, Result.threw "map is full") := by
  have hlast : capacity < keys.length := by omega
  have hh : h < capacity := by
    have h0 : 0 < keys.length := by omega
    rw [← hhome (keys[0]) (List.getElem_mem _)]
    exact Nat.mod_lt _ (by omega)
  obtain ⟨m, hrun, hsize, _, hnew, _⟩ :=
    OpenAddressMap.insertAll_same_home P capacity h hh (keys.take capacity)
      (OpenAddressMap.empty capacity) 0 (OpenAddressMap.size_empty capacity)
      (by simp) (fun k hk => hhome k (List.mem_of_mem_take hk))
      (by intro j hj; omega)
      (fun j _ _ => OpenAddressMap.slot_empty capacity _)
  have hslots : ∀ i, i < capacity → m.slot ((h + i) % capacity) = keys[i]? := by
    intro i hi
    have := hnew i (by simp; omega)
    rw [Nat.zero_add] at this
    rw [this, List.getElem?_take_of_lt hi]
  refine ⟨m, keys[capacity], hrun, hslots, List.getElem?_eq_getElem hlast, ?_⟩
  apply OpenAddressMap.insert_full P m _ (by omega)
  intro i hi
  rw [hsize] at hi
  obtain ⟨j, hj, hji⟩ := walk_surj hh hi
  rw [← hji, hslots j hj, List.getElem?_eq_getElem (by omega)]
  rfl

/-- The capacity-4 scenario: "d", "h", "l", "p" fill the slots 0 to 3 and
"t" is thrown back. -/
theorem C3_capacity_boundary_witness :
    (1 ≤ 4 ∧ sameHomeKeys.length = 4 + 1 ∧ sameHomeKeys.Nodup ∧
      ∀ k, k ∈ sameHomeKeys → stringPolicy.hash_ k % 4 = 0) ∧
    ∃ (m : OpenAddressMap Str) (last : Str),
      OpenAddressMap.insertAll stringPolicy (OpenAddressMap.empty 4) (sameHomeKeys.take 4)
        = some (m, Result.returned) ∧
      (∀ i, i < 4 → m.slot ((0 + i) % 4) = sameHomeKeys[i]?) ∧
      sameHomeKeys[4]? = some last ∧
      m.insert stringPolicy last = some (m, Result.threw "map is full") :=
  ⟨⟨by decide, by decide, by decide, by decide⟩,
    C3_capacity_boundary stringPolicy 4 0 sameHomeKeys (by decide) (by decide) (by decide)
      (by decide)⟩

/-! ### Counting slots -/

theorem length_filter_set {α : Type} (p : α → Bool) (a : α) (hnew : p a = true) :
    ∀ (l : List α) (i : Nat) (b : α), l[i]? = some b → p b = false →
      ((l.set i a).filter p).length = (l.filter p).length + 1 := by
  intro l
  induction l with
  | nil => intro i b h; simp at h
  | cons c l ih =>
    intro i b h hb
    cases i with
    | zero =>
      simp only [List.getElem?_cons_zero, Option.some.injEq] at h
      subst h
      simp [List.filter_cons, hnew, hb]
    | succ i =>
      simp only [List.getElem?_cons_succ] at h
      have := ih i b h hb
      simp only [List.set_cons_succ, List.filter_cons]
      split <;> simp [this]

theorem OpenAddressMap.slot_eq_getElem? (m : OpenAddressMap TYPE) (i : Nat) (hi : i < m.size) :
    m.data_[i]? = some (m.slot i) := by
  unfold OpenAddressMap.size at hi
  simp [OpenAddressMap.slot, List.getD_eq_getElem?_getD, List.getElem?_eq_getElem hi]

/-- A call of `insert` either fills the first empty slot of the walk from
the home position, or finds the table full and throws. -/
theorem OpenAddressMap.insert_cases (P : Policy TYPE) (m : OpenAddressMap TYPE) (x : TYPE)
    (hn : 0 < m.size) :
    (∃ d, d < m.size ∧
        (∀ j, j < d → (m.slot ((P.hash_ x % m.size + j) % m.size)).isSome = true) ∧
        m.slot ((P.hash_ x % m.size + d) % m.size) = none ∧
        m.insert P x =
          some (⟨m.data_.set ((P.hash_ x % m.size + d) % m.size) (some x)⟩, Result.returned)) ∨
      ((∀ i, i < m.size → (m.slot i).isSome = true) ∧
        m.insert P x = some (m, Result.threw "map is full")) := by
  rcases OpenAddressMap.first_empty_or_full m (P.hash_ x % m.size) (Nat.mod_lt _ hn) with
    ⟨d, hd, hocc, hemp⟩ | hfull
  · exact Or.inl ⟨d, hd, hocc, hemp, OpenAddressMap.insert_at P m x d hd hocc hemp⟩
  · exact Or.inr ⟨hfull, OpenAddressMap.insert_full P m x hn hfull⟩

/-- C4, as stated, fails: in the reachable table of three slots that holds
"a" in slot 1, `insert("a")` takes the empty slot 2 as well, so the
occupied slots and the slots holding "a" both go from one to two. -/
theorem C4_counterexample :
    Reachable stringPolicy 3 threeSlotsA ∧
    threeSlotsA.slot 1 = some (ascii "a") ∧
    threeSlotsA.insert stringPolicy (ascii "a")
      = some (⟨[none, some (ascii "a"), some (ascii "a")]⟩, Result.returned) ∧
    threeSlotsA.occupied = 1 ∧ threeSlotsA.holding stringPolicy (ascii "a") = 1 ∧
    (OpenAddressMap.mk [none, some (ascii "a"), some (ascii "a")]).occupied = 2 ∧
    (OpenAddressMap.mk [none, some (ascii "a"), some (ascii "a")]).holding stringPolicy
      (ascii "a") = 2 := by
  refine ⟨?_, by decide, by decide, by decide, by decide, by decide, by decide⟩
  exact Reachable.insert (OpenAddressMap.empty 3) threeSlotsA (ascii "a") Result.returned
    Reachable.empty (by decide)

/-- C4, amended: for every table of at least one slot and every item `x`,
also one the table already holds, a call `insert(x)` that returns normally
puts `x` into one slot that was empty and changes no other slot, so the
number of occupied slots and the number of slots holding `x` both grow by
one. -/
theorem C4_insert_takes_empty_slot (m m1 : OpenAddressMap Str) (x : Str) (hn : 0 < m.size)
    (h : m.insert stringPolicy x = some (m1, Result.returned)) :
    ∃ index, index < m.size ∧ m.slot index = none ∧
      m1.data_ = m.data_.set index (some x) ∧
      m1.occupied = m.occupied + 1 ∧
      m1.holding stringPolicy x = m.holding stringPolicy x + 1 := by
  rcases OpenAddressMap.insert_cases stringPolicy m x hn with ⟨d, _, _, hemp, hins⟩ | ⟨_, hins⟩
  · rw [hins] at h
    simp only [Option.some.injEq, Prod.mk.injEq, and_true] at h
    subst h
    have hlt : (stringPolicy.hash_ x % m.size + d) % m.size < m.size := Nat.mod_lt _ hn
    have hget := OpenAddressMap.slot_eq_getElem? m _ hlt
    rw [hemp] at hget
    refine ⟨_, hlt, hemp, rfl, ?_, ?_⟩
    · exact length_filter_set Option.isSome (some x) rfl m.data_ _ none hget rfl
    · exact length_filter_set _ (some x) (by simp [stringPolicy, CompareFunction])
        m.data_ _ none hget rfl
  · rw [hins] at h
    simp at h

/-- A second `insert("a")` into the three-slot table takes slot 2. -/
theorem C4_insert_takes_empty_slot_witness :
    (0 < threeSlotsA.size ∧
      threeSlotsA.insert stringPolicy (ascii "a")
        = some (⟨[none, some (ascii "a"), some (ascii "a")]⟩, Result.returned)) ∧
    ∃ index, index < threeSlotsA.size ∧ threeSlotsA.slot index = none ∧
      (OpenAddressMap.mk [none, some (ascii "a"), some (ascii "a")]).data_
        = threeSlotsA.data_.set index (some (ascii "a")) ∧
      (OpenAddressMap.mk [none, some (ascii "a"), some (ascii "a")]).occupied
        = threeSlotsA.occupied + 1 ∧
      (OpenAddressMap.mk [none, some (ascii "a"), some (ascii "a")]).holding stringPolicy
        (ascii "a") = threeSlotsA.holding stringPolicy (ascii "a") + 1 :=
  ⟨⟨by decide, by decide⟩,
    C4_insert_takes_empty_slot threeSlotsA _ (ascii "a") (by decide) (by decide)⟩

/-- C5, as stated, fails: the reachable table of one slot holds "a", so
the probe cycle of "a" has a matching slot, and `insert("a")` throws
"map is full" all the same. -/
theorem C5_counterexample :
    Reachable stringPolicy 1 oneSlotA ∧
    oneSlotA.slot (stringPolicy.hash_ (ascii "a") % oneSlotA.size) = some (ascii "a") ∧
    stringPolicy.compare_ (ascii "a") (ascii "a") = true ∧
    oneSlotA.insert stringPolicy (ascii "a") = some (oneSlotA, Result.threw "map is full") := by
  refine ⟨?_, by decide, by decide, by decide⟩
  exact Reachable.insert (OpenAddressMap.empty 1) oneSlotA (ascii "a") Result.returned
    Reachable.empty (by decide)

/-- C5, amended: for every table of at least one slot and every item `x`,
`insert(x)` ends (the probe loop never needs more than `size` tests), it
throws only when no slot of the table is empty and then throws
"map is full", whether or not a slot holds an item equal to `x`; whenever
an empty slot exists the insert returns normally, and whenever none exists
it throws. -/
theorem C5_throws_iff_full (P : Policy TYPE) (m : OpenAddressMap TYPE) (x : TYPE)
    (hn : 0 < m.size) :
    (∃ m1 r, m.insert P x = some (m1, r)) ∧
    (∀ m1 what, m.insert P x = some (m1, Result.threw what) →
      what = "map is full" ∧ ∀ i, i < m.size → (m.slot i).isSome = true) ∧
    ((∃ i, i < m.size ∧ m.slot i = none) → ∃ m1, m.insert P x = some (m1, Result.returned)) ∧
    ((∀ i, i < m.size → (m.slot i).isSome = true) →
      m.insert P x = some (m, Result.threw "map is full")) := by
  rcases OpenAddressMap.insert_cases P m x hn with ⟨d, _, _, hemp, hins⟩ | ⟨hfull, hins⟩
  · refine ⟨⟨_, _, hins⟩, ?_, fun _ => ⟨_, hins⟩, ?_⟩
    · intro m1 what h
      rw [hins] at h
      simp at h
    · intro hfull
      have := hfull _ (Nat.mod_lt (P.hash_ x % m.size + d) hn)
      rw [hemp] at this
      simp at this
  · refine ⟨⟨_, _, hins⟩, ?_, ?_, fun _ => hins⟩
    · intro m1 what h
      rw [hins] at h
      simp only [Option.some.injEq, Prod.mk.injEq, Result.threw.injEq] at h
      exact ⟨h.2.symm, hfull⟩
    · rintro ⟨i, hi, hnone⟩
      have := hfull i hi
      rw [hnone] at this
      simp at this

/-- The full one-slot table throws on `insert("b")`. -/
theorem C5_throws_iff_full_witness :
    0 < oneSlotA.size ∧
    ((∃ m1 r, oneSlotA.insert stringPolicy (ascii "b") = some (m1, r)) ∧
    (∀ m1 what, oneSlotA.insert stringPolicy (ascii "b") = some (m1, Result.threw what) →
      what = "map is full" ∧ ∀ i, i < oneSlotA.size → (oneSlotA.slot i).isSome = true) ∧
    ((∃ i, i < oneSlotA.size ∧ oneSlotA.slot i = none) →
      ∃ m1, oneSlotA.insert stringPolicy (ascii "b") = some (m1, Result.returned)) ∧
    ((∀ i, i < oneSlotA.size → (oneSlotA.slot i).isSome = true) →
      oneSlotA.insert stringPolicy (ascii "b") = some (oneSlotA, Result.threw "map is full"))) :=
  ⟨by decide, C5_throws_iff_full stringPolicy oneSlotA (ascii "b") (by decide)⟩

/-- C6: whenever `insert(x)` throws, what it throws is "map is full" and
the table after the call is the table before it. -/
theorem C6_throw_leaves_table (P : Policy TYPE) (m m1 : OpenAddressMap TYPE) (x : TYPE)
    (what : String) (h : m.insert P x = some (m1, Result.threw what)) :
    m1 = m ∧ what = "map is full" := by
  simp only [OpenAddressMap.insert] at h
  split at h
  · split at h
    · simp at h
    · split at h
      · simp only [Option.some.injEq, Prod.mk.injEq, Result.threw.injEq] at h
        exact ⟨h.1.symm, h.2.symm⟩
      · simp at h
  · simp at h

/-- The full one-slot table is left as it was by the throwing
`insert("b")`. -/
theorem C6_throw_leaves_table_witness :
    oneSlotA.insert stringPolicy (ascii "b") = some (oneSlotA, Result.threw "map is full") ∧
    (oneSlotA = oneSlotA ∧ "map is full" = "map is full") :=
  ⟨by decide,
    C6_throw_leaves_table stringPolicy oneSlotA oneSlotA (ascii "b") "map is full" (by decide)⟩

/-! ### The probe-sequence invariant -/

theorem Reachable.size_eq (P : Policy TYPE) (size : Nat) (hsize : 0 < size)
    (m : OpenAddressMap TYPE) (hr : Reachable P size m) : m.size = size := by
  induction hr with
  | empty => exact OpenAddressMap.size_empty size
  | insert m m1 item r _ hins ih =>
    rcases OpenAddressMap.insert_cases P m item (by omega) with ⟨d, _, _, _, h⟩ | ⟨_, h⟩
    · rw [h] at hins
      simp only [Option.some.injEq, Prod.mk.injEq] at hins
      rw [← hins.1, OpenAddressMap.size_set, ih]
    · rw [h] at hins
      simp only [Option.some.injEq, Prod.mk.injEq] at hins
      rw [← hins.1, ih]

/-- The walk from the home position of an item to the slot that holds it
passes occupied slots only: no insert vacates a slot, and an insert fills
the first empty slot of its walk. -/
theorem Reachable.walk_occupied (P : Policy TYPE) (size : Nat) (hsize : 0 < size)
    (m : OpenAddressMap TYPE) (hr : Reachable P size m) (j : Nat) (x : TYPE)
    (hx : m.slot j = some x) :
    ∃ d, d < size ∧ (P.hash_ x % size + d) % size = j ∧
      ∀ i, i ≤ d → (m.slot ((P.hash_ x % size + i) % size)).isSome = true := by
  induction hr generalizing j x with
  | empty =>
    rw [OpenAddressMap.slot_empty] at hx
    simp at hx
  | insert m m1 item r hm hins ih =>
    have hms : m.size = size := Reachable.size_eq P size hsize m hm
    rcases OpenAddressMap.insert_cases P m item (by omega) with ⟨d, hd, hocc, hemp, h⟩ | ⟨_, h⟩
    · rw [h] at hins
      simp only [Option.some.injEq, Prod.mk.injEq] at hins
      rw [hms] at hd hocc hemp hins
      have hlt : (P.hash_ item % size + d) % size < m.size := by
        rw [hms]; exact Nat.mod_lt _ hsize
      have hslot := fun k => OpenAddressMap.slot_set m _ k (some item) hlt
      have hmono : ∀ k, (m.slot k).isSome = true → (m1.slot k).isSome = true := by
        intro k hk
        rw [← hins.1, hslot]
        split
        · rfl
        · exact hk
      rw [← hins.1, hslot] at hx
      by_cases hj : (P.hash_ item % size + d) % size = j
      · rw [if_pos hj] at hx
        simp only [Option.some.injEq] at hx
        subst hx
        refine ⟨d, hd, hj, ?_⟩
        intro i hi
        by_cases hid : i = d
        · subst hid
          rw [← hins.1, hslot, if_pos rfl]
          rfl
        · exact hmono _ (hocc i (by omega))
      · rw [if_neg hj] at hx
        obtain ⟨d1, hd1, hj1, hwalk⟩ := ih j x hx
        exact ⟨d1, hd1, hj1, fun i hi => hmono _ (hwalk i hi)⟩
    · rw [h] at hins
      simp only [Option.some.injEq, Prod.mk.injEq] at hins
      have e := hins.1
      subst e
      exact ih j x hx

/-- C7: in every table reachable from the empty table of `size >= 1` slots
by inserts, returning or throwing, a slot `j` holding `x` lies at a
distance `d < size` on the walk from the home position of `x`, and every
slot of the walk from the home position up to `j` is occupied. -/
theorem C7_probe_invariant (P : Policy TYPE) (size : Nat) (hsize : 0 < size)
    (m : OpenAddressMap TYPE) (hr : Reachable P size m) (j : Nat) (x : TYPE)
    (hx : m.slot j = some x) :
    ∃ d, d < size ∧ (P.hash_ x % size + d) % size = j ∧
      ∀ i, i ≤ d → (m.slot ((P.hash_ x % size + i) % size)).isSome = true :=
  Reachable.walk_occupied P size hsize m hr j x hx

/-- In the three-slot table "d" sits one step behind its home slot 1, which
is occupied. -/
theorem C7_probe_invariant_witness :
    (0 < 3 ∧ Reachable stringPolicy 3 threeSlotsAD ∧ threeSlotsAD.slot 2 = some (ascii "d")) ∧
    ∃ d, d < 3 ∧ (stringPolicy.hash_ (ascii "d") % 3 + d) % 3 = 2 ∧
      ∀ i, i ≤ d →
        (threeSlotsAD.slot ((stringPolicy.hash_ (ascii "d") % 3 + i) % 3)).isSome = true :=
  have hr : Reachable stringPolicy 3 threeSlotsAD :=
    Reachable.insert threeSlotsA threeSlotsAD (ascii "d") Result.returned
      (Reachable.insert (OpenAddressMap.empty 3) threeSlotsA (ascii "a") Result.returned
        Reachable.empty (by decide))
      (by decide)
  ⟨⟨by decide, hr, by decide⟩,
    C7_probe_invariant stringPolicy 3 (by decide) threeSlotsAD hr 2 (ascii "d") (by decide)⟩

end Hashmap

/-! ## `hashmap2.cc`: the chained key-value map -/

namespace Hashmap2

variable {KEY VALUE : Type}

/-- C1 at the failing input: in the table of seven buckets reached by
`insert("a", 1)` and `insert("h", 2)`, whose bucket 6 is the chain
"a", "h", the call `insert("h", 3)` links a second node for "h" behind the
first, and the `get("h")` made right after it returns 2, not 3. -/
theorem C1_get_after_insert_is_stale :
    Reachable stringPolicy 7 chainAH ∧
    chainAH.bucket 6 = [⟨ascii "a", 1⟩, ⟨ascii "h", 2⟩] ∧
    (chainAH.insert stringPolicy (ascii "h") 3).bucket 6
      = [⟨ascii "a", 1⟩, ⟨ascii "h", 2⟩, ⟨ascii "h", 3⟩] ∧
    (chainAH.insert stringPolicy (ascii "h") 3).get stringPolicy (ascii "h") = Ref.node 6 1 ∧
    (chainAH.insert stringPolicy (ascii "h") 3).read
      ((chainAH.insert stringPolicy (ascii "h") 3).get stringPolicy (ascii "h")) = 2 :=
  ⟨⟨_, rfl⟩, by decide, by decide, by decide, by decide⟩

/-- C2 at the failing input: the table `chainAH` holds one node with key
"h", at the tail of the chain of bucket 6; `insert("h", 3)` takes the
number of nodes from two to three, and afterwards two nodes have the key
"h", with the values 2 and 3. -/
theorem C2_insert_duplicates_tail_key :
    chainAH.nodes.length = 2 ∧ chainAH.nodesWithKey (ascii "h") = 1 ∧
    (chainAH.insert stringPolicy (ascii "h") 3).nodes.length = 3 ∧
    (chainAH.insert stringPolicy (ascii "h") 3).nodesWithKey (ascii "h") = 2 ∧
    (chainAH.insert stringPolicy (ascii "h") 3).nodes
      = [⟨ascii "a", 1⟩, ⟨ascii "h", 2⟩, ⟨ascii "h", 3⟩] := by
  decide

/-! ### Chains and buckets -/

theorem stringPolicy_compare (a b : Str) : stringPolicy.compare_ a b = true ↔ a = b := by
  simp [stringPolicy, CompareFunction]

theorem stringPolicy_compare_false (a b : Str) : stringPolicy.compare_ a b = false ↔ a ≠ b := by
  simp [stringPolicy, CompareFunction]

theorem getElem?_split {α : Type} (pre : List α) (x : α) (post : List α) :
    (pre ++ x :: post)[pre.length]? = some x := by
  induction pre with
  | nil => simp
  | cons c pre ih => simpa using ih

theorem set_split {α : Type} (pre : List α) (x y : α) (post : List α) :
    (pre ++ x :: post).set pre.length y = pre ++ y :: post := by
  induction pre with
  | nil => rfl
  | cons c pre ih => simp [ih]

theorem BucketMap.bucket_set_same (m : BucketMap KEY VALUE) (i : Nat) (c : List (Node KEY VALUE))
    (hi : i < m.size) : (BucketMap.mk (m.buckets_.set i c)).bucket i = c := by
  unfold BucketMap.size at hi
  simp [BucketMap.bucket, List.getD_eq_getElem?_getD, List.getElem?_set, hi]

theorem BucketMap.bucket_set_other (m : BucketMap KEY VALUE) (i j : Nat)
    (c : List (Node KEY VALUE)) (hij : i ≠ j) :
    (BucketMap.mk (m.buckets_.set i c)).bucket j = m.bucket j := by
  simp [BucketMap.bucket, List.getD_eq_getElem?_getD, List.getElem?_set, hij]

theorem BucketMap.mem_bucket_set (m : BucketMap KEY VALUE) (i j : Nat)
    (c : List (Node KEY VALUE)) (n : Node KEY VALUE)
    (h : n ∈ (BucketMap.mk (m.buckets_.set i c)).bucket j) : n ∈ c ∨ n ∈ m.bucket j := by
  by_cases hij : i = j
  · subst hij
    by_cases hi : i < m.size
    · rw [BucketMap.bucket_set_same m i c hi] at h
      exact Or.inl h
    · unfold BucketMap.size at hi
      rw [List.set_eq_of_length_le (by omega)] at h
      exact Or.inr h
  · rw [BucketMap.bucket_set_other m i j c hij] at h
    exact Or.inr h

theorem BucketMap.size_set_chain (m : BucketMap KEY VALUE) (i : Nat) (c : List (Node KEY VALUE)) :
    (BucketMap.mk (m.buckets_.set i c)).size = m.size := by
  simp [BucketMap.size]

theorem BucketMap.mem_nodes_of_mem_bucket (m : BucketMap KEY VALUE) (i : Nat)
    (n : Node KEY VALUE) (h : n ∈ m.bucket i) : n ∈ m.nodes := by
  unfold BucketMap.bucket at h
  rw [List.getD_eq_getElem?_getD] at h
  cases hc : m.buckets_[i]? with
  | none => rw [hc] at h; simp at h
  | some c =>
    rw [hc] at h
    exact List.mem_flatten.mpr ⟨c, List.getElem?_mem hc, h⟩

/-- The loop of `insert` keeps the keys of the chain and may add `key`. -/
theorem insertLoop_key (P : Policy KEY) (key : KEY) (value : VALUE) :
    ∀ (rest : List (Node KEY VALUE)) (node n : Node KEY VALUE),
      n ∈ insertLoop P key value node rest →
      n.key = key ∨ ∃ n1, n1 ∈ node :: rest ∧ n1.key = n.key := by
  intro rest
  induction rest with
  | nil =>
    intro node n h
    simp only [insertLoop, List.mem_cons, List.mem_singleton, List.not_mem_nil, or_false] at h
    rcases h with h | h
    · exact Or.inr ⟨node, List.mem_cons_self _ _, by rw [h]⟩
    · exact Or.inl (by rw [h])
  | cons nxt rest ih =>
    intro node n h
    rw [insertLoop] at h
    split at h
    · rcases List.mem_cons.mp h with h | h
      · exact Or.inr ⟨node, List.mem_cons_self _ _, by rw [h]⟩
      · exact Or.inr ⟨n, List.mem_cons_of_mem _ h, rfl⟩
    · rcases List.mem_cons.mp h with h | h
      · exact Or.inr ⟨node, List.mem_cons_self _ _, by rw [h]⟩
      · rcases ih nxt n h with h1 | ⟨n1, hn1, hk⟩
        · exact Or.inl h1
        · exact Or.inr ⟨n1, List.mem_cons_of_mem _ hn1, hk⟩

/-- Without a matching node the loop of `operator[]` links the new node
behind the chain and refers to it. -/
theorem subscriptLoop_absent (P : Policy KEY) (key : KEY) (fresh : VALUE) :
    ∀ (chain : List (Node KEY VALUE)) (pos : Nat),
      (∀ n, n ∈ chain → P.compare_ n.key key = false) →
      subscriptLoop P key fresh pos chain = (chain ++ [⟨key, fresh⟩], pos + chain.length) := by
  intro chain
  induction chain with
  | nil => intro pos _; rfl
  | cons node next ih =>
    intro pos h
    have h1 := h node (List.mem_cons_self _ _)
    rw [subscriptLoop, h1, ih (pos + 1) (fun n hn => h n (List.mem_cons_of_mem _ hn))]
    simp only [Bool.false_eq_true, if_false, List.cons_append, List.length_cons]
    congr 1
    omega

/-- Without a matching node the loop of `get` finds nothing. -/
theorem getLoop_absent (P : Policy KEY) (key : KEY) :
    ∀ (chain : List (Node KEY VALUE)) (pos : Nat),
      (∀ n, n ∈ chain → P.compare_ n.key key = false) → getLoop P key pos chain = none := by
  intro chain
  induction chain with
  | nil => intro pos _; rfl
  | cons node next ih =>
    intro pos h
    rw [getLoop, h node (List.mem_cons_self _ _)]
    simp only [Bool.false_eq_true, if_false]
    exact ih (pos + 1) (fun n hn => h n (List.mem_cons_of_mem _ hn))

/-- The loop of `get` passes the nodes that do not match and stops at the
first that does. -/
theorem getLoop_append (P : Policy KEY) (key : KEY) (node : Node KEY VALUE)
    (hnode : P.compare_ node.key key = true) :
    ∀ (chain : List (Node KEY VALUE)) (pos : Nat),
      (∀ n, n ∈ chain → P.compare_ n.key key = false) →
      getLoop P key pos (chain ++ [node]) = some (pos + chain.length) := by
  intro chain
  induction chain with
  | nil =>
    intro pos _
    simp [getLoop, hnode]
  | cons c next ih =>
    intro pos h
    rw [List.cons_append, getLoop, h c (List.mem_cons_self _ _)]
    simp only [Bool.false_eq_true, if_false, List.length_cons]
    rw [ih (pos + 1) (fun n hn => h n (List.mem_cons_of_mem _ hn))]
    congr 1
    omega

theorem length_flatten_set {α : Type} (c : List α) :
    ∀ (l : List (List α)) (i : Nat) (old : List α), l[i]? = some old →
      (l.set i c).flatten.length + old.length = l.flatten.length + c.length := by
  intro l
  induction l with
  | nil => intro i old h; simp at h
  | cons b l ih =>
    intro i old h
    cases i with
    | zero =>
      simp only [List.getElem?_cons_zero, Option.some.injEq] at h
      subst h
      simp only [List.set_cons_zero, List.flatten_cons, List.length_append]
      omega
    | succ i =>
      simp only [List.getElem?_cons_succ] at h
      have := ih i old h
      simp only [List.set_cons_succ, List.flatten_cons, List.length_append]
      omega

/-- The loop of `operator[]` keeps the nodes of the chain and may add one
with the key `key`. -/
theorem subscriptLoop_mem (P : Policy KEY) (key : KEY) (fresh : VALUE) :
    ∀ (chain : List (Node KEY VALUE)) (pos : Nat) (n : Node KEY VALUE),
      n ∈ (subscriptLoop P key fresh pos chain).1 → n.key = key ∨ n ∈ chain := by
  intro chain
  induction chain with
  | nil =>
    intro pos n h
    simp only [subscriptLoop, List.mem_singleton] at h
    exact Or.inl (by rw [h])
  | cons node next ih =>
    intro pos n h
    rw [subscriptLoop] at h
    split at h
    · exact Or.inr h
    · rcases List.mem_cons.mp h with h | h
      · exact Or.inr (by rw [h]; exact List.mem_cons_self _ _)
      · rcases ih (pos + 1) n h with h1 | h1
        · exact Or.inl h1
        · exact Or.inr (List.mem_cons_of_mem _ h1)

/-- The keys of the table after `insert(key, value)` are keys it had
before, or `key`. -/
theorem BucketMap.insert_key (P : Policy KEY) (m : BucketMap KEY VALUE) (key : KEY)
    (value : VALUE) (i : Nat) (n : Node KEY VALUE) (h : n ∈ (m.insert P key value).bucket i) :
    n.key = key ∨ ∃ n1, n1 ∈ m.nodes ∧ n1.key = n.key := by
  simp only [BucketMap.insert] at h
  split at h
  · rcases BucketMap.mem_bucket_set m _ i _ n h with h | h
    · simp only [List.mem_singleton] at h
      exact Or.inl (by rw [h])
    · exact Or.inr ⟨n, BucketMap.mem_nodes_of_mem_bucket m i n h, rfl⟩
  · rename_i entry rest hb
    have hsub : ∀ n1, n1 ∈ entry :: rest → n1 ∈ m.nodes := by
      intro n1 hn1
      rw [← hb] at hn1
      exact BucketMap.mem_nodes_of_mem_bucket m _ n1 hn1
    split at h
    · rcases BucketMap.mem_bucket_set m _ i _ n h with h | h
      · rcases List.mem_cons.mp h with h | h
        · exact Or.inr ⟨entry, hsub entry (List.mem_cons_self _ _), by rw [h]⟩
        · exact Or.inr ⟨n, hsub n (List.mem_cons_of_mem _ h), rfl⟩
      · exact Or.inr ⟨n, BucketMap.mem_nodes_of_mem_bucket m i n h, rfl⟩
    · rcases BucketMap.mem_bucket_set m _ i _ n h with h | h
      · rcases insertLoop_key P key value rest entry n h with h1 | ⟨n1, hn1, hk⟩
        · exact Or.inl h1
        · exact Or.inr ⟨n1, hsub n1 hn1, hk⟩
      · exact Or.inr ⟨n, BucketMap.mem_nodes_of_mem_bucket m i n h, rfl⟩

/-- The keys of the table after `operator[](key)` are keys it had before,
or `key`. -/
theorem BucketMap.subscript_key (P : Policy KEY) (m : BucketMap KEY VALUE)
    (key : KEY) (fresh : VALUE) (i : Nat) (n : Node KEY VALUE)
    (h : n ∈ (m.subscript P key fresh).1.bucket i) :
    n.key = key ∨ ∃ n1, n1 ∈ m.nodes ∧ n1.key = n.key := by
  simp only [BucketMap.subscript] at h
  split at h
  · rcases BucketMap.mem_bucket_set m _ i _ n h with h | h
    · simp only [List.mem_singleton] at h
      exact Or.inl (by rw [h])
    · exact Or.inr ⟨n, BucketMap.mem_nodes_of_mem_bucket m i n h, rfl⟩
  · rename_i entry rest hb
    split at h
    · exact Or.inr ⟨n, BucketMap.mem_nodes_of_mem_bucket m i n h, rfl⟩
    · rcases BucketMap.mem_bucket_set m _ i _ n h with h | h
      · rcases subscriptLoop_mem P key fresh (entry :: rest) 0 n h with h1 | h1
        · exact Or.inl h1
        · rw [← hb] at h1
          exact Or.inr ⟨n, BucketMap.mem_nodes_of_mem_bucket m _ n h1, rfl⟩
      · exact Or.inr ⟨n, BucketMap.mem_nodes_of_mem_bucket m i n h, rfl⟩

theorem BucketMap.mem_nodes_iff (m : BucketMap KEY VALUE) (n : Node KEY VALUE) :
    n ∈ m.nodes ↔ ∃ i, n ∈ m.bucket i := by
  constructor
  · intro h
    obtain ⟨c, hc, hn⟩ := List.mem_flatten.mp h
    obtain ⟨i, hi⟩ := List.mem_iff_getElem?.mp hc
    refine ⟨i, ?_⟩
    simp only [BucketMap.bucket, List.getD_eq_getElem?_getD, hi, Option.getD_some]
    exact hn
  · rintro ⟨i, hi⟩
    exact BucketMap.mem_nodes_of_mem_bucket m i n hi

/-- A key that no call passes is the key of no node. -/
theorem BucketMap.run_key (P : Policy KEY) (k : KEY) :
    ∀ (ops : List (Op KEY VALUE)) (m : BucketMap KEY VALUE),
      (∀ n, n ∈ m.nodes → n.key ≠ k) → (∀ op, op ∈ ops → op.key ≠ k) →
      ∀ n, n ∈ (m.run P ops).nodes → n.key ≠ k := by
  intro ops
  induction ops with
  | nil => intro m hm _ n hn; exact hm n hn
  | cons op ops ih =>
    intro m hm hops
    have hop := hops op (List.mem_cons_self _ _)
    apply ih (m.step P op) _ (fun o ho => hops o (List.mem_cons_of_mem _ ho))
    intro n hn
    obtain ⟨i, hi⟩ := (BucketMap.mem_nodes_iff _ n).mp hn
    cases op with
    | insert key value =>
      rcases BucketMap.insert_key P m key value i n hi with h | ⟨n1, hn1, hk⟩
      · rw [h]; exact hop
      · rw [← hk]; exact hm n1 hn1
    | subscript key fresh =>
      rcases BucketMap.subscript_key P m key fresh i n hi with h | ⟨n1, hn1, hk⟩
      · rw [h]; exact hop
      · rw [← hk]; exact hm n1 hn1

theorem BucketMap.nodes_empty (size : Nat) :
    (BucketMap.empty size : BucketMap KEY VALUE).nodes = [] := by
  simp only [BucketMap.nodes, BucketMap.empty]
  induction size with
  | zero => rfl
  | succ n ih => rw [List.replicate_succ, List.flatten_cons, ih]; rfl

/-- C8: for every table reached from the empty table of `size >= 1`
buckets by insert and operator[] calls and every key `k` that none of the
calls passed, `get(k)` returns the sentinel `NONE`, the default-constructed
`VALUE`, whatever else the home bucket of `k` holds. -/
theorem C8_get_absent_key [Inhabited VALUE] (size : Nat) (_hsize : 1 ≤ size)
    (ops : List (Op Str VALUE)) (k : Str) (hk : ∀ op, op ∈ ops → op.key ≠ k) :
    ((BucketMap.empty size).run stringPolicy ops).get stringPolicy k = Ref.NONE ∧
    ((BucketMap.empty size).run stringPolicy ops).read
      (((BucketMap.empty size).run stringPolicy ops).get stringPolicy k) = default := by
  have hkeys := BucketMap.run_key stringPolicy k ops (BucketMap.empty size)
    (by rw [BucketMap.nodes_empty]; intro n hn; simp at hn) hk
  have hget : ((BucketMap.empty size).run stringPolicy ops).get stringPolicy k = Ref.NONE := by
    simp only [BucketMap.get]
    rw [getLoop_absent]
    intro n hn
    rw [stringPolicy_compare_false]
    exact hkeys n (BucketMap.mem_nodes_of_mem_bucket _ _ n hn)
  exact ⟨hget, by rw [hget]; rfl⟩

/-- The key "o" shares bucket 6 with "a" and "h" and was never passed. -/
theorem C8_get_absent_key_witness :
    (1 ≤ 7 ∧ ∀ op, op ∈ [Op.insert (ascii "a") 1, Op.insert (ascii "h") 2, Op.subscript (ascii "c") 5]
      → op.key ≠ ascii "o") ∧
    ((BucketMap.empty 7).run stringPolicy
      [Op.insert (ascii "a") 1, Op.insert (ascii "h") 2, Op.subscript (ascii "c") 5]).get
        stringPolicy (ascii "o") = Ref.NONE ∧
    ((BucketMap.empty 7).run stringPolicy
      [Op.insert (ascii "a") 1, Op.insert (ascii "h") 2, Op.subscript (ascii "c") 5]).read
      (((BucketMap.empty 7).run stringPolicy
        [Op.insert (ascii "a") 1, Op.insert (ascii "h") 2, Op.subscript (ascii "c") 5]).get
          stringPolicy (ascii "o")) = (default : Nat) :=
  ⟨⟨by decide, by decide⟩,
    C8_get_absent_key 7 (by decide)
      [Op.insert (ascii "a") 1, Op.insert (ascii "h") 2, Op.subscript (ascii "c") 5] (ascii "o")
      (by decide)⟩

theorem BucketMap.bucket_eq_getElem? (m : BucketMap KEY VALUE) (i : Nat) (hi : i < m.size) :
    m.buckets_[i]? = some (m.bucket i) := by
  unfold BucketMap.size at hi
  simp [BucketMap.bucket, List.getD_eq_getElem?_getD, List.getElem?_eq_getElem hi]

/-- Without a node for `key` in its home bucket, `operator[](key)` links
a node with the value of a new node behind the chain of the home bucket
and refers to it. -/
theorem BucketMap.subscript_absent (P : Policy KEY) (m : BucketMap KEY VALUE)
    (key : KEY) (fresh : VALUE)
    (habs : ∀ n, n ∈ m.bucket (P.hash_ key % m.size) → P.compare_ n.key key = false) :
    m.subscript P key fresh =
      (⟨m.buckets_.set (P.hash_ key % m.size)
          (m.bucket (P.hash_ key % m.size) ++ [⟨key, fresh⟩])⟩,
        Ref.node (P.hash_ key % m.size) (m.bucket (P.hash_ key % m.size)).length) := by
  simp only [BucketMap.subscript]
  split
  · rename_i hb
    rw [hb]
    rfl
  · rename_i entry rest hb
    rw [hb] at habs
    rw [if_neg (by rw [habs entry (List.mem_cons_self _ _)]; simp), hb,
      subscriptLoop_absent P key fresh (entry :: rest) 0 habs]
    simp

/-- C10: for every table of at least one bucket and every key `k` that has
no node in the table, `operator[](k)` links one node with key `k` behind
the chain of bucket `hash(k) % size`, its value the one `new Node(k)`
default-initialises (`fresh`, whatever that is), leaves every other bucket
and every node of that chain as they were, which makes the table one node
larger, returns a reference to the new node, so that the reference reads
as that value, and a `get(k)` made afterwards returns the same
reference. -/
theorem C10_subscript_absent_key [Inhabited VALUE] (m : BucketMap Str VALUE) (k : Str)
    (fresh : VALUE) (hsize : 1 ≤ m.size) (habs : ∀ n, n ∈ m.nodes → n.key ≠ k) :
    (m.subscript stringPolicy k fresh).1.buckets_ =
      m.buckets_.set (HashFunction k % m.size)
        (m.bucket (HashFunction k % m.size) ++ [⟨k, fresh⟩]) ∧
    (m.subscript stringPolicy k fresh).1.bucket (HashFunction k % m.size) =
      m.bucket (HashFunction k % m.size) ++ [⟨k, fresh⟩] ∧
    (∀ i, i ≠ HashFunction k % m.size →
      (m.subscript stringPolicy k fresh).1.bucket i = m.bucket i) ∧
    (m.subscript stringPolicy k fresh).1.nodes.length = m.nodes.length + 1 ∧
    (m.subscript stringPolicy k fresh).2 =
      Ref.node (HashFunction k % m.size) (m.bucket (HashFunction k % m.size)).length ∧
    (m.subscript stringPolicy k fresh).1.read (m.subscript stringPolicy k fresh).2 = fresh ∧
    (m.subscript stringPolicy k fresh).1.get stringPolicy k
      = (m.subscript stringPolicy k fresh).2 := by
  have hlt : HashFunction k % m.size < m.size := Nat.mod_lt _ (by omega)
  have hno : ∀ n, n ∈ m.bucket (stringPolicy.hash_ k % m.size) →
      stringPolicy.compare_ n.key k = false := by
    intro n hn
    rw [stringPolicy_compare_false]
    exact habs n (BucketMap.mem_nodes_of_mem_bucket m _ n hn)
  have hsub := BucketMap.subscript_absent stringPolicy m k fresh hno
  have hhash : stringPolicy.hash_ k = HashFunction k := rfl
  rw [hhash] at hsub hno
  rw [hsub]
  have hbucket := BucketMap.bucket_set_same m (HashFunction k % m.size)
    (m.bucket (HashFunction k % m.size) ++ [⟨k, fresh⟩]) hlt
  refine ⟨rfl, hbucket, ?_, ?_, rfl, ?_, ?_⟩
  · intro i hi
    exact BucketMap.bucket_set_other m _ i _ (Ne.symm hi)
  · have := length_flatten_set (m.bucket (HashFunction k % m.size) ++ [⟨k, fresh⟩])
      m.buckets_ _ _ (BucketMap.bucket_eq_getElem? m _ hlt)
    simp only [List.length_append, List.length_singleton] at this
    simp only [BucketMap.nodes]
    omega
  · simp only [BucketMap.read, hbucket]
    simp
  · simp only [BucketMap.get, BucketMap.size_set_chain, hhash, hbucket]
    rw [getLoop_append stringPolicy k _ ((stringPolicy_compare k k).mpr rfl) _ 0 hno]
    simp

/-- In `chainAH` the key "o" is linked behind "a" and "h" in bucket 6; the
new node starts with 41, which is not the 0 that `NONE` reads as. -/
theorem C10_subscript_absent_key_witness :
    (1 ≤ chainAH.size ∧ ∀ n, n ∈ chainAH.nodes → n.key ≠ ascii "o") ∧
    (chainAH.subscript stringPolicy (ascii "o") 41).1.buckets_ =
      chainAH.buckets_.set (HashFunction (ascii "o") % chainAH.size)
        (chainAH.bucket (HashFunction (ascii "o") % chainAH.size) ++ [⟨ascii "o", 41⟩]) ∧
    (chainAH.subscript stringPolicy (ascii "o") 41).1.bucket
        (HashFunction (ascii "o") % chainAH.size) =
      chainAH.bucket (HashFunction (ascii "o") % chainAH.size) ++ [⟨ascii "o", 41⟩] ∧
    (∀ i, i ≠ HashFunction (ascii "o") % chainAH.size →
      (chainAH.subscript stringPolicy (ascii "o") 41).1.bucket i = chainAH.bucket i) ∧
    (chainAH.subscript stringPolicy (ascii "o") 41).1.nodes.length = chainAH.nodes.length + 1 ∧
    (chainAH.subscript stringPolicy (ascii "o") 41).2 =
      Ref.node (HashFunction (ascii "o") % chainAH.size)
        (chainAH.bucket (HashFunction (ascii "o") % chainAH.size)).length ∧
    (chainAH.subscript stringPolicy (ascii "o") 41).1.read
      (chainAH.subscript stringPolicy (ascii "o") 41).2 = 41 ∧
    (chainAH.subscript stringPolicy (ascii "o") 41).1.get stringPolicy (ascii "o")
      = (chainAH.subscript stringPolicy (ascii "o") 41).2 :=
  ⟨⟨by decide, by decide⟩,
    C10_subscript_absent_key chainAH (ascii "o") 41 (by decide) (by decide)⟩

end Hashmap2

end Sandbox

namespace Sandbox

/-! ## `hashmap.cc`: lookups after inserts -/

namespace Hashmap

variable {TYPE : Type}

theorem BucketMap.insertLoop_eq (item : TYPE) :
    ∀ (rest : List TYPE) (node : TYPE),
      BucketMap.insertLoop item node rest = node :: rest ++ [item] := by
  intro rest
  induction rest with
  | nil => intro node; rfl
  | cons nxt rest ih =>
    intro node
    rw [BucketMap.insertLoop, ih nxt]
    rfl

/-- `BucketMap::insert` links the item behind the chain of its home
bucket. -/
theorem BucketMap.insert_eq (P : Policy TYPE) (m : BucketMap TYPE) (item : TYPE) :
    m.insert P item =
      ⟨m.buckets_.set (P.hash_ item % m.size) (m.bucket (P.hash_ item % m.size) ++ [item])⟩ := by
  simp only [BucketMap.insert]
  split
  · rename_i hb
    rw [hb]
    rfl
  · rename_i entry rest hb
    rw [hb, BucketMap.insertLoop_eq]

theorem BucketMap.bucket_insert (P : Policy TYPE) (m : BucketMap TYPE) (item : TYPE)
    (hsize : 0 < m.size) (i : Nat) :
    (m.insert P item).bucket i =
      if P.hash_ item % m.size = i then m.bucket i ++ [item] else m.bucket i := by
  have hlt : P.hash_ item % m.size < m.buckets_.length := Nat.mod_lt _ hsize
  rw [BucketMap.insert_eq]
  simp only [BucketMap.bucket, List.getD_eq_getElem?_getD, List.getElem?_set]
  by_cases h : P.hash_ item % m.size = i
  · subst h
    simp [hlt]
  · simp [h]

theorem BucketMap.size_insert (P : Policy TYPE) (m : BucketMap TYPE) (item : TYPE) :
    (m.insert P item).size = m.size := by
  rw [BucketMap.insert_eq]
  simp [BucketMap.size]

/-- After a run of inserts a bucket holds what it held before and the
inserted items whose home it is. -/
theorem BucketMap.mem_bucket_insertAll (P : Policy TYPE) :
    ∀ (items : List TYPE) (m : BucketMap TYPE), 0 < m.size → ∀ (i : Nat) (y : TYPE),
      (y ∈ (m.insertAll P items).bucket i ↔
        y ∈ m.bucket i ∨ (y ∈ items ∧ P.hash_ y % m.size = i)) := by
  intro items
  induction items with
  | nil => intro m _ i y; simp [BucketMap.insertAll]
  | cons x items ih =>
    intro m hsize i y
    have hstep : m.insertAll P (x :: items) = (m.insert P x).insertAll P items := rfl
    rw [hstep, ih (m.insert P x) (by rw [BucketMap.size_insert]; exact hsize) i y,
      BucketMap.size_insert, BucketMap.bucket_insert P m x hsize]
    by_cases h : P.hash_ x % m.size = i
    · rw [if_pos h]
      simp only [List.mem_append, List.mem_cons, List.not_mem_nil, or_false]
      constructor
      · rintro ((h1 | h1) | h1)
        · exact Or.inl h1
        · exact Or.inr ⟨Or.inl h1, by rw [h1]; exact h⟩
        · exact Or.inr ⟨Or.inr h1.1, h1.2⟩
      · rintro (h1 | ⟨h1 | h1, h2⟩)
        · exact Or.inl (Or.inl h1)
        · exact Or.inl (Or.inr h1)
        · exact Or.inr ⟨h1, h2⟩
    · rw [if_neg h]
      simp only [List.mem_cons]
      constructor
      · rintro (h1 | h1)
        · exact Or.inl h1
        · exact Or.inr ⟨Or.inr h1.1, h1.2⟩
      · rintro (h1 | ⟨h1 | h1, h2⟩)
        · exact Or.inl h1
        · exact absurd (by rw [← h1]; exact h2) h
        · exact Or.inr ⟨h1, h2⟩

theorem BucketMap.bucket_empty (size i : Nat) :
    (BucketMap.empty size : BucketMap TYPE).bucket i = [] := by
  simp only [BucketMap.bucket, BucketMap.empty, List.getD_eq_getElem?_getD]
  by_cases h : i < size
  · simp [List.getElem?_replicate, h]
  · simp [List.getElem?_replicate, h]

/-- The loop of `BucketMap::get` on strings: the item when the chain
holds it, `NONE` when not. -/
theorem BucketMap.getLoop_string (x : Str) (chain : List Str) :
    (x ∈ chain → BucketMap.getLoop stringPolicy x chain = x) ∧
    (x ∉ chain → BucketMap.getLoop stringPolicy x chain = default) := by
  induction chain with
  | nil => exact ⟨fun h => by simp at h, fun _ => rfl⟩
  | cons c chain ih =>
    by_cases hc : c = x
    · subst hc
      have : stringPolicy.compare_ c c = true := by simp [stringPolicy, CompareFunction]
      refine ⟨fun _ => by rw [BucketMap.getLoop, if_pos this], fun h => ?_⟩
      exact absurd (List.mem_cons_self _ _) h
    · have : ¬ stringPolicy.compare_ c x = true := by
        simp [stringPolicy, CompareFunction, hc]
      constructor
      · intro h
        rw [BucketMap.getLoop, if_neg this]
        rcases List.mem_cons.mp h with h | h
        · exact absurd h.symm hc
        · exact ih.1 h
      · intro h
        rw [BucketMap.getLoop, if_neg this]
        exact ih.2 (fun h1 => h (List.mem_cons_of_mem _ h1))

/-- The loop of `OpenAddressMap::get` on strings, entered at distance `s`
from the home position `p`: the item when a slot of the rest of the walk
holds it, `NONE` when none does. -/
theorem OpenAddressMap.scan_string (m : OpenAddressMap Str) (x : Str) (p : Nat)
    (hp : p < m.size) :
    ∀ fuel s, 1 ≤ s → s ≤ m.size → m.size - s < fuel →
      ((∃ j, s ≤ j ∧ j < m.size ∧ m.slot ((p + j) % m.size) = some x) →
        OpenAddressMap.getLoop stringPolicy m x p fuel ((p + s) % m.size) = some x) ∧
      ((∀ j, s ≤ j → j < m.size → m.slot ((p + j) % m.size) ≠ some x) →
        OpenAddressMap.getLoop stringPolicy m x p fuel ((p + s) % m.size) = some default) := by
  intro fuel
  induction fuel with
  | zero => intro s _ _ h; omega
  | succ fuel ih =>
    intro s hs1 hsn hf
    by_cases hend : s = m.size
    · subst hend
      rw [walk_full hp, OpenAddressMap.getLoop, if_pos rfl]
      exact ⟨fun ⟨j, h1, h2, _⟩ => by omega, fun _ => rfl⟩
    · have hne : p ≠ (p + s) % m.size := fun h => walk_ne_start hp hs1 (by omega) h.symm
      have hih := ih (s + 1) (by omega) (by omega) (by omega)
      rw [OpenAddressMap.getLoop, if_neg hne, walk_succ]
      cases hslot : m.slot ((p + s) % m.size) with
      | none =>
        simp only []
        constructor
        · rintro ⟨j, h1, h2, h3⟩
          have hjs : j ≠ s := fun e => by rw [e, hslot] at h3; simp at h3
          exact hih.1 ⟨j, by omega, h2, h3⟩
        · intro h
          exact hih.2 (fun j h1 h2 => h j (by omega) h2)
      | some y =>
        simp only []
        by_cases hy : y = x
        · subst hy
          rw [if_pos ((by simp [stringPolicy, CompareFunction]) : stringPolicy.compare_ y y = true)]
          exact ⟨fun _ => rfl, fun h => absurd hslot (h s (Nat.le_refl _) (by omega))⟩
        · rw [if_neg ((by simp [stringPolicy, CompareFunction, hy]) :
            ¬ stringPolicy.compare_ y x = true)]
          constructor
          · rintro ⟨j, h1, h2, h3⟩
            have hjs : j ≠ s := fun e => by
              rw [e, hslot] at h3
              exact hy (Option.some.inj h3)
            exact hih.1 ⟨j, by omega, h2, h3⟩
          · intro h
            exact hih.2 (fun j h1 h2 => h j (by omega) h2)

theorem OpenAddressMap.mem_data_iff (m : OpenAddressMap TYPE) (x : TYPE) :
    some x ∈ m.data_ ↔ ∃ i, i < m.size ∧ m.slot i = some x := by
  rw [List.mem_iff_getElem?]
  constructor
  · rintro ⟨i, hi⟩
    have hlt : i < m.size := by
      by_contra hge
      rw [List.getElem?_eq_none (by unfold OpenAddressMap.size at hge; omega)] at hi
      simp at hi
    refine ⟨i, hlt, ?_⟩
    have := OpenAddressMap.slot_eq_getElem? m i hlt
    rw [hi] at this
    exact (Option.some.inj this).symm
  · rintro ⟨i, hi, hs⟩
    exact ⟨i, by rw [OpenAddressMap.slot_eq_getElem? m i hi, hs]⟩

/-- `OpenAddressMap::get` on strings: the item when a slot holds it,
`NONE` when none does. -/
theorem OpenAddressMap.get_string (m : OpenAddressMap Str) (x : Str) (hsize : 0 < m.size) :
    (some x ∈ m.data_ → m.get stringPolicy x = some x) ∧
    (some x ∉ m.data_ → m.get stringPolicy x = some default) := by
  have hp : stringPolicy.hash_ x % m.size < m.size := Nat.mod_lt _ hsize
  have hloop := OpenAddressMap.scan_string m x (stringPolicy.hash_ x % m.size) hp m.size 1
    (by omega) (by omega) (by omega)
  have h1 : (1 + stringPolicy.hash_ x % m.size) % m.size
      = (stringPolicy.hash_ x % m.size + 1) % m.size := by rw [Nat.add_comm]
  have hhome : ∀ j, j < m.size → m.slot ((stringPolicy.hash_ x % m.size + j) % m.size) = some x →
      m.slot (stringPolicy.hash_ x % m.size) ≠ some x → 1 ≤ j := by
    intro j _ hj hne
    by_contra h0
    have : j = 0 := by omega
    subst this
    rw [Nat.add_zero, Nat.mod_eq_of_lt hp] at hj
    exact hne hj
  have hfound : some x ∈ m.data_ → m.slot (stringPolicy.hash_ x % m.size) ≠ some x →
      ∃ j, 1 ≤ j ∧ j < m.size ∧ m.slot ((stringPolicy.hash_ x % m.size + j) % m.size) = some x := by
    intro hmem hne
    obtain ⟨i, hi, hs⟩ := (OpenAddressMap.mem_data_iff m x).mp hmem
    obtain ⟨j, hj, hji⟩ := walk_surj hp hi
    rw [← hji] at hs
    exact ⟨j, hhome j hj hs hne, hj, hs⟩
  have hmissing : some x ∉ m.data_ →
      ∀ j, 1 ≤ j → j < m.size →
        m.slot ((stringPolicy.hash_ x % m.size + j) % m.size) ≠ some x := by
    intro hmem j _ _ hs
    exact hmem ((OpenAddressMap.mem_data_iff m x).mpr ⟨_, Nat.mod_lt _ hsize, hs⟩)
  simp only [OpenAddressMap.get, h1]
  cases hslot : m.slot (stringPolicy.hash_ x % m.size) with
  | none =>
    simp only []
    exact ⟨fun hmem => hloop.1 (hfound hmem (by rw [hslot]; simp)),
      fun hmem => hloop.2 (hmissing hmem)⟩
  | some y =>
    simp only []
    by_cases hy : y = x
    · subst hy
      rw [if_pos ((by simp [stringPolicy, CompareFunction]) : stringPolicy.compare_ y y = true)]
      exact ⟨fun _ => rfl,
        fun hmem => absurd ((OpenAddressMap.mem_data_iff m y).mpr ⟨_, hp, hslot⟩) hmem⟩
    · rw [if_neg ((by simp [stringPolicy, CompareFunction, hy]) :
        ¬ stringPolicy.compare_ y x = true)]
      have hne : m.slot (stringPolicy.hash_ x % m.size) ≠ some x := by
        rw [hslot]
        exact fun e => hy (Option.some.inj e)
      exact ⟨fun hmem => hloop.1 (hfound hmem hne), fun hmem => hloop.2 (hmissing hmem)⟩

theorem mem_set_empty_slot (l : List (Option TYPE)) (idx : Nat) (x y : TYPE)
    (hidx : l[idx]? = some none) :
    some y ∈ l.set idx (some x) ↔ y = x ∨ some y ∈ l := by
  have hlt : idx < l.length := by
    by_contra hge
    rw [List.getElem?_eq_none (by omega)] at hidx
    simp at hidx
  simp only [List.mem_iff_getElem?, List.getElem?_set]
  constructor
  · rintro ⟨i, hi⟩
    by_cases h : idx = i
    · rw [if_pos h, if_pos hlt] at hi
      exact Or.inl (Option.some.inj (Option.some.inj hi)).symm
    · rw [if_neg h] at hi
      exact Or.inr ⟨i, hi⟩
  · rintro (h | ⟨i, hi⟩)
    · exact ⟨idx, by rw [if_pos rfl, if_pos hlt, h]⟩
    · refine ⟨i, ?_⟩
      have h : idx ≠ i := by
        intro e
        rw [e, hi] at hidx
        simp at hidx
      rw [if_neg h]
      exact hi

/-- After a run of inserts none of which throws, the slots hold what they
held before and the inserted items. -/
theorem OpenAddressMap.mem_insertAll (P : Policy TYPE) :
    ∀ (items : List TYPE) (m m1 : OpenAddressMap TYPE), 0 < m.size →
      OpenAddressMap.insertAll P m items = some (m1, Result.returned) →
      ∀ y, some y ∈ m1.data_ ↔ some y ∈ m.data_ ∨ y ∈ items := by
  intro items
  induction items with
  | nil =>
    intro m m1 _ h y
    simp only [OpenAddressMap.insertAll, Option.some.injEq, Prod.mk.injEq, and_true] at h
    subst h
    simp
  | cons x items ih =>
    intro m m1 hsize h y
    rcases OpenAddressMap.insert_cases P m x hsize with ⟨d, _, _, hemp, hins⟩ | ⟨_, hins⟩
    · simp only [OpenAddressMap.insertAll, hins] at h
      have hlt : (P.hash_ x % m.size + d) % m.size < m.size := Nat.mod_lt _ hsize
      have hidx := OpenAddressMap.slot_eq_getElem? m _ hlt
      rw [hemp] at hidx
      rw [ih _ m1 (by rw [OpenAddressMap.size_set]; exact hsize) h y,
        mem_set_empty_slot m.data_ _ x y hidx, List.mem_cons]
      constructor
      · rintro ((h1 | h1) | h1)
        · exact Or.inr (Or.inl h1)
        · exact Or.inl h1
        · exact Or.inr (Or.inr h1)
      · rintro (h1 | h1 | h1)
        · exact Or.inl (Or.inr h1)
        · exact Or.inl (Or.inl h1)
        · exact Or.inr h1
    · simp [OpenAddressMap.insertAll, hins] at h

theorem OpenAddressMap.size_insertAll (P : Policy TYPE) :
    ∀ (items : List TYPE) (m m1 : OpenAddressMap TYPE) (r : Result), 0 < m.size →
      OpenAddressMap.insertAll P m items = some (m1, r) → m1.size = m.size := by
  intro items
  induction items with
  | nil =>
    intro m m1 r _ h
    simp only [OpenAddressMap.insertAll, Option.some.injEq, Prod.mk.injEq] at h
    rw [h.1]
  | cons x items ih =>
    intro m m1 r hsize h
    rcases OpenAddressMap.insert_cases P m x hsize with ⟨d, _, _, _, hins⟩ | ⟨_, hins⟩
    · simp only [OpenAddressMap.insertAll, hins] at h
      rw [ih _ m1 r (by rw [OpenAddressMap.size_set]; exact hsize) h, OpenAddressMap.size_set]
    · simp only [OpenAddressMap.insertAll, hins, Option.some.injEq, Prod.mk.injEq] at h
      rw [h.1]

theorem OpenAddressMap.not_mem_empty (size : Nat) (x : TYPE) :
    some x ∉ (OpenAddressMap.empty size : OpenAddressMap TYPE).data_ := by
  intro h
  obtain ⟨i, _, hi⟩ := (OpenAddressMap.mem_data_iff _ x).mp h
  rw [OpenAddressMap.slot_empty] at hi
  simp at hi

/-- C9: for both key-only containers of `hashmap.cc` on strings, each
with at least one bucket or slot: after the inserts of `items` into the
empty table, none of which throws, `get(x)` returns `x` for every `x`
among the items and `NONE` for every other `x`.  The chained table never
throws; for the open-addressing table the run of inserts is one that
returned normally throughout. -/
theorem C9_get_after_inserts (buckets slots : Nat) (hbuckets : 1 ≤ buckets) (hslots : 1 ≤ slots)
    (items : List Str) :
    (∀ x,
      (x ∈ items →
        (BucketMap.insertAll stringPolicy (BucketMap.empty buckets) items).get stringPolicy x = x) ∧
      (x ∉ items →
        (BucketMap.insertAll stringPolicy (BucketMap.empty buckets) items).get stringPolicy x
          = default)) ∧
    (∀ m, OpenAddressMap.insertAll stringPolicy (OpenAddressMap.empty slots) items
        = some (m, Result.returned) →
      ∀ x, (x ∈ items → m.get stringPolicy x = some x) ∧
        (x ∉ items → m.get stringPolicy x = some default)) := by
  constructor
  · intro x
    have hsize : 0 < (BucketMap.empty buckets : BucketMap Str).size := by
      simp only [BucketMap.size, BucketMap.empty, List.length_replicate]
      omega
    have hmem := fun i => BucketMap.mem_bucket_insertAll stringPolicy items
      (BucketMap.empty buckets) hsize i x
    have hs : (BucketMap.insertAll stringPolicy (BucketMap.empty buckets) items).size
        = (BucketMap.empty buckets : BucketMap Str).size := by
      clear hmem
      generalize (BucketMap.empty buckets : BucketMap Str) = m0
      induction items generalizing m0 with
      | nil => rfl
      | cons y items ih =>
        have hstep : m0.insertAll stringPolicy (y :: items)
            = (m0.insert stringPolicy y).insertAll stringPolicy items := rfl
        rw [hstep, ih, BucketMap.size_insert]
    have hloop := BucketMap.getLoop_string x
      ((BucketMap.insertAll stringPolicy (BucketMap.empty buckets) items).bucket
        (stringPolicy.hash_ x % (BucketMap.empty buckets : BucketMap Str).size))
    simp only [BucketMap.get, hs]
    constructor
    · intro hx
      exact hloop.1 ((hmem _).mpr (Or.inr ⟨hx, rfl⟩))
    · intro hx
      apply hloop.2
      intro h
      rcases (hmem _).mp h with h | h
      · rw [BucketMap.bucket_empty] at h
        simp at h
      · exact hx h.1
  · intro m hrun x
    have hsize : 0 < (OpenAddressMap.empty slots : OpenAddressMap Str).size := by
      rw [OpenAddressMap.size_empty]
      omega
    have hmem := OpenAddressMap.mem_insertAll stringPolicy items _ m hsize hrun x
    have hms : 0 < m.size := by
      rw [OpenAddressMap.size_insertAll stringPolicy items _ m _ hsize hrun]
      exact hsize
    have hget := OpenAddressMap.get_string m x hms
    constructor
    · intro hx
      exact hget.1 (hmem.mpr (Or.inr hx))
    · intro hx
      apply hget.2
      intro h
      rcases hmem.mp h with h | h
      · exact OpenAddressMap.not_mem_empty slots x h
      · exact hx h

set_option maxRecDepth 100000

/-- The run of `test` on both tables of `main`, with one string that was
inserted and the one that was not. -/
theorem C9_get_after_inserts_witness :
    (1 ≤ 7 ∧ 1 ≤ 23 ∧
      OpenAddressMap.insertAll stringPolicy (OpenAddressMap.empty 23) testItems
        = some (testOpenTable, Result.returned) ∧
      ascii "Meet me in the morning when you wake up." ∈ testItems ∧
      ascii "Waiting for life to start." ∉ testItems) ∧
    ((BucketMap.insertAll stringPolicy (BucketMap.empty 7) testItems).get stringPolicy
        (ascii "Meet me in the morning when you wake up.")
      = ascii "Meet me in the morning when you wake up.") ∧
    ((BucketMap.insertAll stringPolicy (BucketMap.empty 7) testItems).get stringPolicy
        (ascii "Waiting for life to start.") = default) ∧
    (testOpenTable.get stringPolicy (ascii "Meet me in the morning when you wake up.")
      = some (ascii "Meet me in the morning when you wake up.")) ∧
    (testOpenTable.get stringPolicy (ascii "Waiting for life to start.") = some default) :=
  have hin : ascii "Meet me in the morning when you wake up." ∈ testItems := by decide
  have hout : ascii "Waiting for life to start." ∉ testItems := by decide
  have hrun : OpenAddressMap.insertAll stringPolicy (OpenAddressMap.empty 23) testItems
      = some (testOpenTable, Result.returned) := by decide
  ⟨⟨by decide, by decide, hrun, hin, hout⟩,
    ((C9_get_after_inserts 7 23 (by decide) (by decide) testItems).1 _).1 hin,
    ((C9_get_after_inserts 7 23 (by decide) (by decide) testItems).1 _).2 hout,
    ((C9_get_after_inserts 7 23 (by decide) (by decide) testItems).2 testOpenTable hrun _).1 hin,
    ((C9_get_after_inserts 7 23 (by decide) (by decide) testItems).2 testOpenTable hrun _).2 hout⟩

end Hashmap

end Sandbox

namespace Sandbox

namespace Hashmap2

variable {KEY VALUE : Type}

/-! ### `operator[]` twice, and `insert` of a key the table lacks -/

/-- A chain either has no node that matches `key`, or splits at the first
one that does. -/
theorem chain_split (P : Policy KEY) (key : KEY) :
    ∀ chain : List (Node KEY VALUE),
      (∀ n, n ∈ chain → P.compare_ n.key key = false) ∨
      ∃ pre node post, chain = pre ++ node :: post ∧
        (∀ n, n ∈ pre → P.compare_ n.key key = false) ∧ P.compare_ node.key key = true := by
  intro chain
  induction chain with
  | nil => exact Or.inl (fun n hn => by simp at hn)
  | cons c chain ih =>
    by_cases hc : P.compare_ c.key key = true
    · exact Or.inr ⟨[], c, chain, rfl, fun n hn => by simp at hn, hc⟩
    · have hc1 : P.compare_ c.key key = false := by simpa using hc
      rcases ih with h | ⟨pre, node, post, h1, h2, h3⟩
      · left
        intro n hn
        rcases List.mem_cons.mp hn with h0 | h0
        · rw [h0]; exact hc1
        · exact h n h0
      · right
        refine ⟨c :: pre, node, post, by rw [h1]; rfl, ?_, h3⟩
        intro n hn
        rcases List.mem_cons.mp hn with h0 | h0
        · rw [h0]; exact hc1
        · exact h2 n h0

/-- The loop of `operator[]` stops at the first node that matches and
leaves the chain as it is. -/
theorem subscriptLoop_found (P : Policy KEY) (key : KEY) (fresh : VALUE)
    (node : Node KEY VALUE) (post : List (Node KEY VALUE))
    (hnode : P.compare_ node.key key = true) :
    ∀ (pre : List (Node KEY VALUE)) (pos : Nat),
      (∀ n, n ∈ pre → P.compare_ n.key key = false) →
      subscriptLoop P key fresh pos (pre ++ node :: post)
        = (pre ++ node :: post, pos + pre.length) := by
  intro pre
  induction pre with
  | nil =>
    intro pos _
    simp [subscriptLoop, hnode]
  | cons c pre ih =>
    intro pos h
    rw [List.cons_append, subscriptLoop, h c (List.mem_cons_self _ _),
      ih (pos + 1) (fun n hn => h n (List.mem_cons_of_mem _ hn))]
    simp only [Bool.false_eq_true, if_false, List.length_cons]
    congr 1
    omega

/-- The loop of `get` stops at the first node that matches. -/
theorem getLoop_found (P : Policy KEY) (key : KEY) (node : Node KEY VALUE)
    (post : List (Node KEY VALUE)) (hnode : P.compare_ node.key key = true) :
    ∀ (pre : List (Node KEY VALUE)) (pos : Nat),
      (∀ n, n ∈ pre → P.compare_ n.key key = false) →
      getLoop P key pos (pre ++ node :: post) = some (pos + pre.length) := by
  intro pre
  induction pre with
  | nil =>
    intro pos _
    simp [getLoop, hnode]
  | cons c pre ih =>
    intro pos h
    rw [List.cons_append, getLoop, h c (List.mem_cons_self _ _)]
    simp only [Bool.false_eq_true, if_false, List.length_cons]
    rw [ih (pos + 1) (fun n hn => h n (List.mem_cons_of_mem _ hn))]
    congr 1
    omega

theorem BucketMap.set_bucket_self (m : BucketMap KEY VALUE) (i : Nat) :
    BucketMap.mk (m.buckets_.set i (m.bucket i)) = m := by
  cases m with
  | mk buckets =>
    simp only [BucketMap.bucket, BucketMap.mk.injEq]
    apply List.ext_getElem?
    intro j
    rw [List.getElem?_set]
    by_cases h : i = j
    · subst h
      by_cases hi : i < buckets.length
      · simp [hi, List.getD_eq_getElem?_getD, List.getElem?_eq_getElem hi]
      · simp [hi, List.getElem?_eq_none (Nat.le_of_not_lt hi)]
    · simp [h]

/-- With a node for `key` in its home bucket, `operator[](key)` leaves the
table alone and refers to the first such node. -/
theorem BucketMap.subscript_found (P : Policy KEY) (m : BucketMap KEY VALUE)
    (key : KEY) (fresh : VALUE) (pre : List (Node KEY VALUE)) (node : Node KEY VALUE)
    (post : List (Node KEY VALUE))
    (hb : m.bucket (P.hash_ key % m.size) = pre ++ node :: post)
    (hpre : ∀ n, n ∈ pre → P.compare_ n.key key = false)
    (hnode : P.compare_ node.key key = true) :
    m.subscript P key fresh = (m, Ref.node (P.hash_ key % m.size) pre.length) := by
  simp only [BucketMap.subscript]
  split
  · rename_i hnil
    rw [hb] at hnil
    simp at hnil
  · rename_i entry rest hcons
    split
    · rename_i hentry
      cases pre with
      | nil => rfl
      | cons c pre =>
        rw [hb] at hcons
        simp only [List.cons_append, List.cons.injEq] at hcons
        have := hpre c (List.mem_cons_self _ _)
        rw [hcons.1, hentry] at this
        simp at this
    · rw [← hcons, hb, subscriptLoop_found P key fresh node post hnode pre 0 hpre, ← hb]
      simp only [Nat.zero_add]
      rw [BucketMap.set_bucket_self]

/-- With a node for `key` in its home bucket, `get(key)` refers to the
first such node. -/
theorem BucketMap.get_found (P : Policy KEY) (m : BucketMap KEY VALUE)
    (key : KEY) (pre : List (Node KEY VALUE)) (node : Node KEY VALUE)
    (post : List (Node KEY VALUE))
    (hb : m.bucket (P.hash_ key % m.size) = pre ++ node :: post)
    (hpre : ∀ n, n ∈ pre → P.compare_ n.key key = false)
    (hnode : P.compare_ node.key key = true) :
    m.get P key = Ref.node (P.hash_ key % m.size) pre.length := by
  simp only [BucketMap.get, hb, getLoop_found P key node post hnode pre 0 hpre, Nat.zero_add]

/-- C11: for every table of at least one bucket and every key `k`, the
first `operator[](k)` returns a reference to a node of bucket
`hash(k) % size` whose key is `k` (the first such node of the chain, the
one `get(k)` finds), and a second `operator[](k)` right after it returns
the same reference (same bucket, same position in the chain) and leaves
the table as the first call left it, whatever the two calls would have put
into a new node. -/
theorem C11_subscript_twice (m : BucketMap Str VALUE) (k : Str) (fresh1 fresh2 : VALUE)
    (hsize : 1 ≤ m.size) :
    ∃ pos n,
      (m.subscript stringPolicy k fresh1).2 = Ref.node (HashFunction k % m.size) pos ∧
      ((m.subscript stringPolicy k fresh1).1.bucket (HashFunction k % m.size))[pos]? = some n ∧
      n.key = k ∧
      (∀ j n1, j < pos →
        ((m.subscript stringPolicy k fresh1).1.bucket (HashFunction k % m.size))[j]? = some n1 →
        n1.key ≠ k) ∧
      (m.subscript stringPolicy k fresh1).1.get stringPolicy k
        = Ref.node (HashFunction k % m.size) pos ∧
      ((m.subscript stringPolicy k fresh1).1.subscript stringPolicy k fresh2).2
        = Ref.node (HashFunction k % m.size) pos ∧
      ((m.subscript stringPolicy k fresh1).1.subscript stringPolicy k fresh2).1
        = (m.subscript stringPolicy k fresh1).1 := by
  have hhash : stringPolicy.hash_ k = HashFunction k := rfl
  have hlt : HashFunction k % m.size < m.size := Nat.mod_lt _ (by omega)
  have hkey : ∀ (pre : List (Node Str VALUE)) (node : Node Str VALUE) (post : List (Node Str VALUE)),
      (∀ n, n ∈ pre → stringPolicy.compare_ n.key k = false) →
      ∀ j n1, j < pre.length → (pre ++ node :: post)[j]? = some n1 → n1.key ≠ k := by
    intro pre node post hpre j n1 hj hn1
    rw [List.getElem?_append_left hj] at hn1
    exact (stringPolicy_compare_false _ _).mp (hpre n1 (List.getElem?_mem hn1))
  rcases chain_split stringPolicy k (m.bucket (stringPolicy.hash_ k % m.size)) with
    habs | ⟨pre, node, post, hb, hpre, hnode⟩
  · have h1 := BucketMap.subscript_absent stringPolicy m k fresh1 habs
    rw [hhash] at h1 habs
    have hb := BucketMap.bucket_set_same m (HashFunction k % m.size)
      (m.bucket (HashFunction k % m.size) ++ [⟨k, fresh1⟩]) hlt
    have hk : stringPolicy.compare_ (Node.mk k fresh1).key k = true :=
      (stringPolicy_compare k k).mpr rfl
    have h2 := BucketMap.subscript_found stringPolicy
      (BucketMap.mk (m.buckets_.set (HashFunction k % m.size)
        (m.bucket (HashFunction k % m.size) ++ [⟨k, fresh1⟩]))) k fresh2
      (m.bucket (HashFunction k % m.size)) ⟨k, fresh1⟩ []
      (by rw [BucketMap.size_set_chain]; exact hb) habs hk
    have h3 := BucketMap.get_found stringPolicy
      (BucketMap.mk (m.buckets_.set (HashFunction k % m.size)
        (m.bucket (HashFunction k % m.size) ++ [⟨k, fresh1⟩]))) k
      (m.bucket (HashFunction k % m.size)) ⟨k, fresh1⟩ []
      (by rw [BucketMap.size_set_chain]; exact hb) habs hk
    rw [BucketMap.size_set_chain, hhash] at h2 h3
    rw [h1, h2, h3]
    refine ⟨(m.bucket (HashFunction k % m.size)).length, ⟨k, fresh1⟩, rfl, ?_, rfl, ?_, rfl, rfl,
      rfl⟩
    · rw [hb]
      exact getElem?_split _ _ _
    · rw [hb]
      exact hkey _ _ _ habs
  · have h1 := BucketMap.subscript_found stringPolicy m k fresh1 pre node post hb hpre hnode
    have h2 := BucketMap.subscript_found stringPolicy m k fresh2 pre node post hb hpre hnode
    have h3 := BucketMap.get_found stringPolicy m k pre node post hb hpre hnode
    rw [hhash] at h1 h2 h3 hb
    rw [h1, h2, h3]
    refine ⟨pre.length, node, rfl, ?_, (stringPolicy_compare _ _).mp hnode, ?_, rfl, rfl, rfl⟩
    · rw [hb]
      exact getElem?_split _ _ _
    · rw [hb]
      exact hkey _ _ _ hpre

/-- A first `operator[]("o")` on `chainAH` links a node behind "a" and "h"
in bucket 6, the second finds it at position 2 and links nothing. -/
theorem C11_subscript_twice_witness :
    1 ≤ chainAH.size ∧
    ∃ pos n,
      (chainAH.subscript stringPolicy (ascii "o") 41).2
        = Ref.node (HashFunction (ascii "o") % chainAH.size) pos ∧
      ((chainAH.subscript stringPolicy (ascii "o") 41).1.bucket
        (HashFunction (ascii "o") % chainAH.size))[pos]? = some n ∧
      n.key = ascii "o" ∧
      (∀ j n1, j < pos →
        ((chainAH.subscript stringPolicy (ascii "o") 41).1.bucket
          (HashFunction (ascii "o") % chainAH.size))[j]? = some n1 →
        n1.key ≠ ascii "o") ∧
      (chainAH.subscript stringPolicy (ascii "o") 41).1.get stringPolicy (ascii "o")
        = Ref.node (HashFunction (ascii "o") % chainAH.size) pos ∧
      ((chainAH.subscript stringPolicy (ascii "o") 41).1.subscript stringPolicy (ascii "o") 77).2
        = Ref.node (HashFunction (ascii "o") % chainAH.size) pos ∧
      ((chainAH.subscript stringPolicy (ascii "o") 41).1.subscript stringPolicy (ascii "o") 77).1
        = (chainAH.subscript stringPolicy (ascii "o") 41).1 :=
  ⟨by decide, C11_subscript_twice chainAH (ascii "o") 41 77 (by decide)⟩

end Hashmap2

end Sandbox

namespace Sandbox

namespace Hashmap2

variable {KEY VALUE : Type}

end Hashmap2

end Sandbox

namespace Sandbox

namespace Hashmap2

variable {KEY VALUE : Type}

/-! ### Assignments through the references of `operator[]` -/

theorem chainValue_absent (P : Policy KEY) (key : KEY) (chain : List (Node KEY VALUE))
    (h : ∀ n, n ∈ chain → P.compare_ n.key key = false) : chainValue P key chain = none := by
  simp only [chainValue, Option.map_eq_none', List.find?_eq_none]
  intro n hn
  rw [h n hn]
  simp

theorem chainValue_found (P : Policy KEY) (key : KEY) (pre : List (Node KEY VALUE))
    (node : Node KEY VALUE) (post : List (Node KEY VALUE))
    (hpre : ∀ n, n ∈ pre → P.compare_ n.key key = false)
    (hnode : P.compare_ node.key key = true) :
    chainValue P key (pre ++ node :: post) = some node.value := by
  have h1 : pre.find? (fun n => P.compare_ n.key key) = none := by
    rw [List.find?_eq_none]
    intro n hn
    rw [hpre n hn]
    simp
  simp [chainValue, List.find?_append, h1, List.find?_cons, hnode]

/-- What `get` returns reads as the value of the first matching node of
the home bucket, or as the default. -/
theorem BucketMap.read_get [Inhabited VALUE] (P : Policy KEY) (m : BucketMap KEY VALUE)
    (key : KEY) :
    m.read (m.get P key) = (chainValue P key (m.bucket (P.hash_ key % m.size))).getD default := by
  rcases chain_split P key (m.bucket (P.hash_ key % m.size)) with
    habs | ⟨pre, node, post, hb, hpre, hnode⟩
  · rw [chainValue_absent P key _ habs]
    simp only [BucketMap.get, getLoop_absent P key _ 0 habs]
    rfl
  · rw [BucketMap.get_found P m key pre node post hb hpre hnode, hb,
      chainValue_found P key pre node post hpre hnode]
    simp only [BucketMap.read, hb, getElem?_split, Option.getD_some]

/-- What `operator[]` returns reads as the value of the first matching
node of the home bucket, or as the value of the new node. -/
theorem BucketMap.read_subscript [Inhabited VALUE] (m : BucketMap Str VALUE) (k : Str)
    (fresh : VALUE) (hsize : 0 < m.size) :
    (m.subscript stringPolicy k fresh).1.read (m.subscript stringPolicy k fresh).2
      = (chainValue stringPolicy k (m.bucket (stringPolicy.hash_ k % m.size))).getD fresh := by
  have hlt : stringPolicy.hash_ k % m.size < m.size := Nat.mod_lt _ hsize
  rcases chain_split stringPolicy k (m.bucket (stringPolicy.hash_ k % m.size)) with
    habs | ⟨pre, node, post, hb, hpre, hnode⟩
  · rw [BucketMap.subscript_absent stringPolicy m k fresh habs,
      chainValue_absent stringPolicy k _ habs]
    simp only [BucketMap.read, BucketMap.bucket_set_same m _ _ hlt]
    simp
  · rw [BucketMap.subscript_found stringPolicy m k fresh pre node post hb hpre hnode, hb,
      chainValue_found stringPolicy k pre node post hpre hnode]
    simp only [BucketMap.read, hb, getElem?_split, Option.getD_some]

/-- What an assignment does to the table: the home chain of the key gets
a new value at the first matching node, or a new node at its tail. -/
theorem BucketMap.assign_eq (m : BucketMap Str VALUE) (k : Str) (fresh : VALUE)
    (f : VALUE → VALUE) (hsize : 0 < m.size) :
    ∃ chain, m.assign stringPolicy k fresh f
        = ⟨m.buckets_.set (stringPolicy.hash_ k % m.size) chain⟩ ∧
      ∀ q, chainValue stringPolicy q chain =
        if q = k then
          some (f ((chainValue stringPolicy k (m.bucket (stringPolicy.hash_ k % m.size))).getD
            fresh))
        else chainValue stringPolicy q (m.bucket (stringPolicy.hash_ k % m.size)) := by
  have hlt : stringPolicy.hash_ k % m.size < m.size := Nat.mod_lt _ hsize
  rcases chain_split stringPolicy k (m.bucket (stringPolicy.hash_ k % m.size)) with
    habs | ⟨pre, node, post, hb, hpre, hnode⟩
  · refine ⟨m.bucket (stringPolicy.hash_ k % m.size) ++ [⟨k, f fresh⟩], ?_, ?_⟩
    · simp only [BucketMap.assign, BucketMap.subscript_absent stringPolicy m k fresh habs,
        BucketMap.store, BucketMap.bucket_set_same m _ _ hlt, getElem?_split, set_split,
        List.set_set]
    · intro q
      rw [chainValue_absent stringPolicy k _ habs]
      by_cases hq : q = k
      · subst hq
        rw [if_pos rfl, chainValue_found stringPolicy q _ ⟨q, f fresh⟩ [] habs
          ((stringPolicy_compare q q).mpr rfl)]
        rfl
      · rw [if_neg hq]
        have : stringPolicy.compare_ k q = false :=
          (stringPolicy_compare_false k q).mpr (Ne.symm hq)
        simp [chainValue, List.find?_append, List.find?_cons, this]
  · have hkey : node.key = k := (stringPolicy_compare _ _).mp hnode
    refine ⟨pre ++ ⟨node.key, f node.value⟩ :: post, ?_, ?_⟩
    · simp only [BucketMap.assign,
        BucketMap.subscript_found stringPolicy m k fresh pre node post hb hpre hnode,
        BucketMap.store, hb, getElem?_split, set_split]
    · intro q
      rw [hb, chainValue_found stringPolicy k pre node post hpre hnode]
      by_cases hq : q = k
      · subst hq
        rw [if_pos rfl, chainValue_found stringPolicy q pre ⟨node.key, f node.value⟩ post hpre
          hnode]
        rfl
      · rw [if_neg hq]
        have h1 : stringPolicy.compare_ node.key q = false := by
          rw [hkey]
          exact (stringPolicy_compare_false k q).mpr (Ne.symm hq)
        simp [chainValue, List.find?_append, List.find?_cons, h1]

theorem assigned_append [DecidableEq KEY] (key : KEY)
    (l : List (Assignment KEY VALUE)) (a : Assignment KEY VALUE) :
    assigned key (l ++ [a])
      = if a.key = key then some (a.f ((assigned key l).getD a.fresh)) else assigned key l := by
  simp [assigned, List.foldl_append]

/-- Assignments to other keys leave the value of `key` alone. -/
theorem assigned_foldl_others [DecidableEq KEY] (key : KEY) :
    ∀ (post : List (Assignment KEY VALUE)) (v : Option VALUE),
      (∀ b, b ∈ post → b.key ≠ key) →
      post.foldl (fun v a => if a.key = key then some (a.f (v.getD a.fresh)) else v) v = v := by
  intro post
  induction post with
  | nil => intro v _; rfl
  | cons b post ih =>
    intro v h
    rw [List.foldl_cons, if_neg (h b (List.mem_cons_self _ _))]
    exact ih v (fun c hc => h c (List.mem_cons_of_mem _ hc))

/-- The value left for `key` is what its last assignment made of the value
the assignments before it left. -/
theorem assigned_last [DecidableEq KEY] (key : KEY) (pre : List (Assignment KEY VALUE))
    (a : Assignment KEY VALUE) (post : List (Assignment KEY VALUE)) (ha : a.key = key)
    (hpost : ∀ b, b ∈ post → b.key ≠ key) :
    assigned key (pre ++ a :: post) = some (a.f ((assigned key pre).getD a.fresh)) := by
  simp only [assigned, List.foldl_append, List.foldl_cons, if_pos ha]
  exact assigned_foldl_others key post _ hpost

/-- A key that was assigned has a value. -/
theorem assigned_isSome [DecidableEq KEY] (key : KEY) (l : List (Assignment KEY VALUE))
    (hk : key ∈ l.map Assignment.key) : ∃ v, assigned key l = some v := by
  induction l using List.reverseRecOn with
  | nil => simp at hk
  | append_singleton l a ih =>
    rw [assigned_append]
    by_cases ha : a.key = key
    · exact ⟨_, if_pos ha⟩
    · rw [if_neg ha]
      apply ih
      simp only [List.map_append, List.map_cons, List.map_nil, List.mem_append,
        List.mem_singleton] at hk
      rcases hk with hk | hk
      · exact hk
      · exact absurd hk.symm ha

/-- After a sequence of assignments the first node for a key in its home
bucket holds the value the assignments leave for it, and there is no such
node for a key that was not assigned. -/
theorem BucketMap.chainValue_assignAll (size : Nat) (hsize : 0 < size)
    (l : List (Assignment Str VALUE)) :
    ((BucketMap.empty size : BucketMap Str VALUE).assignAll stringPolicy l).size = size ∧
    ∀ k, chainValue stringPolicy k
        (((BucketMap.empty size : BucketMap Str VALUE).assignAll stringPolicy l).bucket
          (stringPolicy.hash_ k % size))
      = assigned k l := by
  induction l using List.reverseRecOn with
  | nil =>
    refine ⟨by simp [BucketMap.assignAll, BucketMap.size, BucketMap.empty], ?_⟩
    intro k
    have hbe : ∀ i, (BucketMap.empty size : BucketMap Str VALUE).bucket i = [] := by
      intro i
      simp only [BucketMap.bucket, BucketMap.empty, List.getD_eq_getElem?_getD]
      by_cases h : i < size
      · simp [List.getElem?_replicate, h]
      · simp [List.getElem?_replicate, h]
    simp only [BucketMap.assignAll, List.foldl_nil, hbe]
    rfl
  | append_singleton l a ih =>
    obtain ⟨hs, hread⟩ := ih
    have hstep : (BucketMap.empty size : BucketMap Str VALUE).assignAll stringPolicy (l ++ [a])
        = ((BucketMap.empty size : BucketMap Str VALUE).assignAll stringPolicy l).assign
            stringPolicy a.key a.fresh a.f := by
      simp [BucketMap.assignAll, List.foldl_append]
    generalize (BucketMap.empty size : BucketMap Str VALUE).assignAll stringPolicy l = m
      at hs hread hstep
    obtain ⟨chain, heq, hval⟩ := BucketMap.assign_eq m a.key a.fresh a.f (by omega)
    rw [hstep, heq]
    refine ⟨by rw [BucketMap.size_set_chain, hs], ?_⟩
    intro k
    have hlt : stringPolicy.hash_ a.key % size < m.size := by
      rw [hs]
      exact Nat.mod_lt _ hsize
    rw [assigned_append, ← hread k, hs]
    rw [hs] at hval
    by_cases hk : a.key = k
    · subst hk
      rw [if_pos rfl, BucketMap.bucket_set_same m _ _ hlt, hval, if_pos rfl]
    · rw [if_neg hk]
      by_cases hi : stringPolicy.hash_ a.key % size = stringPolicy.hash_ k % size
      · rw [← hi, BucketMap.bucket_set_same m _ _ hlt, hval, if_neg (Ne.symm hk)]
      · rw [BucketMap.bucket_set_other m _ _ _ hi]

/-- C12: after any sequence of assignments made through the references
`operator[]` returns, starting from the empty table of at least one
bucket, every key `k` that was assigned has a value `v` that `get(k)` and
`operator[](k)` both read, and `v` is what the last assignment to `k` made
of the node: `a.f` of the value the earlier assignments to `k` left, or of
the value of the new node when `a` is the first.  For an assignment of a
whole value (`a.f` constant) that is the value assigned; the fields of a
record that no assignment wrote keep what the new node started with. -/
theorem C12_read_back_assignments [Inhabited VALUE] (size : Nat) (hsize : 1 ≤ size)
    (l : List (Assignment Str VALUE)) (k : Str) (hk : k ∈ l.map Assignment.key) :
    ∃ v, assigned k l = some v ∧
      ((BucketMap.empty size).assignAll stringPolicy l).read
        (((BucketMap.empty size).assignAll stringPolicy l).get stringPolicy k) = v ∧
      (∀ fresh,
        (((BucketMap.empty size).assignAll stringPolicy l).subscript stringPolicy k fresh).1.read
          (((BucketMap.empty size).assignAll stringPolicy l).subscript stringPolicy k fresh).2
            = v) ∧
      (∀ pre a post, l = pre ++ a :: post → a.key = k → (∀ b, b ∈ post → b.key ≠ k) →
        v = a.f ((assigned k pre).getD a.fresh)) ∧
      (∀ pre a post w, l = pre ++ a :: post → a.key = k → (∀ b, b ∈ post → b.key ≠ k) →
        (∀ x, a.f x = w) → v = w) := by
  obtain ⟨hs, hval⟩ := BucketMap.chainValue_assignAll size (by omega) l
  obtain ⟨v, hv⟩ := assigned_isSome k l hk
  have hlast : ∀ pre a post, l = pre ++ a :: post → a.key = k → (∀ b, b ∈ post → b.key ≠ k) →
      v = a.f ((assigned k pre).getD a.fresh) := by
    intro pre a post hl ha hpost
    rw [hl, assigned_last k pre a post ha hpost] at hv
    exact (Option.some.inj hv).symm
  refine ⟨v, hv, ?_, ?_, hlast, ?_⟩
  · rw [BucketMap.read_get, hs, hval k, hv]
    rfl
  · intro fresh
    rw [BucketMap.read_subscript _ k fresh (by rw [hs]; omega), hs, hval k, hv]
    rfl
  · intro pre a post w hl ha hpost hw
    rw [hlast pre a post hl ha hpost]
    exact hw _

/-- The demo of `main`: whatever `age` and `telephone` the three new nodes
start with, the twelve assignments leave the three records that `main`
prints, read through `operator[]` as `main` does. -/
theorem main_contacts (junk : Nat → Nat) (fresh : Record) :
    (((BucketMap.empty 7).assignAll stringPolicy (contactsAssignments junk)).subscript
        stringPolicy (ascii "Daniel Augusto") fresh).1.read
      (((BucketMap.empty 7).assignAll stringPolicy (contactsAssignments junk)).subscript
        stringPolicy (ascii "Daniel Augusto") fresh).2
      = ⟨28, 55119683872122, ascii "Sao Paulo", ascii "Daniel Augusto"⟩ ∧
    (((BucketMap.empty 7).assignAll stringPolicy (contactsAssignments junk)).subscript
        stringPolicy (ascii "Ana Carolina") fresh).1.read
      (((BucketMap.empty 7).assignAll stringPolicy (contactsAssignments junk)).subscript
        stringPolicy (ascii "Ana Carolina") fresh).2
      = ⟨32, 55359955333132, ascii "Belo Horizonte", ascii "Ana Carolina"⟩ ∧
    (((BucketMap.empty 7).assignAll stringPolicy (contactsAssignments junk)).subscript
        stringPolicy (ascii "Artur Nogueira") fresh).1.read
      (((BucketMap.empty 7).assignAll stringPolicy (contactsAssignments junk)).subscript
        stringPolicy (ascii "Artur Nogueira") fresh).2
      = ⟨44, 5523944987462, ascii "Salvador", ascii "Artur Nogueira"⟩ := by
  obtain ⟨hs, hval⟩ := BucketMap.chainValue_assignAll 7 (by omega) (contactsAssignments junk)
  have h1 : assigned (ascii "Daniel Augusto") (contactsAssignments junk)
      = some ⟨28, 55119683872122, ascii "Sao Paulo", ascii "Daniel Augusto"⟩ := rfl
  have h2 : assigned (ascii "Ana Carolina") (contactsAssignments junk)
      = some ⟨32, 55359955333132, ascii "Belo Horizonte", ascii "Ana Carolina"⟩ := rfl
  have h3 : assigned (ascii "Artur Nogueira") (contactsAssignments junk)
      = some ⟨44, 5523944987462, ascii "Salvador", ascii "Artur Nogueira"⟩ := rfl
  refine ⟨?_, ?_, ?_⟩
  · rw [BucketMap.read_subscript _ _ fresh (by rw [hs]; omega), hs, hval, h1]
    rfl
  · rw [BucketMap.read_subscript _ _ fresh (by rw [hs]; omega), hs, hval, h2]
    rfl
  · rw [BucketMap.read_subscript _ _ fresh (by rw [hs]; omega), hs, hval, h3]
    rfl

end Hashmap2

end Sandbox

namespace Sandbox

namespace Hashmap2

set_option maxRecDepth 100000

/-- The twelve assignments of `main`, the new nodes starting with ages and
telephone numbers from 100 on, leave the record of "Ana Carolina" that
`main` prints; after the first of them alone the age still is the 104 the
new node started with, and not 0. -/
theorem C12_read_back_assignments_witness :
    (1 ≤ 7 ∧ ascii "Ana Carolina" ∈ (contactsAssignments (fun i => i + 100)).map Assignment.key ∧
      assigned (ascii "Ana Carolina") (contactsAssignments (fun i => i + 100))
        = some ⟨32, 55359955333132, ascii "Belo Horizonte", ascii "Ana Carolina"⟩ ∧
      assigned (ascii "Ana Carolina") ((contactsAssignments (fun i => i + 100)).take 5)
        = some ⟨104, 105, [], ascii "Ana Carolina"⟩) ∧
    ∃ v, assigned (ascii "Ana Carolina") (contactsAssignments (fun i => i + 100)) = some v ∧
      ((BucketMap.empty 7).assignAll stringPolicy (contactsAssignments (fun i => i + 100))).read
        (((BucketMap.empty 7).assignAll stringPolicy (contactsAssignments (fun i => i + 100))).get
          stringPolicy (ascii "Ana Carolina")) = v ∧
      (∀ fresh,
        (((BucketMap.empty 7).assignAll stringPolicy
            (contactsAssignments (fun i => i + 100))).subscript stringPolicy
              (ascii "Ana Carolina") fresh).1.read
          (((BucketMap.empty 7).assignAll stringPolicy
            (contactsAssignments (fun i => i + 100))).subscript stringPolicy
              (ascii "Ana Carolina") fresh).2 = v) ∧
      (∀ pre a post, contactsAssignments (fun i => i + 100) = pre ++ a :: post →
        a.key = ascii "Ana Carolina" → (∀ b, b ∈ post → b.key ≠ ascii "Ana Carolina") →
        v = a.f ((assigned (ascii "Ana Carolina") pre).getD a.fresh)) ∧
      (∀ pre a post w, contactsAssignments (fun i => i + 100) = pre ++ a :: post →
        a.key = ascii "Ana Carolina" → (∀ b, b ∈ post → b.key ≠ ascii "Ana Carolina") →
        (∀ x, a.f x = w) → v = w) :=
  ⟨⟨by decide, by decide, by decide, by decide⟩,
    C12_read_back_assignments 7 (by decide) (contactsAssignments (fun i => i + 100))
      (ascii "Ana Carolina") (by decide)⟩

end Hashmap2

/-! ## The string hash -/

theorem mask_shift (d : Nat) (hd : d < 2 ^ 64) :
    (d &&& 0xff00000000000000) >>> 56 = d >>> 56 := by
  apply Nat.eq_of_testBit_eq
  intro i
  rw [Nat.testBit_shiftRight, Nat.testBit_shiftRight, Nat.testBit_and]
  by_cases hi : i < 8
  · have hm : (0xff00000000000000 : Nat) = (2 ^ 8 - 1) <<< 56 := by decide
    rw [hm, Nat.testBit_shiftLeft, Nat.testBit_two_pow_sub_one]
    simp [hi]
  · have hlt : d < 2 ^ (56 + i) :=
      Nat.lt_of_lt_of_le hd (Nat.pow_le_pow_right (by decide) (by omega))
    rw [Nat.testBit_lt_two_pow hlt]
    rfl

/-- On a 64-bit word the shift, mask and or of the code are the rotation
by 8. -/
theorem hashStep_eq_rotate (d : Nat) (hd : d < 2 ^ 64) (c : Fin 256) :
    hashStep d c = rotateLeft64 d 8 ^^^ c.val := by
  simp only [hashStep, rotateLeft64, BitVec.rotateLeft, BitVec.rotateLeftAux, BitVec.toNat_or,
    BitVec.toNat_shiftLeft, BitVec.toNat_ushiftRight, BitVec.toNat_ofNat, Nat.mod_eq_of_lt hd,
    mask_shift d hd]

theorem hashStep_lt (d : Nat) (c : Fin 256) : hashStep d c < 2 ^ 64 := by
  unfold hashStep
  apply Nat.xor_lt_two_pow
  · apply Nat.or_lt_two_pow
    · exact Nat.mod_lt _ (by decide)
    · rw [Nat.shiftRight_eq_div_pow]
      have h1 : d &&& 0xff00000000000000 ≤ 0xff00000000000000 := Nat.and_le_right
      have h2 : (d &&& 0xff00000000000000) / 2 ^ 56 ≤ 0xff00000000000000 / 2 ^ 56 :=
        Nat.div_le_div_right h1
      have h3 : (0xff00000000000000 : Nat) / 2 ^ 56 < 2 ^ 64 := by decide
      omega
  · have := c.isLt
    have h256 : (256 : Nat) ≤ 2 ^ 64 := by decide
    omega

theorem foldl_hashStep (s : Str) :
    ∀ d, d < 2 ^ 64 →
      s.foldl hashStep d = s.foldl (fun d byte => rotateLeft64 d 8 ^^^ byte.val) d ∧
      s.foldl hashStep d < 2 ^ 64 := by
  induction s with
  | nil => intro d hd; exact ⟨rfl, hd⟩
  | cons c s ih =>
    intro d hd
    simp only [List.foldl_cons]
    rw [← hashStep_eq_rotate d hd c]
    exact ih (hashStep d c) (hashStep_lt d c)

/-- C13: for every byte sequence `s` the digest the code computes is the
left fold, from 0, of rotating the digest left by 8 bits as a 64-bit word
and xoring the byte in; it stays below 2^64, and the empty string hashes
to 0. -/
theorem C13_hash_is_rotate_xor (s : Str) :
    HashFunction s = specHash s ∧ HashFunction s < 2 ^ 64 ∧ HashFunction [] = 0 := by
  have h := foldl_hashStep s 0 (by decide)
  exact ⟨h.1, h.2, rfl⟩

end Sandbox

/-! ## `sets/sets.cc` -/

namespace Sandbox

namespace Sets

/-- C15 at the failing input: for the sets of `main`, A built by pushing
1, 2, 3, 5, 4 and B by pushing 2, 4, 6, `A.Union(B)` sorts A and returns
the set 2, 4: the value 1 occurs in A and 6 occurs in B, and neither
occurs in the result. -/
theorem C15_Union_keeps_common_values_only :
    set_a = ⟨false, [1, 2, 3, 5, 4]⟩ ∧ set_b = ⟨true, [2, 4, 6]⟩ ∧
    set_a.Union set_b = some (⟨true, [1, 2, 3, 4, 5]⟩, ⟨true, [2, 4]⟩) ∧
    1 ∈ set_a.vector_ ∧ 6 ∈ set_b.vector_ ∧
    1 ∉ ([2, 4] : List Nat) ∧ 6 ∉ ([2, 4] : List Nat) := by
  decide

/-- C16 at the failing input: for the sets of `main`, with A as
`A.Union(B)` left it, `A.intersection(B)` returns the set 1, 3, 5, 6: the
values 2 and 4 occur in both A and B and not in the result, and 1 occurs in
the result and not in B. -/
theorem C16_intersection_drops_common_values :
    (Set.mk true [1, 2, 3, 4, 5]).intersection set_b
      = some (⟨true, [1, 2, 3, 4, 5]⟩, ⟨true, [1, 3, 5, 6]⟩) ∧
    set_a.intersection set_b = some (⟨true, [1, 2, 3, 4, 5]⟩, ⟨true, [1, 3, 5, 6]⟩) ∧
    2 ∈ set_a.vector_ ∧ 2 ∈ set_b.vector_ ∧ 2 ∉ ([1, 3, 5, 6] : List Nat) ∧
    1 ∈ ([1, 3, 5, 6] : List Nat) ∧ 1 ∉ set_b.vector_ := by
  decide

end Sets

end Sandbox

/-! ## `knapsack/knapsack.cc` -/

namespace Sandbox

namespace Knapsack

/-! ### Folds that only push -/

theorem foldl_invariant {σ α : Type} (f : σ → α → σ) (Inv : σ → Prop) (l : List α)
    (hstep : ∀ s x, x ∈ l → Inv s → Inv (f s x)) : ∀ s, Inv s → Inv (l.foldl f s) := by
  induction l with
  | nil => intro s hs; exact hs
  | cons x l ih =>
    intro s hs
    exact ih (fun s y hy h => hstep s y (List.mem_cons_of_mem _ hy) h) _
      (hstep s x (List.mem_cons_self _ _) hs)

theorem State.le_refl (s : State) : s.le s :=
  fun _ _ _ h => h

theorem State.le_trans {s t u : State} (h1 : s.le t) (h2 : t.le u) : s.le u :=
  fun c r e h => h2 c r e (h1 c r e h)

theorem foldl_le {α : Type} (f : State → α → State) (l : List α)
    (hstep : ∀ (s : State) (x : α), x ∈ l → s.le (f s x)) :
    ∀ s : State, s.le (l.foldl f s) := by
  induction l with
  | nil => intro s; exact State.le_refl s
  | cons x l ih =>
    intro s
    exact State.le_trans (hstep s x (List.mem_cons_self _ _))
      (ih (fun s y hy => hstep s y (List.mem_cons_of_mem _ hy)) _)

/-- A fold of pushing steps reaches what one of its steps reaches: if the
step for `x` puts a state where `Pre` holds into one where `Q` holds, and
both are kept by further pushes, the fold ends where `Q` holds. -/
theorem foldl_reach {α : Type} (f : State → α → State) (l : List α) (x : α) (hx : x ∈ l)
    (hmono : ∀ (s : State) (y : α), y ∈ l → s.le (f s y)) (Pre Q : State → Prop)
    (hPre : ∀ s t : State, s.le t → Pre s → Pre t) (hQ : ∀ s t : State, s.le t → Q s → Q t)
    (hstep : ∀ s, Pre s → Q (f s x)) (s : State) (hs : Pre s) : Q (l.foldl f s) := by
  obtain ⟨l1, l2, rfl⟩ := List.append_of_mem hx
  rw [List.foldl_append, List.foldl_cons]
  have h1 : s.le (l1.foldl f s) :=
    foldl_le f l1 (fun s y hy => hmono s y (List.mem_append_left _ hy)) s
  have h2 := hstep _ (hPre _ _ h1 hs)
  exact hQ _ _ (foldl_le f l2
    (fun s y hy => hmono s y (List.mem_append_right _ (List.mem_cons_of_mem _ hy))) _) h2

/-! ### The statement that records a sub-collection -/

theorem mem_record (s : State) (c r j w c1 r1 : Nat) (entry : Nat × Nat) :
    entry ∈ (s.record c r j w).map c1 r1 ↔
      entry ∈ s.map c1 r1 ∨ (c1 = c ∧ r1 = r ∧ entry = (j, w)) := by
  have hmap : (s.record c r j w).map = push_back s.map c r (j, w) := by
    unfold State.record
    split <;> rfl
  rw [hmap]
  unfold push_back
  by_cases h : c1 = c ∧ r1 = r
  · rw [if_pos h]
    simp [h.1, h.2]
  · rw [if_neg h]
    constructor
    · exact Or.inl
    · rintro (h1 | ⟨h1, h2, _⟩)
      · exact h1
      · exact absurd ⟨h1, h2⟩ h

theorem record_le (s : State) (c r j w : Nat) : s.le (s.record c r j w) :=
  fun c1 r1 e h => (mem_record s c r j w c1 r1 e).mpr (Or.inl h)

theorem record_mem (s : State) (c r j w : Nat) : (j, w) ∈ (s.record c r j w).map c r :=
  (mem_record s c r j w c r (j, w)).mpr (Or.inr ⟨rfl, rfl, rfl⟩)

theorem record_sound (input : Items) (max_cost : Nat) (s : State) (c r j w : Nat)
    (hs : Sound input max_cost s) (hv : Valid input max_cost c r (j, w)) :
    Sound input max_cost (s.record c r j w) := by
  intro c1 r1 e he
  rcases (mem_record s c r j w c1 r1 e).mp he with h | ⟨h1, h2, h3⟩
  · exact hs c1 r1 e h
  · rw [h1, h2, h3]
    exact hv

theorem record_greatest (s : State) (c r j w : Nat) (hr : 0 < r) (hs : GreatestOK s) :
    GreatestOK (s.record c r j w) := by
  obtain ⟨hbound, hzero, hentry⟩ := hs
  by_cases hlt : s.greatest.value < w
  · have hg : (s.record c r j w).greatest = ⟨w, r, c⟩ := by
      unfold State.record
      rw [if_pos hlt]
    refine ⟨?_, ?_, ?_⟩
    · intro c1 r1 e he
      rw [hg]
      rcases (mem_record s c r j w c1 r1 e).mp he with h | ⟨_, _, h3⟩
      · exact Nat.le_of_lt (Nat.lt_of_le_of_lt (hbound c1 r1 e h) hlt)
      · rw [h3]
    · intro h
      rw [hg] at h
      simp only at h
      omega
    · intro _
      rw [hg]
      exact ⟨j, record_mem s c r j w⟩
  · have hg : (s.record c r j w).greatest = s.greatest := by
      unfold State.record
      rw [if_neg hlt]
    refine ⟨?_, ?_, ?_⟩
    · intro c1 r1 e he
      rw [hg]
      rcases (mem_record s c r j w c1 r1 e).mp he with h | ⟨_, _, h3⟩
      · exact hbound c1 r1 e h
      · rw [h3]
        simp only
        omega
    · rw [hg]
      exact hzero
    · intro h
      rw [hg] at h ⊢
      obtain ⟨j1, hj1⟩ := hentry h
      exact ⟨j1, record_le s c r j w _ _ _ hj1⟩

end Knapsack

end Sandbox

namespace Sandbox

namespace Knapsack

/-! ### Prefixes of the input and their sub-collections -/

theorem take_succ_item (input : Items) (i : Nat) (hi : i < input.length) :
    input.take (i + 1) = input.take i ++ [item input i] := by
  rw [List.take_succ, List.getElem?_eq_getElem hi]
  simp [item, List.getD_eq_getElem?_getD, List.getElem?_eq_getElem hi]

theorem totalCost_append (a b : Items) : totalCost (a ++ b) = totalCost a + totalCost b := by
  simp [totalCost]

theorem totalValue_append (a b : Items) : totalValue (a ++ b) = totalValue a + totalValue b := by
  simp [totalValue]

theorem totalCost_single (x : Item) : totalCost [x] = x.cost := by
  simp [totalCost]

theorem totalValue_single (x : Item) : totalValue [x] = x.value := by
  simp [totalValue]

/-- A non-empty sub-collection of the first `j` items ends with some
`input[i]`, `i < j`, behind a sub-collection of the first `i` items. -/
theorem sublist_take_split (input : Items) :
    ∀ (j : Nat) (S : Items), j ≤ input.length → S.Sublist (input.take j) → S ≠ [] →
      ∃ (i : Nat) (S1 : Items), i < j ∧ S = S1 ++ [item input i] ∧
        S1.Sublist (input.take i) := by
  intro j
  induction j with
  | zero =>
    intro S _ hS hne
    rw [List.take_zero] at hS
    exact absurd (List.eq_nil_of_sublist_nil hS) hne
  | succ j ih =>
    intro S hj hS hne
    rw [take_succ_item input j (by omega), List.sublist_append_iff] at hS
    obtain ⟨a, b, hab, ha, hb⟩ := hS
    rcases List.sublist_cons_iff.mp hb with hb1 | ⟨b1, hb1, hb2⟩
    · have hbn : b = [] := List.eq_nil_of_sublist_nil hb1
      rw [hbn, List.append_nil] at hab
      rw [hab] at hne ⊢
      obtain ⟨i, S1, hi, h1, h2⟩ := ih a (by omega) ha hne
      exact ⟨i, S1, by omega, h1, h2⟩
    · have hbn : b1 = [] := List.eq_nil_of_sublist_nil hb2
      rw [hbn] at hb1
      rw [hb1] at hab
      exact ⟨j, a, by omega, hab, ha⟩

/-- The sub-collection behind an entry, with one more item behind it. -/
theorem valid_extend (input : Items) (max_cost c r j : Nat) (entry : Nat × Nat)
    (hv : Valid input max_cost c r entry) (hlast : entry.1 < j) (hj : j < input.length)
    (hcost : c + (item input j).cost ≤ max_cost) :
    Valid input max_cost (c + (item input j).cost) (r + 1) (j, entry.2 + (item input j).value) := by
  obtain ⟨S, hsub, hlt, hlen, hc, hval, _⟩ := hv
  refine ⟨S ++ [item input entry.1], ?_, hj, ?_, ?_, ?_, hcost⟩
  · have h1 : (S ++ [item input entry.1]).Sublist (input.take (entry.1 + 1)) := by
      rw [take_succ_item input entry.1 hlt]
      exact List.Sublist.append hsub (List.Sublist.refl _)
    exact List.Sublist.trans h1 (List.take_sublist_take_left input (by omega))
  · simp only [List.length_append, List.length_singleton]
    omega
  · rw [totalCost_append, totalCost_single, hc]
  · rw [totalValue_append, totalValue_single, hval]

/-! ### The enumeration keeps its entries sound and `greatest` right -/

theorem extend_le (input : Items) (max_cost round c : Nat) (entry : Nat × Nat) (s : State)
    (j : Nat) : s.le (extend input max_cost round c entry s j) := by
  simp only [extend]
  split
  · exact record_le s _ _ _ _
  · exact State.le_refl s

theorem extendEntry_le (input : Items) (max_cost round c : Nat) (s : State) (entry : Nat × Nat) :
    s.le (extendEntry input max_cost round c s entry) :=
  foldl_le _ _ (fun s j _ => extend_le input max_cost round c entry s j) s

theorem extendCost_le (input : Items) (max_cost round : Nat) (s : State) (c : Nat) :
    s.le (extendCost input max_cost round s c) :=
  foldl_le _ _ (fun s e _ => extendEntry_le input max_cost round c s e) s

theorem pass_le (input : Items) (max_cost : Nat) (s : State) (round : Nat) :
    s.le (pass input max_cost s round) :=
  foldl_le _ _ (fun s c _ => extendCost_le input max_cost round s c) s

theorem firstStep_le (input : Items) (max_cost : Nat) (s : State) (i : Nat) :
    s.le (firstStep input max_cost s i) := by
  simp only [firstStep]
  split
  · exact record_le s _ _ _ _
  · exact State.le_refl s

theorem extend_inv (input : Items) (max_cost round c : Nat) (entry : Nat × Nat) (s : State)
    (j : Nat) (hv : Valid input max_cost c round entry) (hlast : entry.1 < j)
    (hj : j < input.length) (hs : Sound input max_cost s ∧ GreatestOK s) :
    Sound input max_cost (extend input max_cost round c entry s j) ∧
      GreatestOK (extend input max_cost round c entry s j) := by
  simp only [extend]
  split
  · rename_i hcost
    exact ⟨record_sound input max_cost s _ _ _ _ hs.1
        (valid_extend input max_cost c round j entry hv hlast hj hcost),
      record_greatest s _ _ _ _ (by omega) hs.2⟩
  · exact hs

theorem extendEntry_inv (input : Items) (max_cost round c : Nat) (s : State) (entry : Nat × Nat)
    (hv : Valid input max_cost c round entry) (hs : Sound input max_cost s ∧ GreatestOK s) :
    Sound input max_cost (extendEntry input max_cost round c s entry) ∧
      GreatestOK (extendEntry input max_cost round c s entry) := by
  apply foldl_invariant _ (fun s => Sound input max_cost s ∧ GreatestOK s) _ _ s hs
  intro t j hj ht
  rw [List.mem_range'_1] at hj
  exact extend_inv input max_cost round c entry t j hv (by omega) (by omega) ht

theorem extendCost_inv (input : Items) (max_cost round : Nat) (s : State) (c : Nat)
    (hs : Sound input max_cost s ∧ GreatestOK s) :
    Sound input max_cost (extendCost input max_cost round s c) ∧
      GreatestOK (extendCost input max_cost round s c) := by
  apply foldl_invariant _ (fun s => Sound input max_cost s ∧ GreatestOK s) _ _ s hs
  intro t e he ht
  exact extendEntry_inv input max_cost round c t e (hs.1 c round e he) ht

theorem pass_inv (input : Items) (max_cost : Nat) (s : State) (round : Nat)
    (hs : Sound input max_cost s ∧ GreatestOK s) :
    Sound input max_cost (pass input max_cost s round) ∧
      GreatestOK (pass input max_cost s round) :=
  foldl_invariant _ (fun s => Sound input max_cost s ∧ GreatestOK s) _
    (fun t c _ ht => extendCost_inv input max_cost round t c ht) s hs

theorem rounds_inv (input : Items) (max_cost : Nat) (s : State)
    (hs : Sound input max_cost s ∧ GreatestOK s) :
    Sound input max_cost (rounds input max_cost s) ∧ GreatestOK (rounds input max_cost s) :=
  foldl_invariant _ (fun s => Sound input max_cost s ∧ GreatestOK s) _
    (fun t r _ ht => pass_inv input max_cost t r ht) s hs

theorem firstIteration_inv (input : Items) (max_cost : Nat) :
    Sound input max_cost (firstIteration input max_cost) ∧
      GreatestOK (firstIteration input max_cost) := by
  apply foldl_invariant _ (fun s => Sound input max_cost s ∧ GreatestOK s)
  · intro s i hi hs
    rw [List.mem_range] at hi
    simp only [firstStep]
    split
    · rename_i hcost
      refine ⟨record_sound input max_cost s _ _ _ _ hs.1 ?_,
        record_greatest s _ _ _ _ (by omega) hs.2⟩
      exact ⟨[], List.nil_sublist _, hi, rfl, by simp [totalCost], by simp [totalValue], hcost⟩
    · exact hs
  · refine ⟨fun c r e he => by simp at he, fun c r e he => by simp at he, fun _ => rfl, ?_⟩
    intro h
    simp at h

end Knapsack

end Sandbox

namespace Sandbox

namespace Knapsack

/-! ### The enumeration reaches every sub-collection within `max_cost` -/

theorem complete_le (input : Items) (max_cost R : Nat) (s t : State) (hst : s.le t)
    (hs : Complete input max_cost R s) : Complete input max_cost R t :=
  fun j S hj hsub hlen hcost => hst _ _ _ (hs j S hj hsub hlen hcost)

theorem firstIteration_complete (input : Items) (max_cost : Nat) :
    Complete input max_cost 1 (firstIteration input max_cost) := by
  intro j S hj _ hlen hcost
  have hS : S = [] := List.eq_nil_of_length_eq_zero (by omega)
  subst hS
  simp only [totalCost, totalValue, List.map_nil, List.sum_nil, Nat.zero_add,
    List.length_nil] at hcost ⊢
  exact foldl_reach (firstStep input max_cost) (List.range input.length) j
    (List.mem_range.mpr hj) (fun s y _ => firstStep_le input max_cost s y)
    (fun _ => True)
    (fun s => (j, (item input j).value) ∈ s.map (item input j).cost 1)
    (fun _ _ _ _ => trivial) (fun s t hst h => hst _ _ _ h)
    (fun s _ => by
      simp only [firstStep]
      rw [if_pos hcost]
      exact record_mem s _ _ _ _)
    _ trivial

/-- One round puts the sub-collections of `round + 1` items into the
map, given those of `round` items. -/
theorem pass_complete (input : Items) (max_cost round : Nat) (s : State) (hround : 1 ≤ round)
    (hs : Complete input max_cost round s) :
    Complete input max_cost (round + 1) (pass input max_cost s round) := by
  intro j S hj hsub hlen hcost
  by_cases hsmall : S.length + 1 ≤ round
  · exact pass_le input max_cost s round _ _ _ (hs j S hj hsub hsmall hcost)
  · have hne : S ≠ [] := by
      intro h
      rw [h] at hsmall
      simp only [List.length_nil] at hsmall
      omega
    obtain ⟨i, S1, hi, hS, hS1⟩ := sublist_take_split input j S (by omega) hsub hne
    have hlenS : S.length = S1.length + 1 := by rw [hS]; simp
    have hcS : totalCost S = totalCost S1 + (item input i).cost := by
      rw [hS, totalCost_append, totalCost_single]
    have hvS : totalValue S = totalValue S1 + (item input i).value := by
      rw [hS, totalValue_append, totalValue_single]
    have hround1 : S1.length + 1 = round := by omega
    have h0 := hs i S1 (by omega) hS1 (by omega) (by omega)
    rw [hround1] at h0
    rw [hcS, hvS, hlenS, hround1]
    refine foldl_reach (extendCost input max_cost round) (List.range (max_cost + 1))
      (totalCost S1 + (item input i).cost) (List.mem_range.mpr (by omega))
      (fun s y _ => extendCost_le input max_cost round s y)
      (fun s => (i, totalValue S1 + (item input i).value)
        ∈ s.map (totalCost S1 + (item input i).cost) round)
      (fun s => (j, totalValue S1 + (item input i).value + (item input j).value)
        ∈ s.map (totalCost S1 + (item input i).cost + (item input j).cost) (round + 1))
      (fun s t hst h => hst _ _ _ h) (fun s t hst h => hst _ _ _ h) ?_ s h0
    intro t ht
    refine foldl_reach
      (extendEntry input max_cost round (totalCost S1 + (item input i).cost))
      (t.map (totalCost S1 + (item input i).cost) round)
      (i, totalValue S1 + (item input i).value) ht
      (fun s y _ => extendEntry_le input max_cost round _ s y)
      (fun _ => True)
      (fun s => (j, totalValue S1 + (item input i).value + (item input j).value)
        ∈ s.map (totalCost S1 + (item input i).cost + (item input j).cost) (round + 1))
      (fun _ _ _ _ => trivial) (fun s t hst h => hst _ _ _ h) ?_ t trivial
    intro u _
    refine foldl_reach
      (extend input max_cost round (totalCost S1 + (item input i).cost)
        (i, totalValue S1 + (item input i).value))
      (List.range' (i + 1) (input.length - (i + 1))) j
      (List.mem_range'_1.mpr (by omega))
      (fun s y _ => extend_le input max_cost round _ _ s y)
      (fun _ => True)
      (fun s => (j, totalValue S1 + (item input i).value + (item input j).value)
        ∈ s.map (totalCost S1 + (item input i).cost + (item input j).cost) (round + 1))
      (fun _ _ _ _ => trivial) (fun s t hst h => hst _ _ _ h) ?_ u trivial
    intro v _
    simp only [extend]
    rw [if_pos (by omega)]
    exact record_mem v _ _ _ _

theorem rounds_complete_upto (input : Items) (max_cost : Nat) (s : State)
    (hs : Complete input max_cost 1 s) :
    ∀ k, Complete input max_cost (k + 1) ((List.range' 1 k).foldl (pass input max_cost) s) := by
  intro k
  induction k with
  | zero => exact hs
  | succ k ih =>
    rw [List.range'_concat, List.foldl_append]
    simp only [Nat.one_mul, List.foldl_cons, List.foldl_nil]
    have := pass_complete input max_cost (1 + k) _ (by omega) (by rw [Nat.add_comm]; exact ih)
    rw [Nat.add_comm 1 k] at this
    rw [Nat.add_comm 1 k]
    exact this

/-- After the rounds every sub-collection within `max_cost` has its entry
in the map. -/
theorem rounds_complete (input : Items) (max_cost : Nat) (s : State)
    (hs : Complete input max_cost 1 s) :
    Complete input max_cost input.length (rounds input max_cost s) := by
  intro j S hj hsub hlen hcost
  have h := rounds_complete_upto input max_cost s hs (input.length - 1)
  exact h j S hj hsub (by omega) hcost

end Knapsack

end Sandbox

namespace Sandbox

namespace Knapsack

/-! ### The reconstruction -/

theorem eligible_iff (indexes : List Nat) (entry : Nat × Nat) (n : Nat) (he : entry.1 < n) :
    eligible indexes entry = true ↔ entry.1 < indexes.getLast?.getD n := by
  unfold eligible
  cases indexes.getLast? with
  | none => simpa using he
  | some back => simp

/-- The inner loop of the reconstruction ends with the eligible entry of
greatest total value, when there is an eligible entry. -/
theorem pick_fold (indexes : List Nat) (l : List (Nat × Nat)) :
    ((l.foldl
        (fun acc entry =>
          if eligible indexes entry = true then
            if acc.2 ≤ entry.2 then (some entry.1, entry.2) else acc
          else acc)
        ((none : Option Nat), 0)).1 = none →
      (l.foldl
        (fun acc entry =>
          if eligible indexes entry = true then
            if acc.2 ≤ entry.2 then (some entry.1, entry.2) else acc
          else acc)
        ((none : Option Nat), 0)).2 = 0 ∧ ∀ e, e ∈ l → eligible indexes e = false) ∧
    (∀ j,
      (l.foldl
        (fun acc entry =>
          if eligible indexes entry = true then
            if acc.2 ≤ entry.2 then (some entry.1, entry.2) else acc
          else acc)
        ((none : Option Nat), 0)).1 = some j →
      (j, (l.foldl
        (fun acc entry =>
          if eligible indexes entry = true then
            if acc.2 ≤ entry.2 then (some entry.1, entry.2) else acc
          else acc)
        ((none : Option Nat), 0)).2) ∈ l ∧
      eligible indexes (j, (l.foldl
        (fun acc entry =>
          if eligible indexes entry = true then
            if acc.2 ≤ entry.2 then (some entry.1, entry.2) else acc
          else acc)
        ((none : Option Nat), 0)).2) = true ∧
      ∀ e, e ∈ l → eligible indexes e = true →
        e.2 ≤ (l.foldl
          (fun acc entry =>
            if eligible indexes entry = true then
              if acc.2 ≤ entry.2 then (some entry.1, entry.2) else acc
            else acc)
          ((none : Option Nat), 0)).2) := by
  induction l using List.reverseRecOn with
  | nil =>
    refine ⟨fun _ => ⟨rfl, fun e he => by simp at he⟩, fun j hj => ?_⟩
    simp at hj
  | append_singleton l x ih =>
    rw [List.foldl_append]
    simp only [List.foldl_cons, List.foldl_nil]
    generalize l.foldl
        (fun acc entry =>
          if eligible indexes entry = true then
            if acc.2 ≤ entry.2 then (some entry.1, entry.2) else acc
          else acc)
        ((none : Option Nat), 0) = acc at ih ⊢
    obtain ⟨hnone, hsome⟩ := ih
    by_cases hx : eligible indexes x = true
    · rw [if_pos hx]
      by_cases hle : acc.2 ≤ x.2
      · rw [if_pos hle]
        refine ⟨fun h => by simp at h, fun j hj => ?_⟩
        simp only [Option.some.injEq] at hj
        subst hj
        refine ⟨by simp, hx, ?_⟩
        intro e he hel
        rcases List.mem_append.mp he with h | h
        · cases hacc : acc.1 with
          | none =>
            have := (hnone hacc).2 e h
            rw [this] at hel
            simp at hel
          | some j1 =>
            exact Nat.le_trans ((hsome j1 hacc).2.2 e h hel) hle
        · simp only [List.mem_singleton] at h
          rw [h]
      · rw [if_neg hle]
        refine ⟨fun h => ?_, fun j hj => ?_⟩
        · have := (hnone h).1
          omega
        · obtain ⟨h1, h2, h3⟩ := hsome j hj
          refine ⟨List.mem_append_left _ h1, h2, ?_⟩
          intro e he hel
          rcases List.mem_append.mp he with h | h
          · exact h3 e h hel
          · simp only [List.mem_singleton] at h
            rw [h]
            omega
    · rw [if_neg hx]
      have hxf : eligible indexes x = false := by simpa using hx
      refine ⟨fun h => ⟨(hnone h).1, ?_⟩, fun j hj => ?_⟩
      · intro e he
        rcases List.mem_append.mp he with h1 | h1
        · exact (hnone h).2 e h1
        · simp only [List.mem_singleton] at h1
          rw [h1]
          exact hxf
      · obtain ⟨h1, h2, h3⟩ := hsome j hj
        refine ⟨List.mem_append_left _ h1, h2, ?_⟩
        intro e he hel
        rcases List.mem_append.mp he with h | h
        · exact h3 e h hel
        · simp only [List.mem_singleton] at h
          rw [h, hxf] at hel
          simp at hel

theorem pick_spec (indexes : List Nat) (items : List (Nat × Nat)) (e0 : Nat × Nat)
    (he0 : e0 ∈ items) (hel : eligible indexes e0 = true) :
    ∃ j w, pick indexes items = (some j, w) ∧ (j, w) ∈ items ∧
      eligible indexes (j, w) = true ∧ e0.2 ≤ w := by
  have h := pick_fold indexes items.reverse
  unfold pick
  generalize items.reverse.foldl
      (fun acc entry =>
        if eligible indexes entry = true then
          if acc.2 ≤ entry.2 then (some entry.1, entry.2) else acc
        else acc)
      ((none : Option Nat), 0) = acc at h ⊢
  obtain ⟨hnone, hsome⟩ := h
  cases hacc : acc.1 with
  | none =>
    have := (hnone hacc).2 e0 (List.mem_reverse.mpr he0)
    rw [this] at hel
    simp at hel
  | some j =>
    obtain ⟨h1, h2, h3⟩ := hsome j hacc
    refine ⟨j, acc.2, ?_, List.mem_reverse.mp h1, h2, h3 e0 (List.mem_reverse.mpr he0) hel⟩
    rw [← hacc]

end Knapsack

end Sandbox

namespace Sandbox

namespace Knapsack

theorem drop_item (input : Items) (j : Nat) (hj : j < input.length) :
    input.drop j = item input j :: input.drop (j + 1) := by
  rw [List.drop_eq_getElem_cons hj]
  simp [item, List.getD_eq_getElem?_getD, List.getElem?_eq_getElem hj]

/-- The reconstruction loop never fails an assertion and ends with
indexes whose items are worth at least `V`, cost no more than `max_cost`
and stand, read backwards, in input order; entered with `indexes` chosen
so far and a sub-collection `S` of `round` items before the last chosen
index that makes up the rest of the cost and of `V`. -/
theorem reconstruct_spec (input : Items) (max_cost V : Nat) (s : State)
    (hsound : Sound input max_cost s) (hcomplete : Complete input max_cost input.length s) :
    ∀ (round c : Nat) (indexes : List Nat) (S : Items),
      indexes.getLast?.getD input.length ≤ input.length →
      S.length = round → S.Sublist (input.take (indexes.getLast?.getD input.length)) →
      totalCost S = c →
      V ≤ totalValue S + totalValue (indexes.map (item input)) →
      c + totalCost (indexes.map (item input)) ≤ max_cost →
      (indexes.map (item input)).reverse.Sublist
        (input.drop (indexes.getLast?.getD input.length)) →
      ∃ result, reconstruct input s.map round c indexes = Except.ok result ∧
        V ≤ totalValue (result.map (item input)) ∧
        totalCost (result.map (item input)) ≤ max_cost ∧
        (result.map (item input)).reverse.Sublist input := by
  intro round
  induction round with
  | zero =>
    intro c indexes S _ hlen _ hcost hV hC hsub
    have hS : S = [] := List.eq_nil_of_length_eq_zero hlen
    subst hS
    refine ⟨indexes, rfl, ?_, ?_, List.Sublist.trans hsub (List.drop_sublist _ _)⟩
    · simpa [totalValue] using hV
    · omega
  | succ round ih =>
    intro c indexes S hbound hlen hS hcost hV hC hsub
    have hne : S ≠ [] := by
      intro h
      rw [h] at hlen
      simp at hlen
    obtain ⟨i, S1, hi, hS1, hS1sub⟩ :=
      sublist_take_split input _ S hbound hS hne
    have hlenS : S.length = S1.length + 1 := by rw [hS1]; simp
    have hcS : totalCost S = totalCost S1 + (item input i).cost := by
      rw [hS1, totalCost_append, totalCost_single]
    have hvS : totalValue S = totalValue S1 + (item input i).value := by
      rw [hS1, totalValue_append, totalValue_single]
    have hlenle : S.length ≤ input.length := by
      have := hS.length_le
      rw [List.length_take] at this
      omega
    have he0 := hcomplete i S1 (by omega) hS1sub (by omega) (by omega)
    rw [← hcS, ← hvS, ← hlenS, hlen, hcost] at he0
    have hel0 : eligible indexes (i, totalValue S) = true :=
      (eligible_iff indexes _ input.length (by simp only; omega)).mpr hi
    obtain ⟨j, w, hpick, hmem, helj, hw⟩ :=
      pick_spec indexes (s.map c (round + 1)) (i, totalValue S) he0 hel0
    obtain ⟨S2, hS2sub, hjlt, hS2len, hS2cost, hS2val, _⟩ := hsound c (round + 1) (j, w) hmem
    simp only at hS2sub hjlt hS2cost hS2val hw
    have hjb : j < indexes.getLast?.getD input.length :=
      (eligible_iff indexes (j, w) input.length hjlt).mp helj
    have hlast : (indexes ++ [j]).getLast?.getD input.length = j := by
      rw [List.getLast?_concat]
      rfl
    have hmapc : (indexes ++ [j]).map (item input) = indexes.map (item input) ++ [item input j] := by
      simp
    have hrec := ih (c - (item input j).cost) (indexes ++ [j]) S2
      (by rw [hlast]; omega) (by omega) (by rw [hlast]; exact hS2sub) (by omega)
      (by rw [hmapc, totalValue_append, totalValue_single]; omega)
      (by rw [hmapc, totalCost_append, totalCost_single]; omega)
      (by
        rw [hmapc, List.reverse_append, hlast, drop_item input j hjlt]
        simp only [List.reverse_cons, List.reverse_nil, List.nil_append, List.singleton_append]
        exact List.Sublist.cons₂ _
          (List.Sublist.trans hsub (List.drop_sublist_drop_left input (by omega))))
    obtain ⟨result, hres, h1, h2, h3⟩ := hrec
    refine ⟨result, ?_, h1, h2, h3⟩
    have hnonempty : (s.map c (round + 1)).isEmpty = false := by
      cases hm : s.map c (round + 1) with
      | nil => rw [hm] at hmem; simp at hmem
      | cons a l => rfl
    rw [reconstruct]
    simp only [hnonempty, hpick, Bool.false_eq_true, if_false]
    exact hres

/-- On a sorted input `knapsack` fails no assertion and returns items
that stand, read backwards, in input order, cost no more than `max_cost`
and are worth no less than any sub-collection within `max_cost`. -/
theorem knapsackSorted_spec (input : Items) (max_cost : Nat) :
    ∃ result, knapsackSorted input max_cost = Except.ok result ∧
      result.reverse.Sublist input ∧ totalCost result ≤ max_cost ∧
      ∀ T : Items, T.Sublist input → totalCost T ≤ max_cost →
        totalValue T ≤ totalValue result := by
  obtain ⟨hsound, hgreat⟩ :=
    rounds_inv input max_cost _ (firstIteration_inv input max_cost)
  have hcomplete := rounds_complete input max_cost _ (firstIteration_complete input max_cost)
  generalize hs : rounds input max_cost (firstIteration input max_cost) = s
    at hsound hgreat hcomplete
  obtain ⟨hbound, hzero, hentry⟩ := hgreat
  have hopt : ∀ T : Items, T.Sublist input → totalCost T ≤ max_cost →
      totalValue T ≤ s.greatest.value := by
    intro T hT hc
    by_cases hne : T = []
    · rw [hne]
      simp [totalValue]
    · obtain ⟨i, S1, hi, hS1, hS1sub⟩ :=
        sublist_take_split input input.length T (Nat.le_refl _)
          (by rw [List.take_length]; exact hT) hne
      have hlenle : T.length ≤ input.length := hT.length_le
      have hlenT : T.length = S1.length + 1 := by rw [hS1]; simp
      have hcT : totalCost T = totalCost S1 + (item input i).cost := by
        rw [hS1, totalCost_append, totalCost_single]
      have hvT : totalValue T = totalValue S1 + (item input i).value := by
        rw [hS1, totalValue_append, totalValue_single]
      have := hbound _ _ _ (hcomplete i S1 hi hS1sub (by omega) (by omega))
      simp only at this
      omega
  have hrec : ∃ indexes, reconstruct input s.map s.greatest.round s.greatest.cost []
      = Except.ok indexes ∧ s.greatest.value ≤ totalValue (indexes.map (item input)) ∧
        totalCost (indexes.map (item input)) ≤ max_cost ∧
        (indexes.map (item input)).reverse.Sublist input := by
    by_cases hr : s.greatest.round = 0
    · refine ⟨[], by rw [hr]; rfl, ?_, by simp [totalCost], by simp⟩
      rw [hzero hr]
      exact Nat.zero_le _
    · obtain ⟨j, hj⟩ := hentry (by omega)
      obtain ⟨S2, hS2sub, hjlt, hS2len, hS2cost, hS2val, hle⟩ :=
        hsound _ _ _ hj
      simp only at hS2sub hjlt hS2cost hS2val
      apply reconstruct_spec input max_cost s.greatest.value s hsound hcomplete
        s.greatest.round s.greatest.cost [] (S2 ++ [item input j])
      · simp
      · simp only [List.length_append, List.length_singleton]
        exact hS2len
      · simp only [List.getLast?_nil, Option.getD_none]
        have h1 : (S2 ++ [item input j]).Sublist (input.take (j + 1)) := by
          rw [take_succ_item input j hjlt]
          exact List.Sublist.append hS2sub (List.Sublist.refl _)
        exact List.Sublist.trans h1 (List.take_sublist_take_left input (by omega))
      · rw [totalCost_append, totalCost_single, hS2cost]
      · rw [totalValue_append, totalValue_single, hS2val]
        simp [totalValue]
      · simp only [List.map_nil, totalCost, List.sum_nil, Nat.add_zero]
        exact hle
      · simp
  obtain ⟨indexes, hres, hV, hC, hsub⟩ := hrec
  refine ⟨indexes.map (item input), ?_, hsub, hC, ?_⟩
  · simp only [knapsackSorted, hs, hres]
  · intro T hT hc
    exact Nat.le_trans (hopt T hT hc) hV

end Knapsack

end Sandbox

namespace Sandbox

namespace Knapsack

theorem totalCost_perm {a b : Items} (h : a.Perm b) : totalCost a = totalCost b :=
  (h.map Item.cost).sum_eq

theorem totalValue_perm {a b : Items} (h : a.Perm b) : totalValue a = totalValue b :=
  (h.map Item.value).sum_eq

/-- C17: for every item list, every `max_cost` and every way `std::sort`
may order the input, `knapsack` returns items whose total value is at
least the total value of every sub-collection of the input (each item
used at most as often as it occurs) whose total cost is at most
`max_cost`.  Costs and values are natural numbers, which is what the
`int`s of the code are as long as nothing overflows. -/
theorem C17_knapsack_optimal (sort : Items → Items) (input : Items) (max_cost : Nat)
    (hsort : (sort input).Perm input) :
    ∃ result, knapsack sort input max_cost = Except.ok result ∧
      ∀ T : Items, T.Subperm input → totalCost T ≤ max_cost →
        totalValue T ≤ totalValue result := by
  obtain ⟨result, hres, _, _, hopt⟩ := knapsackSorted_spec (sort input) max_cost
  refine ⟨result, hres, ?_⟩
  intro T hT hc
  obtain ⟨T1, hperm, hsub⟩ := (List.Perm.subperm_left hsort).mpr hT
  rw [← totalValue_perm hperm]
  exact hopt T1 hsub (by rw [totalCost_perm hperm]; exact hc)

/-- With `max_cost` 7 the items of `main` give (5, 25) and (2, 100). -/
theorem C17_knapsack_optimal_witness :
    ((byCost mainItems).Perm mainItems ∧
      knapsack byCost mainItems 7 = Except.ok [⟨5, 25⟩, ⟨2, 100⟩]) ∧
    ∃ result, knapsack byCost mainItems 7 = Except.ok result ∧
      ∀ T : Items, T.Subperm mainItems → totalCost T ≤ 7 →
        totalValue T ≤ totalValue result :=
  ⟨⟨by decide, rfl⟩, C17_knapsack_optimal byCost mainItems 7 (by decide)⟩

/-- With integers of no width, which is the arithmetic of the code as long
as no cost, value or total reaches `2 ^ 31`: for every item list, every
`max_cost` and every way `std::sort` may order the input, `knapsack` fails
neither of its two assertions and returns items that are a sub-collection
of the input (no item more often than the input has it), taken at
decreasing positions of the sorted input, whose total cost is at most
`max_cost`. -/
theorem knapsack_feasible_unbounded (sort : Items → Items) (input : Items) (max_cost : Nat)
    (hsort : (sort input).Perm input) :
    ∃ result, knapsack sort input max_cost = Except.ok result ∧
      result.Subperm input ∧ result.reverse.Sublist (sort input) ∧
      totalCost result ≤ max_cost := by
  obtain ⟨result, hres, hsub, hcost, _⟩ := knapsackSorted_spec (sort input) max_cost
  refine ⟨result, hres, ?_, hsub, hcost⟩
  exact (List.Perm.subperm_left hsort).mp
    ((List.Perm.subperm_right (List.reverse_perm result)).mp hsub.subperm)

set_option maxRecDepth 100000

/-- With `max_cost` 15 the items of `main` are all returned. -/
theorem knapsack_main_15 :
    (byCost mainItems).Perm mainItems ∧
    knapsack byCost mainItems 15
      = Except.ok [⟨5, 25⟩, ⟨4, 16⟩, ⟨3, 9⟩, ⟨2, 100⟩, ⟨1, 1⟩] :=
  ⟨by decide, rfl⟩

end Knapsack

end Sandbox

/-! ## `knapsack/knapsack.cc` with the widths of its integers -/

namespace Sandbox

namespace Knapsack32

open Knapsack

set_option maxRecDepth 100000

/-- C18 at two failing inputs.  The one item of cost 1 and value
`2 ^ 31` with `max_cost` 5: the value narrows to `-2 ^ 31` when it is
pushed into the map, the reconstruction finds no entry with
`value <= items[i].second`, `index` stays -1 and `assert(0 <= index)`
fails.  Two items of cost 2147483647 with `max_cost` 2147483647: the sum
of the two costs narrows to -2, which passes `max_cost >= new_total_cost`,
and both items are returned, at a total cost of 4294967294. -/
theorem C18_assertion_fails_and_cost_exceeds :
    knapsack byCost [⟨1, 2147483648⟩] 5 = some (Except.error "assert(0 <= index)") ∧
    (firstIteration [⟨1, 2147483648⟩] 5).map.vector 1 1 = [(0, -2147483648)] ∧
    pick [] [(0, -2147483648)] = (none, 0) ∧
    knapsack byCost [⟨2147483647, 1⟩, ⟨2147483647, 1⟩] 2147483647
      = some (Except.ok [⟨2147483647, 1⟩, ⟨2147483647, 1⟩]) ∧
    toInt32 (2147483647 + 2147483647) = -2 ∧
    totalCost [⟨2147483647, 1⟩, ⟨2147483647, 1⟩] = 4294967294 ∧
    ¬ totalCost [⟨2147483647, 1⟩, ⟨2147483647, 1⟩] ≤ 2147483647 :=
  ⟨rfl, by decide, by decide, rfl, by decide, by decide, by decide⟩

/-- On the items of `main` the widths change nothing: with `max_cost` 7
and 15 the function returns what the function without widths returns. -/
theorem knapsack_main_widths :
    knapsack byCost mainItems 7 = some (Except.ok [⟨5, 25⟩, ⟨2, 100⟩]) ∧
    knapsack byCost mainItems 7 = some (Knapsack.knapsack byCost mainItems 7) ∧
    knapsack byCost mainItems 15 = some (Knapsack.knapsack byCost mainItems 15) :=
  ⟨rfl, rfl, rfl⟩

end Knapsack32

end Sandbox

namespace Sandbox

namespace Knapsack32

open Knapsack

/-! ### Without overflow the widths change nothing -/

theorem toInt32_cast (n : Nat) (h : n < 2 ^ 31) : toInt32 (n : Int) = (n : Int) := by
  unfold toInt32
  omega

theorem toSize_cast (n : Nat) (h : n < 2 ^ 31) : toSize (n : Int) = n := by
  unfold toSize
  omega

theorem mem_insertKey (cost x : Int) : ∀ keys : List Int,
    x ∈ insertKey cost keys ↔ x = cost ∨ x ∈ keys := by
  intro keys
  induction keys with
  | nil => simp [insertKey]
  | cons key keys ih =>
    rw [insertKey]
    split
    · simp
    · split
      · rename_i h
        simp only [List.mem_cons]
        constructor
        · exact Or.inr
        · rintro (h1 | h1)
          · exact Or.inl (by rw [h1, h])
          · exact h1
      · simp only [List.mem_cons, ih]
        constructor
        · rintro (h1 | h1 | h1)
          · exact Or.inr (Or.inl h1)
          · exact Or.inl h1
          · exact Or.inr (Or.inr h1)
        · rintro (h1 | h1 | h1)
          · exact Or.inr (Or.inl h1)
          · exact Or.inl h1
          · exact Or.inr (Or.inr h1)

theorem pairwise_insertKey (cost : Int) : ∀ keys : List Int,
    keys.Pairwise (fun a b => a < b) → (insertKey cost keys).Pairwise (fun a b => a < b) := by
  intro keys
  induction keys with
  | nil => intro _; simp [insertKey]
  | cons key keys ih =>
    intro h
    rw [insertKey]
    obtain ⟨h1, h2⟩ := List.pairwise_cons.mp h
    split
    · rename_i hlt
      refine List.pairwise_cons.mpr ⟨?_, h⟩
      intro x hx
      rcases List.mem_cons.mp hx with hx | hx
      · rw [hx]; exact hlt
      · exact Int.lt_trans hlt (h1 x hx)
    · split
      · exact h
      · rename_i hnlt hne
        refine List.pairwise_cons.mpr ⟨?_, ih h2⟩
        intro x hx
        rcases (mem_insertKey cost x keys).mp hx with hx | hx
        · rw [hx]; omega
        · exact h1 x hx

theorem push_back_keysOK (map : Map) (cost : Int) (round : Nat) (entry : Nat × Int)
    (h : KeysOK map) : KeysOK (push_back map cost round entry) := by
  obtain ⟨hsorted, hkeys⟩ := h
  refine ⟨pairwise_insertKey cost _ hsorted, ?_⟩
  intro c
  simp only [push_back, mem_insertKey, hkeys]
  constructor
  · rintro (h1 | ⟨r, hr⟩)
    · exact ⟨round, by rw [if_pos ⟨h1, rfl⟩]; simp⟩
    · refine ⟨r, ?_⟩
      split
      · simp
      · exact hr
  · rintro ⟨r, hr⟩
    by_cases hc : c = cost
    · exact Or.inl hc
    · rw [if_neg (fun h => hc h.1)] at hr
      exact Or.inr ⟨r, hr⟩

end Knapsack32

end Sandbox

namespace Sandbox

namespace Knapsack32

open Knapsack

theorem totalCost_sublist {S T : Items} (h : S.Sublist T) : totalCost S ≤ totalCost T :=
  (h.map Item.cost).sum_le_sum (fun _ _ => Nat.zero_le _)

theorem totalValue_sublist {S T : Items} (h : S.Sublist T) : totalValue S ≤ totalValue T :=
  (h.map Item.value).sum_le_sum (fun _ _ => Nat.zero_le _)

/-- The sums behind a valid entry, and behind it with one more item, are
sums of sub-collections of the input. -/
theorem valid_bounds (input : Items) (max_cost c r : Nat) (entry : Nat × Nat)
    (hv : Valid input max_cost c r entry) :
    c ≤ totalCost input ∧ entry.2 ≤ totalValue input ∧ (item input entry.1).cost ≤ c ∧
    c ≤ max_cost ∧
    ∀ j, entry.1 < j → j < input.length →
      c + (item input j).cost ≤ totalCost input ∧
      entry.2 + (item input j).value ≤ totalValue input := by
  obtain ⟨S, hsub, hlt, _, hc, hval, hmax⟩ := hv
  have h1 : (S ++ [item input entry.1]).Sublist (input.take (entry.1 + 1)) := by
    rw [take_succ_item input entry.1 hlt]
    exact List.Sublist.append hsub (List.Sublist.refl _)
  have h2 : (S ++ [item input entry.1]).Sublist input :=
    List.Sublist.trans h1 (List.take_sublist _ _)
  have hc1 := totalCost_sublist h2
  have hv1 := totalValue_sublist h2
  rw [totalCost_append, totalCost_single] at hc1
  rw [totalValue_append, totalValue_single] at hv1
  refine ⟨by omega, by omega, by omega, hmax, ?_⟩
  intro j hj hjlt
  have h3 : ((S ++ [item input entry.1]) ++ [item input j]).Sublist (input.take (j + 1)) := by
    rw [take_succ_item input j hjlt]
    exact List.Sublist.append
      (List.Sublist.trans h1 (List.take_sublist_take_left input (by omega)))
      (List.Sublist.refl _)
  have h4 := List.Sublist.trans h3 (List.take_sublist _ _)
  have hc2 := totalCost_sublist h4
  have hv2 := totalValue_sublist h4
  rw [totalCost_append, totalCost_append, totalCost_single, totalCost_single] at hc2
  rw [totalValue_append, totalValue_append, totalValue_single, totalValue_single] at hv2
  omega

/-- One item of the input costs and is worth no more than all of them. -/
theorem item_bounds (input : Items) (i : Nat) (hi : i < input.length) :
    (item input i).cost ≤ totalCost input ∧ (item input i).value ≤ totalValue input := by
  have h1 : [item input i].Sublist (input.take (i + 1)) := by
    rw [take_succ_item input i hi]
    exact List.sublist_append_right _ _
  have h2 := List.Sublist.trans h1 (List.take_sublist _ _)
  have hc := totalCost_sublist h2
  have hv := totalValue_sublist h2
  rw [totalCost_single] at hc
  rw [totalValue_single] at hv
  exact ⟨hc, hv⟩

/-- The value of `greatest` is the value of a sub-collection, or 0. -/
theorem greatest_bound (input : Items) (max_cost : Nat) (s : Knapsack.State)
    (hs : Sound input max_cost s ∧ GreatestOK s) : s.greatest.value ≤ totalValue input := by
  obtain ⟨hsound, _, hzero, hentry⟩ := hs
  by_cases hr : s.greatest.round = 0
  · rw [hzero hr]
    exact Nat.zero_le _
  · obtain ⟨j, hj⟩ := hentry (by omega)
    exact (valid_bounds input max_cost _ _ _ (hsound _ _ _ hj)).2.1

/-- Pushing the same entry under the same key keeps the two maps the
same. -/
theorem same_push (s : Knapsack.State) (t : State) (c r j w : Nat) (g : Knapsack.Greatest)
    (h : Same s t) :
    Same ⟨Knapsack.push_back s.map c r (j, w), g⟩
      ⟨push_back t.map (c : Int) r (j, (w : Int)), ⟨(g.value : Int), g.round, (g.cost : Int)⟩⟩ := by
  obtain ⟨hvec, hneg, _⟩ := h
  refine ⟨?_, ?_, rfl⟩
  · intro c1 r1
    simp only [push_back, Knapsack.push_back]
    by_cases hc : c1 = c ∧ r1 = r
    · rw [if_pos hc, if_pos ⟨by rw [hc.1], hc.2⟩, hvec, List.map_append]
      rfl
    · rw [if_neg hc, if_neg (fun h1 => hc ⟨Int.ofNat_inj.mp h1.1, h1.2⟩), hvec]
  · intro c1 r1 hc1
    simp only [push_back]
    rw [if_neg (fun h1 => by omega), hneg c1 r1 hc1]

end Knapsack32

end Sandbox

namespace Sandbox

namespace Knapsack32

open Knapsack

/-- Two loops whose bodies keep a relation between their states keep it. -/
theorem foldl_same {σ τ α : Type} (f : σ → α → σ) (g : τ → α → τ) (R : σ → τ → Prop)
    (l : List α) (hstep : ∀ s t x, x ∈ l → R s t → R (f s x) (g t x)) :
    ∀ s t, R s t → R (l.foldl f s) (l.foldl g t) := by
  induction l with
  | nil => intro s t h; exact h
  | cons x l ih =>
    intro s t h
    exact ih (fun s t y hy hr => hstep s t y (List.mem_cons_of_mem _ hy) hr) _ _
      (hstep s t x (List.mem_cons_self _ _) h)

theorem extend_keysOK (input : Items) (max_cost : Int) (round : Nat) (total_cost : Int)
    (entry : Nat × Int) (t : State) (j : Nat) (h : KeysOK t.map) :
    KeysOK (extend input max_cost round total_cost entry t j).map := by
  simp only [extend]
  split
  · split
    · exact push_back_keysOK _ _ _ _ h
    · exact push_back_keysOK _ _ _ _ h
  · exact h

theorem firstStep_keysOK (input : Items) (max_cost : Int) (t : State) (i : Nat)
    (h : KeysOK t.map) : KeysOK (firstStep input max_cost t i).map := by
  simp only [firstStep]
  split
  · split
    · exact push_back_keysOK _ _ _ _ h
    · exact push_back_keysOK _ _ _ _ h
  · exact h

/-- The body of the innermost loop does the same with and without
widths, as long as the totals of the input are below `2 ^ 31`. -/
theorem extend_linked (input : Items) (max_cost round c : Nat) (entry : Nat × Nat)
    (hcost : totalCost input < 2 ^ 31) (hvalue : totalValue input < 2 ^ 31)
    (s : Knapsack.State) (t : State) (j : Nat)
    (hv : Valid input max_cost c round entry) (hlast : entry.1 < j) (hj : j < input.length)
    (h : Linked input max_cost s t) :
    Linked input max_cost (Knapsack.extend input max_cost round c entry s j)
      (extend input (max_cost : Int) round (c : Int) (narrow entry) t j) := by
  obtain ⟨hinv, hsame, hkeys⟩ := h
  have hb := (valid_bounds input max_cost c round entry hv).2.2.2.2 j hlast hj
  refine ⟨extend_inv input max_cost round c entry s j hv hlast hj hinv, ?_,
    extend_keysOK _ _ _ _ _ _ _ hkeys⟩
  have hc : toInt32 ((c : Int) + ((item input j).cost : Int))
      = ((c + (item input j).cost : Nat) : Int) := by
    rw [← Int.ofNat_add]
    exact toInt32_cast _ (by omega)
  have hw : toInt32 ((narrow entry).2 + ((item input j).value : Int))
      = ((entry.2 + (item input j).value : Nat) : Int) := by
    simp only [narrow]
    rw [← Int.ofNat_add]
    exact toInt32_cast _ (by omega)
  have hg := hsame.2.2
  simp only [extend, Knapsack.extend, Knapsack.State.record, hc, hw, hg]
  have hguardZ : (max_cost : Int) ≥ ((c + (item input j).cost : Nat) : Int) ↔
      max_cost ≥ c + (item input j).cost := by
    constructor <;> intro h1 <;> exact_mod_cast h1
  have hgrZ : (s.greatest.value : Int) < ((entry.2 + (item input j).value : Nat) : Int) ↔
      s.greatest.value < entry.2 + (item input j).value := by
    constructor <;> intro h1 <;> exact_mod_cast h1
  simp only [hguardZ, hgrZ]
  by_cases hguard : max_cost ≥ c + (item input j).cost
  · rw [if_pos hguard, if_pos hguard]
    by_cases hgr : s.greatest.value < entry.2 + (item input j).value
    · rw [if_pos hgr, if_pos hgr]
      exact same_push s t _ _ _ _ ⟨_, _, _⟩ hsame
    · rw [if_neg hgr, if_neg hgr]
      exact same_push s t _ _ _ _ s.greatest hsame
  · rw [if_neg hguard, if_neg hguard]
    exact hsame

theorem extendEntry_linked (input : Items) (max_cost round c : Nat) (entry : Nat × Nat)
    (hcost : totalCost input < 2 ^ 31) (hvalue : totalValue input < 2 ^ 31)
    (hv : Valid input max_cost c round entry)
    (s : Knapsack.State) (t : State) (h : Linked input max_cost s t) :
    Linked input max_cost (Knapsack.extendEntry input max_cost round c s entry)
      (extendEntry input (max_cost : Int) round (c : Int) t (narrow entry)) := by
  apply foldl_same _ _ (Linked input max_cost) _ _ s t h
  intro s1 t1 j hj h1
  rw [List.mem_range'_1] at hj
  exact extend_linked input max_cost round c entry hcost hvalue s1 t1 j hv (by omega)
    (by omega) h1

theorem extendCost_linked (input : Items) (max_cost round c : Nat)
    (hcost : totalCost input < 2 ^ 31) (hvalue : totalValue input < 2 ^ 31)
    (s : Knapsack.State) (t : State) (h : Linked input max_cost s t) :
    Linked input max_cost (Knapsack.extendCost input max_cost round s c)
      (extendCost input (max_cost : Int) round t (c : Int)) := by
  simp only [extendCost, Knapsack.extendCost, h.2.1.1 c round, List.foldl_map]
  apply foldl_same _ _ (Linked input max_cost) _ _ s t h
  intro s1 t1 e he h1
  exact extendEntry_linked input max_cost round c e hcost hvalue (h.1.1 c round e he) s1 t1 h1

theorem firstStep_linked (input : Items) (max_cost : Nat)
    (hcost : totalCost input < 2 ^ 31) (hvalue : totalValue input < 2 ^ 31)
    (s : Knapsack.State) (t : State) (i : Nat) (hi : i < input.length)
    (h : Linked input max_cost s t) :
    Linked input max_cost (Knapsack.firstStep input max_cost s i)
      (firstStep input (max_cost : Int) t i) := by
  obtain ⟨hinv, hsame, hkeys⟩ := h
  have hb := item_bounds input i hi
  have hgb := greatest_bound input max_cost s hinv
  have hc : toInt32 ((item input i).cost : Int) = ((item input i).cost : Int) :=
    toInt32_cast _ (by omega)
  have hw : toInt32 ((item input i).value : Int) = ((item input i).value : Int) :=
    toInt32_cast _ (by omega)
  have hg := hsame.2.2
  have hsz : toSize (s.greatest.value : Int) = s.greatest.value := toSize_cast _ (by omega)
  refine ⟨?_, ?_, firstStep_keysOK _ _ _ _ hkeys⟩
  · simp only [Knapsack.firstStep]
    split
    · rename_i hguard
      exact ⟨record_sound input max_cost s _ _ _ _ hinv.1
          ⟨[], List.nil_sublist _, hi, rfl, by simp [totalCost], by simp [totalValue], hguard⟩,
        record_greatest s _ _ _ _ (by omega) hinv.2⟩
    · exact hinv
  · simp only [firstStep, Knapsack.firstStep, Knapsack.State.record, hc, hw, hg, hsz]
    have hguardZ : (max_cost : Int) ≥ ((item input i).cost : Int) ↔
        max_cost ≥ (item input i).cost := by
      constructor <;> intro h1 <;> exact_mod_cast h1
    simp only [hguardZ]
    by_cases hguard : max_cost ≥ (item input i).cost
    · rw [if_pos hguard, if_pos hguard]
      by_cases hgr : s.greatest.value < (item input i).value
      · rw [if_pos hgr, if_pos hgr]
        exact same_push s t _ _ _ _ ⟨_, _, _⟩ hsame
      · rw [if_neg hgr, if_neg hgr]
        exact same_push s t _ _ _ _ s.greatest hsame
    · rw [if_neg hguard, if_neg hguard]
      exact hsame

theorem firstIteration_linked (input : Items) (max_cost : Nat)
    (hcost : totalCost input < 2 ^ 31) (hvalue : totalValue input < 2 ^ 31) :
    Linked input max_cost (Knapsack.firstIteration input max_cost)
      (firstIteration input (max_cost : Int)) := by
  apply foldl_same _ _ (Linked input max_cost)
  · intro s t i hi h
    rw [List.mem_range] at hi
    exact firstStep_linked input max_cost hcost hvalue s t i hi h
  · refine ⟨⟨fun c r e he => by simp at he, fun c r e he => by simp at he, fun _ => rfl, ?_⟩,
      ⟨fun c r => rfl, fun c r _ => rfl, rfl⟩, List.Pairwise.nil, ?_⟩
    · intro h
      simp at h
    · intro c
      simp

end Knapsack32

end Sandbox

namespace Sandbox

namespace Knapsack32

open Knapsack

theorem find?_congr_mem {α : Type} (p q : α → Bool) :
    ∀ l : List α, (∀ x, x ∈ l → p x = q x) → l.find? p = l.find? q := by
  intro l
  induction l with
  | nil => intro _; rfl
  | cons a l ih =>
    intro h
    rw [List.find?_cons, List.find?_cons, h a (List.mem_cons_self _ _),
      ih (fun x hx => h x (List.mem_cons_of_mem _ hx))]

/-- No key is negative. -/
theorem keys_nonneg (s : Knapsack.State) (t : State) (hsame : Same s t) (hkeys : KeysOK t.map)
    (k : Int) (hk : k ∈ t.map.keys) : 0 ≤ k := by
  obtain ⟨r, hr⟩ := (hkeys.2 k).mp hk
  by_contra hneg
  exact hr (hsame.2.1 k r (by omega))

/-- A cost is a key when the map without widths has an entry under it. -/
theorem key_of_entry (s : Knapsack.State) (t : State) (hsame : Same s t)
    (hkeys : KeysOK t.map) (c r : Nat) (h : s.map c r ≠ []) : (c : Int) ∈ t.map.keys := by
  refine (hkeys.2 c).mpr ⟨r, ?_⟩
  rw [hsame.1 c r]
  intro h1
  exact h (List.map_eq_nil_iff.mp h1)

/-- A key is a cost within `max_cost`. -/
theorem key_le (input : Items) (max_cost : Nat) (s : Knapsack.State) (t : State)
    (h : Linked input max_cost s t) (c : Nat) (hc : (c : Int) ∈ t.map.keys) : c ≤ max_cost := by
  obtain ⟨⟨hsound, _⟩, hsame, hkeys⟩ := h
  obtain ⟨r, hr⟩ := (hkeys.2 c).mp hc
  rw [hsame.1 c r] at hr
  cases hm : s.map c r with
  | nil => rw [hm] at hr; simp at hr
  | cons e l =>
    exact (valid_bounds input max_cost c r e (hsound c r e (by rw [hm]; simp))).2.2.2.1

/-- The key the iterator goes to is the least key from `c0` on. -/
theorem nextKey_eq (map : Map) (last : Option Int) (c0 : Nat) (hb : Behind last c0)
    (hnonneg : ∀ k, k ∈ map.keys → 0 ≤ k) :
    nextKey map last = map.keys.find? (fun k => decide ((c0 : Int) ≤ k)) := by
  rcases hb with ⟨h1, h2⟩ | h1
  · subst h1 h2
    simp only [nextKey]
    cases hk : map.keys with
    | nil => rfl
    | cons k ks =>
      have := hnonneg k (by rw [hk]; exact List.mem_cons_self _ _)
      simp [List.find?_cons, this]
  · subst h1
    simp only [nextKey]
    apply find?_congr_mem
    intro x _
    simp only [decide_eq_decide]
    omega

/-- The costs under which round `round` has no entry change nothing. -/
theorem foldl_extendCost_skip (input : Items) (max_cost round : Nat) :
    ∀ (l : List Nat) (s : Knapsack.State), (∀ c, c ∈ l → s.map c round = []) →
      l.foldl (Knapsack.extendCost input max_cost round) s = s := by
  intro l
  induction l with
  | nil => intro s _; rfl
  | cons c l ih =>
    intro s h
    have h1 : Knapsack.extendCost input max_cost round s c = s := by
      simp only [Knapsack.extendCost, h c (List.mem_cons_self _ _), List.foldl_nil]
    rw [List.foldl_cons, h1]
    exact ih s (fun c1 hc1 => h c1 (List.mem_cons_of_mem _ hc1))

/-- One round with widths, from the key after `last` on, does what the
round without widths does for the costs from `c0` on. -/
theorem passLoop_linked (input : Items) (max_cost round : Nat)
    (hcost : totalCost input < 2 ^ 31) (hvalue : totalValue input < 2 ^ 31) :
    ∀ (n c0 fuel : Nat) (s : Knapsack.State) (t : State) (last : Option Int),
      c0 + n = max_cost + 1 → n < fuel → Behind last c0 → Linked input max_cost s t →
      ∃ t1, passLoop input (max_cost : Int) round fuel t last = some t1 ∧
        Linked input max_cost
          ((List.range' c0 n).foldl (Knapsack.extendCost input max_cost round) s) t1 := by
  intro n
  induction n using Nat.strong_induction_on with
  | _ n ih =>
    intro c0 fuel s t last hn hfuel hbehind hlink
    obtain ⟨fuel, rfl⟩ : ∃ f, fuel = f + 1 := ⟨fuel - 1, by omega⟩
    have hsame := hlink.2.1
    have hkeys := hlink.2.2
    rw [passLoop, nextKey_eq t.map last c0 hbehind (keys_nonneg s t hsame hkeys)]
    cases hfind : t.map.keys.find? (fun k => decide ((c0 : Int) ≤ k)) with
    | none =>
      refine ⟨t, rfl, ?_⟩
      rw [foldl_extendCost_skip]
      · exact hlink
      · intro c hc
        rw [List.mem_range'_1] at hc
        by_contra hne
        have hkey := key_of_entry s t hsame hkeys c round hne
        have := List.find?_eq_none.mp hfind (c : Int) hkey
        simp only [decide_eq_true_eq] at this
        omega
    | some k =>
      obtain ⟨hpk, pre, post, hsplit, hpre⟩ := List.find?_eq_some.mp hfind
      simp only [decide_eq_true_eq] at hpk
      have hkmem : k ∈ t.map.keys := by rw [hsplit]; simp
      obtain ⟨c, rfl⟩ : ∃ c : Nat, k = (c : Int) := ⟨k.toNat, by omega⟩
      have hc0 : c0 ≤ c := by omega
      have hcmax : c ≤ max_cost := key_le input max_cost s t hlink c hkmem
      obtain ⟨m, hm⟩ : ∃ m, n - (c - c0) = m + 1 := ⟨n - (c - c0) - 1, by omega⟩
      have hrange : List.range' c0 n = List.range' c0 (c - c0) ++ c :: List.range' (c + 1) m := by
        have h1 := List.range'_append c0 (c - c0) (n - (c - c0)) 1
        rw [hm, Nat.one_mul, List.range'_succ] at h1
        have e1 : c0 + (c - c0) = c := by omega
        have e2 : m + 1 + (c - c0) = n := by omega
        rw [e1, e2] at h1
        exact h1.symm
      have hskip : (List.range' c0 (c - c0)).foldl (Knapsack.extendCost input max_cost round) s
          = s := by
        apply foldl_extendCost_skip
        intro c1 hc1
        rw [List.mem_range'_1] at hc1
        by_contra hne
        have hkey := key_of_entry s t hsame hkeys c1 round hne
        rw [hsplit] at hkey
        have hsorted := hkeys.1
        rw [hsplit] at hsorted
        rcases List.mem_append.mp hkey with h1 | h1
        · have := hpre _ h1
          simp only [Bool.not_eq_true', decide_eq_false_iff_not] at this
          omega
        · rcases List.mem_cons.mp h1 with h2 | h2
          · omega
          · have := (List.pairwise_cons.mp (List.pairwise_append.mp hsorted).2.1).1 _ h2
            omega
      have hstep := extendCost_linked input max_cost round c hcost hvalue s t hlink
      obtain ⟨t1, hrun, hl1⟩ := ih m (by omega) (c + 1) fuel
        (Knapsack.extendCost input max_cost round s c)
        (extendCost input (max_cost : Int) round t (c : Int)) (some (c : Int)) (by omega)
        (by omega) (Or.inr (by push_cast; simp)) hstep
      refine ⟨t1, hrun, ?_⟩
      rw [hrange, List.foldl_append, List.foldl_cons, hskip]
      exact hl1

/-- One round does the same with and without widths. -/
theorem pass_linked (input : Items) (max_cost round : Nat)
    (hcost : totalCost input < 2 ^ 31) (hvalue : totalValue input < 2 ^ 31)
    (hmax : max_cost < 2 ^ 31) (s : Knapsack.State) (t : State)
    (h : Linked input max_cost s t) :
    ∃ t1, pass input (max_cost : Int) t round = some t1 ∧
      Linked input max_cost (Knapsack.pass input max_cost s round) t1 := by
  have := passLoop_linked input max_cost round hcost hvalue (max_cost + 1) 0 (2 ^ 32 + 1) s t none
    (by omega) (by omega) (Or.inl ⟨rfl, rfl⟩) h
  rw [← List.range_eq_range'] at this
  exact this

/-- The rounds do the same with and without widths. -/
theorem rounds_linked (input : Items) (max_cost : Nat)
    (hcost : totalCost input < 2 ^ 31) (hvalue : totalValue input < 2 ^ 31)
    (hmax : max_cost < 2 ^ 31) (s : Knapsack.State) (t : State)
    (h : Linked input max_cost s t) :
    ∃ t1, rounds input (max_cost : Int) t = some t1 ∧
      Linked input max_cost (Knapsack.rounds input max_cost s) t1 := by
  unfold rounds Knapsack.rounds
  generalize List.range' 1 (input.length - 1) = l
  induction l generalizing s t with
  | nil => exact ⟨t, rfl, h⟩
  | cons r l ih =>
    obtain ⟨t1, hrun, h1⟩ := pass_linked input max_cost r hcost hvalue hmax s t h
    rw [List.foldl_cons, List.foldl_cons, Option.some_bind, hrun]
    exact ih _ _ h1

end Knapsack32

end Sandbox

namespace Sandbox

namespace Knapsack32

open Knapsack

/-- The inner loop of the reconstruction picks the same with and without
widths. -/
theorem pick_fold_narrow (indexes : List Nat) :
    ∀ (l : List (Nat × Nat)) (acc : Option Nat × Nat),
      (l.map narrow).foldl
        (fun acc entry =>
          if eligible indexes entry = true then
            if acc.2 ≤ entry.2 then (some entry.1, entry.2) else acc
          else acc)
        (acc.1, (acc.2 : Int))
      = ((l.foldl
          (fun acc entry =>
            if Knapsack.eligible indexes entry = true then
              if acc.2 ≤ entry.2 then (some entry.1, entry.2) else acc
            else acc)
          acc).1,
        ((l.foldl
          (fun acc entry =>
            if Knapsack.eligible indexes entry = true then
              if acc.2 ≤ entry.2 then (some entry.1, entry.2) else acc
            else acc)
          acc).2 : Int)) := by
  intro l
  induction l with
  | nil => intro acc; rfl
  | cons e l ih =>
    intro acc
    have hel : eligible indexes (narrow e) = Knapsack.eligible indexes e := rfl
    simp only [List.map_cons, List.foldl_cons, hel]
    by_cases h1 : Knapsack.eligible indexes e = true
    · simp only [h1, if_true]
      by_cases h2 : acc.2 ≤ e.2
      · have h3 : (acc.2 : Int) ≤ (narrow e).2 := by
          simp only [narrow]
          exact_mod_cast h2
        rw [if_pos h2, if_pos h3]
        exact ih (some e.1, e.2)
      · have h3 : ¬ (acc.2 : Int) ≤ (narrow e).2 := by
          simp only [narrow]
          exact_mod_cast h2
        rw [if_neg h2, if_neg h3]
        exact ih acc
    · simp only [h1, Bool.false_eq_true, if_false]
      exact ih acc

theorem pick_narrow (indexes : List Nat) (items : List (Nat × Nat)) :
    pick indexes (items.map narrow)
      = ((Knapsack.pick indexes items).1, ((Knapsack.pick indexes items).2 : Int)) := by
  unfold pick Knapsack.pick
  rw [← List.map_reverse]
  exact pick_fold_narrow indexes items.reverse (none, 0)

/-- The index picked is the index of an entry. -/
theorem pick_index_mem (indexes : List Nat) (items : List (Nat × Nat)) (j : Nat)
    (h : (Knapsack.pick indexes items).1 = some j) : ∃ e, e ∈ items ∧ e.1 = j := by
  have := Knapsack.foldl_invariant
    (fun (acc : Option Nat × Nat) (entry : Nat × Nat) =>
      if Knapsack.eligible indexes entry = true then
        if acc.2 ≤ entry.2 then (some entry.1, entry.2) else acc
      else acc)
    (fun acc => ∀ j, acc.1 = some j → ∃ e, e ∈ items ∧ e.1 = j) items.reverse
    (by
      intro acc e he hacc
      simp only
      split
      · split
        · intro j hj
          simp only [Option.some.injEq] at hj
          exact ⟨e, List.mem_reverse.mp he, hj⟩
        · exact hacc
      · exact hacc)
    (none, 0) (by intro j hj; simp at hj)
  exact this j h

/-- The reconstruction does the same with and without widths. -/
theorem reconstruct_same (input : Items) (max_cost : Nat) (hcost : totalCost input < 2 ^ 31)
    (s : Knapsack.State) (t : State) (hsound : Sound input max_cost s) (hsame : Same s t) :
    ∀ (round cost : Nat) (indexes : List Nat),
      reconstruct input t.map round (cost : Int) indexes
        = Knapsack.reconstruct input s.map round cost indexes := by
  intro round
  induction round with
  | zero => intro cost indexes; rfl
  | succ round ih =>
    intro cost indexes
    rw [reconstruct, Knapsack.reconstruct]
    simp only [hsame.1 cost (round + 1), pick_narrow, List.isEmpty_eq_true, List.map_eq_nil_iff]
    by_cases hempty : s.map cost (round + 1) = []
    · rw [if_pos hempty, if_pos hempty]
    · rw [if_neg hempty, if_neg hempty]
      cases hp : (Knapsack.pick indexes (s.map cost (round + 1))).1 with
      | none => rfl
      | some index =>
        obtain ⟨e, he, hidx⟩ := pick_index_mem indexes _ index hp
        have hb := valid_bounds input max_cost cost (round + 1) e (hsound _ _ _ he)
        rw [hidx] at hb
        have hc : toInt32 ((cost : Int) - ((item input index).cost : Int))
            = ((cost - (item input index).cost : Nat) : Int) := by
          rw [← Int.ofNat_sub hb.2.2.1]
          exact toInt32_cast _ (by omega)
        simp only [hc]
        exact ih _ _

/-- While the totals of the input and `max_cost` are below `2 ^ 31`,
`knapsack` with its 32-bit `int`s ends every round and returns what
`knapsack` without widths returns. -/
theorem knapsackSorted_widths (input : Items) (max_cost : Nat)
    (hcost : totalCost input < 2 ^ 31) (hvalue : totalValue input < 2 ^ 31)
    (hmax : max_cost < 2 ^ 31) :
    knapsackSorted input (max_cost : Int) = some (Knapsack.knapsackSorted input max_cost) := by
  obtain ⟨t1, hrun, hl⟩ := rounds_linked input max_cost hcost hvalue hmax _ _
    (firstIteration_linked input max_cost hcost hvalue)
  obtain ⟨⟨hsound, _⟩, hsame, _⟩ := hl
  simp only [knapsackSorted, Knapsack.knapsackSorted, hrun, Option.map_some', hsame.2.2,
    reconstruct_same input max_cost hcost _ t1 hsound hsame]

theorem knapsack_widths (sort : Items → Items) (input : Items) (max_cost : Nat)
    (hsort : (sort input).Perm input)
    (hcost : totalCost input < 2 ^ 31) (hvalue : totalValue input < 2 ^ 31)
    (hmax : max_cost < 2 ^ 31) :
    knapsack sort input (max_cost : Int) = some (Knapsack.knapsack sort input max_cost) :=
  knapsackSorted_widths (sort input) max_cost (by rw [totalCost_perm hsort]; exact hcost)
    (by rw [totalValue_perm hsort]; exact hvalue) hmax

/-- `knapsack` with its 32-bit `int`s, on every item list whose total
cost and total value are below `2 ^ 31` and every `max_cost` an `int`
holds: the function ends, fails neither of its assertions, and returns a
sub-collection of the input of total cost at most `max_cost` that is
worth at least as much as every other such sub-collection. -/
theorem knapsack_without_overflow (sort : Items → Items) (input : Items) (max_cost : Nat)
    (hsort : (sort input).Perm input)
    (hcost : totalCost input < 2 ^ 31) (hvalue : totalValue input < 2 ^ 31)
    (hmax : max_cost < 2 ^ 31) :
    ∃ result, knapsack sort input (max_cost : Int) = some (Except.ok result) ∧
      result.Subperm input ∧ result.reverse.Sublist (sort input) ∧
      totalCost result ≤ max_cost ∧
      ∀ T : Items, T.Subperm input → totalCost T ≤ max_cost →
        totalValue T ≤ totalValue result := by
  obtain ⟨result, hres, hsub, hc, hopt⟩ := knapsackSorted_spec (sort input) max_cost
  refine ⟨result, ?_, ?_, hsub, hc, ?_⟩
  · rw [knapsack_widths sort input max_cost hsort hcost hvalue hmax]
    exact congrArg some hres
  · exact (List.Perm.subperm_left hsort).mp
      ((List.Perm.subperm_right (List.reverse_perm result)).mp hsub.subperm)
  · intro T hT hcT
    obtain ⟨T1, hperm, hsubT⟩ := (List.Perm.subperm_left hsort).mpr hT
    rw [← totalValue_perm hperm]
    exact hopt T1 hsubT (by rw [totalCost_perm hperm]; exact hcT)

set_option maxRecDepth 100000

/-- The items of `main` with `max_cost` 15 meet the bounds. -/
theorem knapsack_without_overflow_main :
    ((byCost mainItems).Perm mainItems ∧ totalCost mainItems < 2 ^ 31 ∧
      totalValue mainItems < 2 ^ 31 ∧ 15 < 2 ^ 31) ∧
    ∃ result, knapsack byCost mainItems ((15 : Nat) : Int) = some (Except.ok result) ∧
      result.Subperm mainItems ∧ result.reverse.Sublist (byCost mainItems) ∧
      totalCost result ≤ 15 ∧
      ∀ T : Items, T.Subperm mainItems → totalCost T ≤ 15 →
        totalValue T ≤ totalValue result :=
  ⟨⟨by decide, by decide, by decide, by decide⟩,
    knapsack_without_overflow byCost mainItems 15 (by decide) (by decide) (by decide)
      (by decide)⟩

end Knapsack32

end Sandbox

/-! ## `backtracking/backtracking.cc` -/

namespace Sandbox

namespace Backtracking

/-! ### Arrays and their prefixes -/

theorem take_set_succ (l : List Int) (index : Nat) (c : Int) (h : index < l.length) :
    (l.set index c).take (index + 1) = l.take index ++ [c] := by
  induction l generalizing index with
  | nil => simp at h
  | cons x l ih =>
    cases index with
    | zero => simp
    | succ index =>
      simp only [List.length_cons] at h
      simp [ih index (by omega)]

theorem take_of_take_succ (l pre : List Int) (index : Nat) (c : Int)
    (hpre : pre.length = index) (h : l.take (index + 1) = pre ++ [c]) : l.take index = pre := by
  have h1 : l.take index = (l.take (index + 1)).take index := by
    rw [List.take_take]
    simp
  rw [h1, h, ← hpre]
  simp

theorem prefix_length (l : List Int) (index K : Nat) (hl : l.length = K) (hi : index ≤ K) :
    (l.take index).length = index := by
  rw [List.length_take]
  omega

/-! ### `NumericSubsets` -/

theorem length_of_mem_choices : ∀ (n : Nat) (b : List Int), b ∈ choices n → b.length = n := by
  intro n
  induction n with
  | zero =>
    intro b hb
    simp only [choices, List.mem_singleton] at hb
    rw [hb]
    rfl
  | succ n ih =>
    intro b hb
    simp only [choices, List.mem_append, List.mem_map] at hb
    rcases hb with ⟨b1, hb1, rfl⟩ | ⟨b1, hb1, rfl⟩
    · simp [ih b1 hb1]
    · simp [ih b1 hb1]

/-- A run of `NumericSubsets` from `index` on prints, behind what is
printed already, one line for every way to fill the rest of the array with
1 and 0, and leaves the entries before `index` alone. -/
theorem subsets_call (K : Nat) (START : Int) :
    ∀ (d fuel index : Nat) (s : State), index + d = K → d < fuel → s.finished_ = false →
      s.input.length = K →
      ∃ s1, call (NumericSubsets K START) K fuel s index = some s1 ∧ s1.finished_ = false ∧
        s1.input.length = K ∧ s1.input.take index = s.input.take index ∧
        s1.printed = s.printed ++
          (choices d).map (fun b => (NumericSubsets K START).process (s.input.take index ++ b) K) := by
  intro d
  induction d with
  | zero =>
    intro fuel index s hK hfuel hfin hlen
    obtain ⟨fuel, rfl⟩ : ∃ f, fuel = f + 1 := ⟨fuel - 1, by omega⟩
    have hidx : index = K := by omega
    subst hidx
    refine ⟨{ s with printed := s.printed ++ [(NumericSubsets index START).process s.input index] },
      ?_, hfin, hlen, rfl, ?_⟩
    · simp [call, NumericSubsets, hfin]
    · have : s.input.take index = s.input := by
        rw [← hlen]
        exact List.take_length _
      simp [choices, this]
  | succ d ih =>
    intro fuel index s hK hfuel hfin hlen
    obtain ⟨fuel, rfl⟩ : ∃ f, fuel = f + 1 := ⟨fuel - 1, by omega⟩
    have hlt : index < K := by omega
    have hpre : (s.input.take index).length = index := prefix_length _ _ _ hlen (by omega)
    obtain ⟨sa, hca, hfa, hla, hta, hpa⟩ := ih fuel (1 + index)
      { s with input := s.input.set index 1 } (by omega) (by omega) hfin
      (by simp [hlen])
    simp only at hta hpa
    rw [Nat.add_comm 1 index, take_set_succ _ _ _ (by omega)] at hta hpa
    have htka : sa.input.take index = s.input.take index :=
      take_of_take_succ _ _ _ _ hpre hta
    obtain ⟨sb, hcb, hfb, hlb, htb, hpb⟩ := ih fuel (1 + index)
      { sa with input := sa.input.set index 0 } (by omega) (by omega) hfa
      (by simp [hla])
    simp only at htb hpb
    rw [Nat.add_comm 1 index, take_set_succ _ _ _ (by omega), htka] at htb hpb
    refine ⟨sb, ?_, hfb, hlb, take_of_take_succ _ _ _ _ hpre htb, ?_⟩
    · have hterm : (NumericSubsets K START).terminates s.input index = false := by
        simp [NumericSubsets]
        omega
      have hgen : (NumericSubsets K START).generate_candidates s.input index = [1, 0] := by
        simp [NumericSubsets, hlt]
      simp only [hfin] at hca
      rw [call]
      simp only [hterm, hfin, hgen, Bool.false_eq_true, if_false, List.foldl_cons,
        List.foldl_nil, ge_iff_le, Nat.le_of_lt hlt, if_true]
      rw [hca]
      simp only [hfa, Bool.false_eq_true, if_false]
      simp only [hfa] at hcb
      exact hcb
    · rw [hpb, hpa]
      simp only [choices, List.map_append, List.map_map, List.append_assoc]
      congr 2

end Backtracking

end Sandbox

namespace Sandbox

namespace Backtracking

/-- In the range of `int` nothing wraps. -/
theorem toInt32_eq (x : Int) (hlo : -2 ^ 31 ≤ x) (hhi : x < 2 ^ 31) : toInt32 x = x := by
  unfold toInt32
  omega

/-- Two loop bodies that agree on the elements of the list give the same
fold. -/
theorem foldl_congr_mem {α β : Type} (f g : β → α → β) :
    ∀ (l : List α) (init : β), (∀ b a, a ∈ l → f b a = g b a) →
      l.foldl f init = l.foldl g init := by
  intro l
  induction l with
  | nil => intro init _; rfl
  | cons a l ih =>
    intro init h
    rw [List.foldl_cons, List.foldl_cons, h init a (List.mem_cons_self _ _)]
    exact ih _ (fun b x hx => h b x (List.mem_cons_of_mem _ hx))

theorem process_fold (START : Int) (input : List Int) :
    ∀ (n a : Nat) (acc : List Int), a + n = input.length →
      (List.range' a n).foldl
        (fun ln i => if 0 < input.getD i 0 then ln ++ [START + (i : Int)] else ln) acc
        = acc ++ line (START + (a : Int)) (input.drop a) := by
  intro n
  induction n with
  | zero =>
    intro a acc ha
    have : input.drop a = [] := List.drop_eq_nil_of_le (by omega)
    simp [this, line]
  | succ n ih =>
    intro a acc ha
    have hlt : a < input.length := by omega
    have hget : input.getD a 0 = input[a] := by
      simp [List.getD_eq_getElem?_getD, List.getElem?_eq_getElem hlt]
    rw [List.range'_succ, List.foldl_cons, ih (a + 1) _ (by omega),
      List.drop_eq_getElem_cons hlt, line, hget]
    have hcast : START + ((a + 1 : Nat) : Int) = START + (a : Int) + 1 := by
      push_cast
      omega
    rw [hcast]
    split <;> simp

/-- What `NumericSubsets::process` prints for a full array, when the
values `START`, ..., `START + K - 1` are in the range of `int`. -/
theorem subsets_process (K : Nat) (START : Int) (b : List Int) (index : Nat) (hb : b.length = K)
    (hlo : -2 ^ 31 ≤ START) (hhi : START + (K : Int) ≤ 2 ^ 31) :
    (NumericSubsets K START).process b index = line START b := by
  have := process_fold START b K 0 [] (by omega)
  simp only [List.nil_append, Nat.cast_zero, Int.add_zero, List.drop_zero] at this
  rw [← this]
  simp only [NumericSubsets, List.range_eq_range']
  apply foldl_congr_mem
  intro ln i hi
  rw [List.mem_range'_1] at hi
  rw [toInt32_eq _ (by omega) (by omega)]

theorem values_succ (K : Nat) (START : Int) :
    values (K + 1) START = START :: values K (START + 1) := by
  unfold values
  rw [List.range_succ_eq_map, List.map_cons, List.map_map]
  congr 1
  · exact Int.add_zero START
  · apply List.map_congr_left
    intro i _
    simp only [Function.comp_apply, Nat.succ_eq_add_one]
    push_cast
    omega

/-- The lines for all ways to fill the array are the sub-lists of the
values, the full list first and the empty list last. -/
theorem choices_lines :
    ∀ (K : Nat) (START : Int),
      (choices K).map (line START) = (List.sublists' (values K START)).reverse := by
  intro K
  induction K with
  | zero => intro START; rfl
  | succ K ih =>
    intro START
    rw [values_succ, List.sublists'_cons, List.reverse_append, ← List.map_reverse, ← ih]
    simp only [choices, List.map_append, List.map_map]
    congr 1

/-- C20: for every `K >= 2` and every `START` for which the values
START, ..., START + K - 1 are in the range of `int` (as `START` itself
is, being an `int` template argument), and whatever the array holds at
the start, the run of `NumericSubsets<K, START>` ends, calls `process`
2^K times, and the lines printed are the sub-lists of
START, ..., START + K - 1 (the subsets, each written in increasing
order), each once, the full set first and the empty set last. -/
theorem C20_subsets_enumerated (K : Nat) (START : Int) (input : List Int) (_hK : 2 ≤ K)
    (hlo : -2 ^ 31 ≤ START) (hhi : START + (K : Int) ≤ 2 ^ 31)
    (hinput : input.length = K) :
    ∃ s, run (NumericSubsets K START) K input = some s ∧
      s.printed = (List.sublists' (values K START)).reverse ∧
      s.printed.length = 2 ^ K ∧
      (∀ S : List Int, S ∈ s.printed ↔ S.Sublist (values K START)) ∧
      s.printed.Nodup := by
  obtain ⟨s, hrun, _, _, _, hprinted⟩ :=
    subsets_call K START K (K + 1) 0 ⟨input, false, []⟩ (by omega) (by omega) rfl hinput
  have hlines : s.printed = (List.sublists' (values K START)).reverse := by
    rw [hprinted, ← choices_lines]
    simp only [List.take_zero, List.nil_append]
    apply List.map_congr_left
    intro b hb
    exact subsets_process K START b K (length_of_mem_choices K b hb) hlo hhi
  have hnodup : (values K START).Nodup := by
    unfold values
    apply List.Nodup.map _ (List.nodup_range K)
    intro a b hab
    simpa using hab
  refine ⟨s, hrun, hlines, ?_, ?_, ?_⟩
  · rw [hlines, List.length_reverse, List.length_sublists', values, List.length_map,
      List.length_range]
  · intro S
    rw [hlines, List.mem_reverse, List.mem_sublists']
  · rw [hlines, List.nodup_reverse]
    exact List.nodup_sublists'.mpr hnodup

/-- The run of `main`: `NumericSubsets<4, 9>` prints sixteen lines, from
9 10 11 12 down to the empty line. -/
theorem C20_subsets_enumerated_witness :
    (2 ≤ 4 ∧ -2 ^ 31 ≤ (9 : Int) ∧
      (9 : Int) + ((4 : Nat) : Int) ≤ 2 ^ 31 ∧ ([0, 0, 0, 0] : List Int).length = 4 ∧
      (run (NumericSubsets 4 9) 4 [0, 0, 0, 0]).map (fun s => s.printed)
        = some [[9, 10, 11, 12], [9, 10, 11], [9, 10, 12], [9, 10], [9, 11, 12], [9, 11],
            [9, 12], [9], [10, 11, 12], [10, 11], [10, 12], [10], [11, 12], [11], [12], []]) ∧
    ∃ s, run (NumericSubsets 4 9) 4 [0, 0, 0, 0] = some s ∧
      s.printed = (List.sublists' (values 4 9)).reverse ∧
      s.printed.length = 2 ^ 4 ∧
      (∀ S : List Int, S ∈ s.printed ↔ S.Sublist (values 4 9)) ∧
      s.printed.Nodup :=
  ⟨⟨by decide, by decide, by decide, by decide, by decide⟩,
    C20_subsets_enumerated 4 9 [0, 0, 0, 0] (by decide) (by decide) (by decide) (by decide)⟩

end Backtracking

end Sandbox

namespace Sandbox

namespace Backtracking

/-! ### `NumericPermutations` -/

theorem mem_values (K : Nat) (START x : Int) :
    x ∈ values K START ↔ ∃ i : Nat, i < K ∧ x = START + (i : Int) := by
  simp only [values, List.mem_map, List.mem_range]
  constructor
  · rintro ⟨i, hi, rfl⟩
    exact ⟨i, hi, rfl⟩
  · rintro ⟨i, hi, rfl⟩
    exact ⟨i, hi, rfl⟩

theorem foldl_range_getD {β : Type} (g : β → Int → β) (l : List Int) :
    ∀ (n : Nat) (init : β), n ≤ l.length →
      (List.range n).foldl (fun acc i => g acc (l.getD i 0)) init = (l.take n).foldl g init := by
  intro n
  induction n with
  | zero => intro init _; rfl
  | succ n ih =>
    intro init hn
    have hlt : n < l.length := by omega
    have hget : l.getD n 0 = l[n] := by
      simp [List.getD_eq_getElem?_getD, List.getElem?_eq_getElem hlt]
    rw [List.range_succ, List.foldl_append, ih init (by omega), List.take_succ,
      List.getElem?_eq_getElem hlt, List.foldl_append]
    simp [List.getD_eq_getElem?_getD, List.getElem?_eq_getElem hlt]

theorem foldl_append_if {α β : Type} (q : α → Bool) (f : α → β) (l : List α) :
    ∀ init : List β,
      l.foldl (fun acc i => if q i = true then acc ++ [f i] else acc) init
        = init ++ (l.filter q).map f := by
  induction l with
  | nil => intro init; simp
  | cons a l ih =>
    intro init
    rw [List.foldl_cons, ih]
    by_cases h : q a = true
    · simp [h, List.filter_cons]
    · simp [h, List.filter_cons]

/-- The first loop of `generate_candidates` marks the positions of the
values that stand in the prefix. -/
theorem marks (K : Nat) (START : Int) (pre : List Int)
    (hpre : ∀ x, x ∈ pre → x ∈ values K START) :
    (pre.foldl (fun possible x => possible.set (x - START).toNat 1)
        (List.replicate K (0 : Int))).length = K ∧
    ∀ i : Nat, i < K →
      (pre.foldl (fun possible x => possible.set (x - START).toNat 1)
        (List.replicate K (0 : Int))).getD i 0
        = if START + (i : Int) ∈ pre then 1 else 0 := by
  induction pre using List.reverseRecOn with
  | nil =>
    refine ⟨by simp, fun i hi => ?_⟩
    simp [List.getD_eq_getElem?_getD, List.getElem?_replicate, hi]
  | append_singleton pre x ih =>
    obtain ⟨hlen, hget⟩ := ih (fun y hy => hpre y (List.mem_append_left _ hy))
    obtain ⟨i0, hi0, hx⟩ := (mem_values K START x).mp
      (hpre x (List.mem_append_right _ (List.mem_singleton_self x)))
    have hidx : (x - START).toNat = i0 := by
      rw [hx]
      simp
    rw [List.foldl_append]
    simp only [List.foldl_cons, List.foldl_nil, hidx]
    refine ⟨by rw [List.length_set]; exact hlen, fun i hi => ?_⟩
    rw [List.getD_eq_getElem?_getD, List.getElem?_set]
    by_cases hii : i0 = i
    · subst hii
      rw [if_pos rfl, if_pos (by rw [hlen]; exact hi0), if_pos (by rw [← hx]; simp)]
      rfl
    · rw [if_neg hii, ← List.getD_eq_getElem?_getD, hget i hi]
      have hne : START + (i : Int) ≠ x := by
        rw [hx]
        omega
      simp [hne]

/-- `generate_candidates` of `NumericPermutations`: the values that do not
stand in the prefix, in increasing order, when `K` and the values
`START`, ..., `START + K - 1` are in the range of `int`. -/
theorem perms_generate (K : Nat) (START : Int) (hK : (K : Int) < 2 ^ 31)
    (hlo : -2 ^ 31 ≤ START) (hhi : START + (K : Int) ≤ 2 ^ 31) (input : List Int) (index : Nat)
    (hindex : index < K) (hlen : input.length = K)
    (hpre : ∀ x, x ∈ input.take index → x ∈ values K START) :
    (NumericPermutations K START).generate_candidates input index
      = (values K START).filter (fun x => decide (x ∉ input.take index)) := by
  have hne : ¬ K = index := by omega
  obtain ⟨_, hget⟩ := marks K START (input.take index) hpre
  simp only [NumericPermutations, if_neg hne]
  have h0 : (List.range index).foldl
      (fun possible i => possible.set (toInt32 (input.getD i 0 - START)).toNat 1)
      (List.replicate K (0 : Int))
      = (input.take index).foldl (fun possible x => possible.set (x - START).toNat 1)
        (List.replicate K (0 : Int)) := by
    rw [foldl_range_getD
      (fun (possible : List Int) (x : Int) => possible.set (toInt32 (x - START)).toNat 1)
      input index (List.replicate K (0 : Int)) (by omega)]
    apply foldl_congr_mem
    intro possible x hx
    obtain ⟨i, hi, rfl⟩ := (mem_values K START x).mp (hpre x hx)
    rw [toInt32_eq _ (by omega) (by omega)]
  rw [h0]
  have h2 : (List.range K).foldl
      (fun candidates i =>
        if 1 > ((input.take index).foldl (fun possible x => possible.set (x - START).toNat 1)
            (List.replicate K (0 : Int))).getD i 0
        then candidates ++ [toInt32 (START + (i : Int))] else candidates) []
      = (List.range K).foldl
      (fun candidates i =>
        if 1 > ((input.take index).foldl (fun possible x => possible.set (x - START).toNat 1)
            (List.replicate K (0 : Int))).getD i 0
        then candidates ++ [START + (i : Int)] else candidates) [] := by
    apply foldl_congr_mem
    intro candidates i hi
    rw [List.mem_range] at hi
    rw [toInt32_eq _ (by omega) (by omega)]
  rw [h2]
  have h1 := foldl_append_if
    (fun i : Nat => decide (1 >
      ((input.take index).foldl (fun possible x => possible.set (x - START).toNat 1)
        (List.replicate K (0 : Int))).getD i 0))
    (fun i : Nat => START + (i : Int)) (List.range K) []
  simp only [decide_eq_true_eq, List.nil_append] at h1
  rw [h1, values, List.filter_map]
  congr 1
  apply List.filter_congr
  intro i hi
  rw [List.mem_range] at hi
  simp only [Function.comp_apply, hget i hi]
  by_cases hm : START + (i : Int) ∈ input.take index
  · simp [hm]
  · simp [hm]

end Backtracking

end Sandbox

namespace Sandbox

namespace Backtracking

theorem filter_not_mem_concat (V pre : List Int) (c : Int) :
    V.filter (fun x => decide (x ∉ pre ++ [c]))
      = (V.filter (fun x => decide (x ∉ pre))).filter (fun x => decide (x ≠ c)) := by
  rw [List.filter_filter]
  apply List.filter_congr
  intro x _
  by_cases h1 : x ∈ pre <;> by_cases h2 : x = c <;> simp [h1, h2]

/-- The loop over the candidates at `index`, given what a call at
`index + 1` does: every candidate is put behind the prefix and the run
from there prints its lines. -/
theorem perms_candidates (K : Nat) (START : Int) (d fuel index : Nat) (pre : List Int)
    (hprelen : pre.length = index) (hlt : index < K)
    (hpreV : ∀ x, x ∈ pre → x ∈ values K START)
    (ih : ∀ s : State, s.finished_ = false → s.input.length = K →
      (∀ x, x ∈ s.input.take (1 + index) → x ∈ values K START) →
      ∃ s1, call (NumericPermutations K START) K fuel s (1 + index) = some s1 ∧
        s1.finished_ = false ∧ s1.input.length = K ∧
        s1.input.take (1 + index) = s.input.take (1 + index) ∧
        s1.printed = s.printed ++
          (arrangements d
            ((values K START).filter (fun x => decide (x ∉ s.input.take (1 + index))))).map
            (fun p => s.input.take (1 + index) ++ p)) :
    ∀ (cs : List Int) (s : State), (∀ c, c ∈ cs → c ∈ values K START) →
      s.finished_ = false → s.input.length = K → s.input.take index = pre →
      ∃ s1,
        cs.foldl
          (fun acc candidate =>
            match acc with
            | none => none
            | some s2 =>
              if s2.finished_ = true then some s2
              else
                call (NumericPermutations K START) K fuel
                  { s2 with input := s2.input.set index candidate } (1 + index))
          (some s) = some s1 ∧
        s1.finished_ = false ∧ s1.input.length = K ∧ s1.input.take index = pre ∧
        s1.printed = s.printed ++
          cs.flatMap (fun c =>
            (arrangements d ((values K START).filter (fun x => decide (x ∉ pre ++ [c])))).map
              (fun p => (pre ++ [c]) ++ p)) := by
  intro cs
  induction cs with
  | nil =>
    intro s _ hfin hlen htake
    exact ⟨s, rfl, hfin, hlen, htake, by simp⟩
  | cons c cs ihcs =>
    intro s hcs hfin hlen htake
    have htk : (s.input.set index c).take (1 + index) = pre ++ [c] := by
      rw [Nat.add_comm, take_set_succ _ _ _ (by omega), htake]
    obtain ⟨sc, hcall, hfc, hlc, htc, hpc⟩ := ih { s with input := s.input.set index c } hfin
      (by simp [hlen])
      (by
        intro x hx
        simp only at hx
        rw [htk] at hx
        rcases List.mem_append.mp hx with h | h
        · exact hpreV x h
        · simp only [List.mem_singleton] at h
          rw [h]
          exact hcs c (List.mem_cons_self _ _))
    simp only at htc hpc
    rw [htk] at htc hpc
    have htc1 : sc.input.take index = pre := by
      rw [Nat.add_comm] at htc
      exact take_of_take_succ _ _ _ _ hprelen htc
    obtain ⟨s1, hfold, hf1, hl1, ht1, hp1⟩ :=
      ihcs sc (fun x hx => hcs x (List.mem_cons_of_mem _ hx)) hfc hlc htc1
    refine ⟨s1, ?_, hf1, hl1, ht1, ?_⟩
    · simp only [hfin] at hcall
      rw [List.foldl_cons]
      simp only [hfin, Bool.false_eq_true, if_false]
      rw [hcall]
      exact hfold
    · rw [hp1, hpc, List.flatMap_cons, List.append_assoc]

/-- A run of `NumericPermutations` from `index` on prints, behind what
is printed already, the prefix followed by every arrangement of the
values that are not in the prefix, and leaves the entries before `index`
alone. -/
theorem perms_call (K : Nat) (START : Int) (hKint : (K : Int) < 2 ^ 31)
    (hlo : -2 ^ 31 ≤ START) (hhi : START + (K : Int) ≤ 2 ^ 31) :
    ∀ (d fuel index : Nat) (s : State), index + d = K → d < fuel → s.finished_ = false →
      s.input.length = K → (∀ x, x ∈ s.input.take index → x ∈ values K START) →
      ∃ s1, call (NumericPermutations K START) K fuel s index = some s1 ∧
        s1.finished_ = false ∧ s1.input.length = K ∧
        s1.input.take index = s.input.take index ∧
        s1.printed = s.printed ++
          (arrangements d
            ((values K START).filter (fun x => decide (x ∉ s.input.take index)))).map
            (fun p => s.input.take index ++ p) := by
  intro d
  induction d with
  | zero =>
    intro fuel index s hK hfuel hfin hlen _
    obtain ⟨fuel, rfl⟩ : ∃ f, fuel = f + 1 := ⟨fuel - 1, by omega⟩
    have hidx : index = K := by omega
    subst hidx
    refine ⟨{ s with printed := s.printed ++ [s.input] }, ?_, hfin, hlen, rfl, ?_⟩
    · simp [call, NumericPermutations, hfin]
    · have : s.input.take index = s.input := by
        rw [← hlen]
        exact List.take_length _
      simp [arrangements, this]
  | succ d ih =>
    intro fuel index s hK hfuel hfin hlen hpre
    obtain ⟨fuel, rfl⟩ : ∃ f, fuel = f + 1 := ⟨fuel - 1, by omega⟩
    have hlt : index < K := by omega
    have hprelen : (s.input.take index).length = index := prefix_length _ _ _ hlen (by omega)
    have hgen := perms_generate K START hKint hlo hhi s.input index hlt hlen hpre
    obtain ⟨s1, hfold, hf1, hl1, ht1, hp1⟩ :=
      perms_candidates K START d fuel index (s.input.take index) hprelen hlt hpre
        (fun t htf htl htp => ih fuel (1 + index) t (by omega) (by omega) htf htl htp)
        ((values K START).filter (fun x => decide (x ∉ s.input.take index))) s
        (fun c hc => (List.mem_filter.mp hc).1) hfin hlen rfl
    refine ⟨s1, ?_, hf1, hl1, ht1, ?_⟩
    · have hterm : (NumericPermutations K START).terminates s.input index = false := by
        simp [NumericPermutations]
        omega
      rw [call]
      simp only [hterm, hfin, hgen, Bool.false_eq_true, if_false, ge_iff_le, Nat.le_of_lt hlt,
        if_true]
      exact hfold
    · rw [hp1, arrangements, List.map_flatMap]
      congr 2
      funext c
      rw [filter_not_mem_concat, List.map_map]
      apply List.map_congr_left
      intro p _
      simp

end Backtracking

end Sandbox

namespace Sandbox

namespace Backtracking

/-! ### The arrangements are the permutations, in lexicographic order -/

theorem length_filter_ne (c : Int) :
    ∀ l : List Int, l.Nodup → c ∈ l →
      (l.filter (fun x => decide (x ≠ c))).length + 1 = l.length := by
  intro l
  induction l with
  | nil => intro _ h; simp at h
  | cons a l ih =>
    intro hnd hc
    rw [List.nodup_cons] at hnd
    by_cases hac : a = c
    · subst hac
      have hall : l.filter (fun x => decide (x ≠ a)) = l := by
        rw [List.filter_eq_self]
        intro x hx
        simp only [ne_eq, decide_eq_true_eq]
        intro e
        exact hnd.1 (by rw [← e]; exact hx)
      rw [List.filter_cons, if_neg (by simp), hall, List.length_cons]
    · have hcl : c ∈ l := by
        rcases List.mem_cons.mp hc with h | h
        · exact absurd h.symm hac
        · exact h
      have := ih hnd.2 hcl
      rw [List.filter_cons, if_pos (by simpa using hac), List.length_cons, List.length_cons]
      omega

theorem perm_cons_filter_ne (c : Int) :
    ∀ l : List Int, l.Nodup → c ∈ l →
      (c :: l.filter (fun x => decide (x ≠ c))).Perm l := by
  intro l
  induction l with
  | nil => intro _ h; simp at h
  | cons a l ih =>
    intro hnd hc
    rw [List.nodup_cons] at hnd
    by_cases hac : a = c
    · subst hac
      have hall : l.filter (fun x => decide (x ≠ a)) = l := by
        rw [List.filter_eq_self]
        intro x hx
        simp only [ne_eq, decide_eq_true_eq]
        intro e
        exact hnd.1 (by rw [← e]; exact hx)
      rw [List.filter_cons, if_neg (by simp), hall]
    · have hcl : c ∈ l := by
        rcases List.mem_cons.mp hc with h | h
        · exact absurd h.symm hac
        · exact h
      have h1 := ih hnd.2 hcl
      rw [List.filter_cons, if_pos (by simpa using hac)]
      exact List.Perm.trans (List.Perm.swap a c _) (List.Perm.cons a h1)

theorem length_flatMap_const {α β : Type} (f : α → List β) (k : Nat) :
    ∀ l : List α, (∀ c, c ∈ l → (f c).length = k) → (l.flatMap f).length = l.length * k := by
  intro l
  induction l with
  | nil => intro _; simp
  | cons a l ih =>
    intro h
    rw [List.flatMap_cons, List.length_append, h a (List.mem_cons_self _ _),
      ih (fun c hc => h c (List.mem_cons_of_mem _ hc)), List.length_cons, Nat.succ_mul]
    omega

theorem length_arrangements :
    ∀ (n : Nat) (avail : List Int), avail.Nodup → avail.length = n →
      (arrangements n avail).length = n.factorial := by
  intro n
  induction n with
  | zero => intro avail _ _; rfl
  | succ n ih =>
    intro avail hnd hlen
    rw [arrangements, length_flatMap_const _ n.factorial avail, hlen, Nat.factorial_succ]
    intro c hc
    rw [List.length_map]
    apply ih _ (hnd.filter _)
    have := length_filter_ne c avail hnd hc
    omega

theorem mem_arrangements :
    ∀ (n : Nat) (avail : List Int), avail.Nodup → avail.length = n →
      ∀ p : List Int, p ∈ arrangements n avail ↔ p.Perm avail := by
  intro n
  induction n with
  | zero =>
    intro avail _ hlen p
    have : avail = [] := List.eq_nil_of_length_eq_zero hlen
    subst this
    simp [arrangements]
  | succ n ih =>
    intro avail hnd hlen p
    simp only [arrangements, List.mem_flatMap, List.mem_map]
    constructor
    · rintro ⟨c, hc, q, hq, rfl⟩
      have hlf : (avail.filter (fun x => decide (x ≠ c))).length = n := by
        have := length_filter_ne c avail hnd hc
        omega
      have hqp := (ih _ (hnd.filter _) hlf q).mp hq
      exact List.Perm.trans (List.Perm.cons c hqp) (perm_cons_filter_ne c avail hnd hc)
    · intro hp
      cases p with
      | nil =>
        have := hp.length_eq
        simp only [List.length_nil] at this
        omega
      | cons c q =>
        have hc : c ∈ avail := hp.subset (List.mem_cons_self _ _)
        have hlf : (avail.filter (fun x => decide (x ≠ c))).length = n := by
          have := length_filter_ne c avail hnd hc
          omega
        have hq : q.Perm (avail.filter (fun x => decide (x ≠ c))) :=
          List.Perm.cons_inv
            (List.Perm.trans hp (perm_cons_filter_ne c avail hnd hc).symm)
        exact ⟨c, hc, q, (ih _ (hnd.filter _) hlf q).mpr hq, rfl⟩

theorem sorted_arrangements :
    ∀ (n : Nat) (avail : List Int), avail.Pairwise (fun a b => a < b) →
      (arrangements n avail).Pairwise (List.Lex (fun a b : Int => a < b)) := by
  intro n
  induction n with
  | zero => intro avail _; simp [arrangements]
  | succ n ih =>
    intro avail havail
    rw [arrangements, List.pairwise_flatMap]
    constructor
    · intro c _
      rw [List.pairwise_map]
      exact (ih _ (havail.filter _)).imp List.Lex.cons
    · apply havail.imp
      intro a b hab x hx y hy
      obtain ⟨x1, _, rfl⟩ := List.mem_map.mp hx
      obtain ⟨y1, _, rfl⟩ := List.mem_map.mp hy
      exact List.Lex.rel hab

theorem pairwise_values (K : Nat) (START : Int) :
    (values K START).Pairwise (fun a b => a < b) := by
  unfold values
  rw [List.pairwise_map]
  apply (List.pairwise_lt_range K).imp
  intro a b hab
  omega

theorem lex_irrefl : ∀ l : List Int, ¬ List.Lex (fun a b : Int => a < b) l l := by
  intro l
  induction l with
  | nil => intro h; cases h
  | cons a l ih =>
    intro h
    cases h with
    | cons h1 => exact ih h1
    | rel h1 => exact Int.lt_irrefl a h1

/-- C19: for every `K` and every `START` for which the values
START, ..., START + K - 1 are in the range of `int` (as `K` and `START`
themselves are, being `int` template arguments), and whatever the array
holds at the start, the run of `NumericPermutations<K, START>` ends, calls
`process` K! times, the arrays it is called with are the permutations of
START, ..., START + K - 1, each array is lexicographically less than
every array that comes after it, and none comes twice. -/
theorem C19_permutations_enumerated (K : Nat) (START : Int) (input : List Int)
    (hKint : (K : Int) < 2 ^ 31) (hlo : -2 ^ 31 ≤ START) (hhi : START + (K : Int) ≤ 2 ^ 31)
    (hinput : input.length = K) :
    ∃ s, run (NumericPermutations K START) K input = some s ∧
      s.printed.length = K.factorial ∧
      (∀ a : List Int, a ∈ s.printed ↔ a.Perm (values K START)) ∧
      s.printed.Pairwise (List.Lex (fun a b : Int => a < b)) ∧
      s.printed.Nodup := by
  obtain ⟨s, hrun, _, _, _, hprinted⟩ :=
    perms_call K START hKint hlo hhi K (K + 1) 0 ⟨input, false, []⟩ (by omega) (by omega) rfl
      hinput (by intro x hx; simp at hx)
  have hlines : s.printed = arrangements K (values K START) := by
    rw [hprinted]
    simp
  have hsorted := pairwise_values K START
  have hnodup : (values K START).Nodup := hsorted.imp (fun h => Int.ne_of_lt h)
  have hlen : (values K START).length = K := by
    rw [values, List.length_map, List.length_range]
  have hlex := sorted_arrangements K _ hsorted
  refine ⟨s, hrun, ?_, ?_, ?_, ?_⟩
  · rw [hlines]
    exact length_arrangements K _ hnodup hlen
  · intro a
    rw [hlines]
    exact mem_arrangements K _ hnodup hlen a
  · rw [hlines]
    exact hlex
  · rw [hlines]
    unfold List.Nodup
    apply hlex.imp
    intro a b h e
    rw [e] at h
    exact lex_irrefl b h

/-- The run of `main`: `NumericPermutations<3, 14>` prints the six
arrangements of 14, 15, 16 in lexicographic order. -/
theorem C19_permutations_enumerated_witness :
    (((3 : Nat) : Int) < 2 ^ 31 ∧ -2 ^ 31 ≤ (14 : Int) ∧ (14 : Int) + ((3 : Nat) : Int) ≤ 2 ^ 31 ∧
      ([0, 0, 0] : List Int).length = 3 ∧
      (run (NumericPermutations 3 14) 3 [0, 0, 0]).map (fun s => s.printed)
        = some [[14, 15, 16], [14, 16, 15], [15, 14, 16], [15, 16, 14], [16, 14, 15],
            [16, 15, 14]]) ∧
    ∃ s, run (NumericPermutations 3 14) 3 [0, 0, 0] = some s ∧
      s.printed.length = Nat.factorial 3 ∧
      (∀ a : List Int, a ∈ s.printed ↔ a.Perm (values 3 14)) ∧
      s.printed.Pairwise (List.Lex (fun a b : Int => a < b)) ∧
      s.printed.Nodup :=
  ⟨⟨by decide, by decide, by decide, by decide, by decide⟩,
    C19_permutations_enumerated 3 14 [0, 0, 0] (by decide) (by decide) (by decide) (by decide)⟩

/-- At the upper end of the range: `NumericPermutations<2, 2147483646>`
prints the two arrangements of 2147483646 and 2147483647. -/
theorem permutations_at_the_end_of_the_range :
    (run (NumericPermutations 2 2147483646) 2 [0, 0]).map (fun s => s.printed)
      = some [[2147483646, 2147483647], [2147483647, 2147483646]] := by
  decide

end Backtracking

end Sandbox

/-! ## `priority-heaps/priority-heap.cc` -/

namespace Sandbox

namespace PriorityHeaps

/-- C21 at the failing input: after the pushes of 0, 1, 2, 4, 5, 3 into
the empty heap the container is 0 1 2 4 5 3; three pops return 0, 1, 2
and leave the container 4 3 5; the fourth pop returns 4 although 3 was
pushed, is not yet popped and is smaller. -/
theorem C21_pop_returns_larger_element :
    (PriorityHeap.mk []).pushAll [0, 1, 2, 4, 5, 3] = some ⟨[0, 1, 2, 4, 5, 3]⟩ ∧
    PriorityHeap.pops 3 ⟨[0, 1, 2, 4, 5, 3]⟩ = some ([0, 1, 2], ⟨[4, 3, 5]⟩) ∧
    (PriorityHeap.mk [4, 3, 5]).pop = some (4, ⟨[3, 5]⟩) ∧
    (3 : Int) ∈ (PriorityHeap.mk [4, 3, 5]).container_ ∧ (3 : Int) < 4 := by
  decide

/-- The run of `main`: the pushes of 9, 8, ..., 0 and five pops, which
return 0, 1, 2, 3, 4. -/
theorem main_pops :
    (PriorityHeap.mk []).pushAll [9, 8, 7, 6, 5, 4, 3, 2, 1, 0]
      = some ⟨[0, 1, 2, 4, 3, 7, 8, 5, 9, 6]⟩ ∧
    PriorityHeap.pops 5 ⟨[0, 1, 2, 4, 3, 7, 8, 5, 9, 6]⟩
      = some ([0, 1, 2, 3, 4], ⟨[5, 6, 7, 8, 9]⟩) := by
  decide

end PriorityHeaps

end Sandbox

/-! ## `hashmap.cc`, open addressing: `get` and the specified `locate` -/

namespace Sandbox

namespace Hashmap

/-- The specified walk finds nothing when no slot holds the item. -/
theorem OpenAddressMap.locateWalk_absent (m : OpenAddressMap Str) (x : Str)
    (habs : some x ∉ m.data_) :
    ∀ steps index, OpenAddressMap.locateWalk stringPolicy m x steps index = default := by
  intro steps
  induction steps with
  | zero => intro index; rfl
  | succ steps ih =>
    intro index
    rw [OpenAddressMap.locateWalk]
    cases hslot : m.slot index with
    | none => rfl
    | some y =>
      simp only []
      by_cases hy : y = x
      · subst hy
        have hlt : index < m.size := by
          by_contra hge
          rw [OpenAddressMap.slot_of_ge m index (by omega)] at hslot
          simp at hslot
        exact absurd ((OpenAddressMap.mem_data_iff m y).mpr ⟨index, hlt, hslot⟩) habs
      · rw [if_neg ((by simp [stringPolicy, CompareFunction, hy]) :
          ¬ stringPolicy.compare_ y x = true)]
        exact ih _

/-- The specified walk reaches an item that sits at distance `d` behind
occupied slots. -/
theorem OpenAddressMap.locateWalk_found (m : OpenAddressMap Str) (x : Str) (p d : Nat)
    (hocc : ∀ i, i ≤ d → (m.slot ((p + i) % m.size)).isSome = true)
    (hx : m.slot ((p + d) % m.size) = some x) :
    ∀ steps s, s ≤ d → d - s < steps →
      OpenAddressMap.locateWalk stringPolicy m x steps ((p + s) % m.size) = x := by
  intro steps
  induction steps with
  | zero => intro s _ h; omega
  | succ steps ih =>
    intro s hsd hsteps
    rw [OpenAddressMap.locateWalk]
    have ho := hocc s hsd
    cases hslot : m.slot ((p + s) % m.size) with
    | none => rw [hslot] at ho; simp at ho
    | some y =>
      simp only []
      by_cases hy : y = x
      · subst hy
        rw [if_pos ((by simp [stringPolicy, CompareFunction]) :
          stringPolicy.compare_ y y = true)]
      · rw [if_neg ((by simp [stringPolicy, CompareFunction, hy]) :
          ¬ stringPolicy.compare_ y x = true)]
        have hne : s ≠ d := by
          intro e
          rw [e, hx] at hslot
          exact hy (Option.some.inj hslot).symm
        rw [walk_succ]
        exact ih (s + 1) (by omega) (by omega)

/-- C22: for every table reachable from the empty table of at least one
slot by inserts and every item `x`, `get(x)`, which scans the whole cycle
and skips empty slots, returns what the specified `locate` returns, which
stops at the first empty slot. -/
theorem C22_get_agrees_with_locate (size : Nat) (hsize : 1 ≤ size) (m : OpenAddressMap Str)
    (hr : Reachable stringPolicy size m) (x : Str) :
    m.get stringPolicy x = some (m.locate stringPolicy x) := by
  have hms : m.size = size := Reachable.size_eq stringPolicy size (by omega) m hr
  have hget := OpenAddressMap.get_string m x (by omega)
  by_cases hmem : some x ∈ m.data_
  · rw [hget.1 hmem]
    obtain ⟨j, _, hj⟩ := (OpenAddressMap.mem_data_iff m x).mp hmem
    obtain ⟨d, hd, hdj, hocc⟩ :=
      Reachable.walk_occupied stringPolicy size (by omega) m hr j x hj
    rw [← hms] at hd hdj hocc
    have hp : stringPolicy.hash_ x % m.size < m.size := Nat.mod_lt _ (by omega)
    have := OpenAddressMap.locateWalk_found m x (stringPolicy.hash_ x % m.size) d hocc
      (by rw [hdj]; exact hj) m.size 0 (by omega) (by omega)
    rw [Nat.add_zero, Nat.mod_eq_of_lt hp] at this
    rw [OpenAddressMap.locate, this]
  · rw [hget.2 hmem, OpenAddressMap.locate, OpenAddressMap.locateWalk_absent m x hmem]

/-- In the three-slot table "d" is found one step behind its home slot by
both walks, and "g", which has the same home slot and is not in the
table, by neither. -/
theorem C22_get_agrees_with_locate_witness :
    (1 ≤ 3 ∧ Reachable stringPolicy 3 threeSlotsAD ∧
      threeSlotsAD.get stringPolicy (ascii "d") = some (ascii "d") ∧
      threeSlotsAD.get stringPolicy (ascii "g") = some default) ∧
    threeSlotsAD.get stringPolicy (ascii "d")
      = some (threeSlotsAD.locate stringPolicy (ascii "d")) ∧
    threeSlotsAD.get stringPolicy (ascii "g")
      = some (threeSlotsAD.locate stringPolicy (ascii "g")) :=
  have hr : Reachable stringPolicy 3 threeSlotsAD :=
    Reachable.insert threeSlotsA threeSlotsAD (ascii "d") Result.returned
      (Reachable.insert (OpenAddressMap.empty 3) threeSlotsA (ascii "a") Result.returned
        Reachable.empty (by decide))
      (by decide)
  ⟨⟨by decide, hr, by decide, by decide⟩,
    C22_get_agrees_with_locate 3 (by decide) threeSlotsAD hr (ascii "d"),
    C22_get_agrees_with_locate 3 (by decide) threeSlotsAD hr (ascii "g")⟩

end Hashmap

end Sandbox

/-! ## `trees/binary-tree.cc` -/

namespace Sandbox

namespace Trees

/-- C23 at the failing input: `insert(1)` three times.  After two inserts
the second 1 is the right child of the first; the third insert makes
`update_height` rotate the first 1 down to the left, so the root, the
second 1, has a left child of value 1, which is not strictly less than
the value 1 of the root. -/
theorem C23_rotation_moves_equal_value_left :
    (BinaryTree.mk [] none).insertAll 50 [1, 1]
      = Run.done ⟨[⟨none, none, some 1, 1, 1⟩, ⟨none, some 0, none, 1, 0⟩], some 0⟩ ∧
    (BinaryTree.mk [] none).insertAll 50 [1, 1, 1]
      = Run.done
          ⟨[⟨none, some 1, none, 1, 0⟩, ⟨some 0, none, some 2, 1, 1⟩, ⟨none, some 1, none, 1, 0⟩],
            some 1⟩ ∧
    inOrder
        ⟨[⟨none, some 1, none, 1, 0⟩, ⟨some 0, none, some 2, 1, 1⟩, ⟨none, some 1, none, 1, 0⟩],
          some 1⟩ 3 (some 0) = [1] ∧
    ¬ ((1 : Int) < 1) := by
  decide

/-- The run of `main`: the inserts of 1, ..., 15 end with the root 8 and
the values in order. -/
theorem main_tree :
    ∃ t, (BinaryTree.mk [] none).insertAll 50 [1, 2, 3, 4, 5, 6, 7, 8, 9, 10, 11, 12, 13, 14, 15]
        = Run.done t ∧
      t.root_ = some 7 ∧ (t.node 7).value = 8 ∧ (t.node 7).height = 3 ∧
      inOrder t 4 t.root_ = [1, 2, 3, 4, 5, 6, 7, 8, 9, 10, 11, 12, 13, 14, 15] := by
  refine ⟨_, rfl, ?_, ?_, ?_, ?_⟩ <;> decide

/-- On `treeZigZag` the two rotations of `update_height` undo each other,
so the call for the root never returns, whatever the fuel. -/
theorem update_height_zigzag : ∀ fuel, update_height fuel treeZigZag 0 2 = Run.outOfFuel := by
  intro fuel
  induction fuel using Nat.strong_induction_on with
  | _ fuel ih =>
    match fuel with
    | 0 => rfl
    | 1 => rfl
    | fuel + 2 =>
      have hstep : update_height (fuel + 2) treeZigZag 0 2 = update_height fuel treeZigZag 0 2 :=
        rfl
      rw [hstep]
      exact ih fuel (by omega)

/-- After `insert(0)` and `insert(2)`, `insert(1)` never returns. -/
theorem insert_zigzag_never_returns :
    (BinaryTree.mk [] none).insertAll 50 [0, 2] = Run.done treeZeroTwo ∧
    ∀ fuel, treeZeroTwo.insert fuel 1 = Run.outOfFuel := by
  refine ⟨by decide, ?_⟩
  intro fuel
  match fuel with
  | 0 => rfl
  | 1 => rfl
  | 2 => rfl
  | 3 => rfl
  | fuel + 4 =>
    have hstep : treeZeroTwo.insert (fuel + 4) 1 = update_height fuel treeZigZag 0 2 := rfl
    rw [hstep]
    exact update_height_zigzag fuel

end Trees

end Sandbox
